import Mathlib

/-!
Verification of the evolve neuroevolution core (rust/evolve-native).

Shallow embedding conventions:
* `f32`/`f64` values are modelled as exact rationals (`ℚ`); the spec itself
  treats floating-point rounding as test tolerance, not as semantics, and every
  claim under study is about algorithm structure, not rounding.
* `f64::INFINITY` (used by the crowding-distance routine) is modelled by `⊤` in
  `WithTop ℚ`, whose absorbing addition matches IEEE `∞ + finite = ∞`.
* The thread-local PRNG is modelled by explicit streams of draws passed as
  arguments; claims quantify over all draw streams.
* `tanh` is transcendental, hence not a function on `ℚ`; the evaluators are
  parameterised by an arbitrary activation `act : ℚ → ℚ`.  No claim under
  study depends on the actual values of `tanh`.
* Fallible indexing (Rust panics / `get_unchecked` out-of-bounds reads) is
  modelled by `Option`: a `none` result marks an execution that panics or hits
  undefined behaviour in the source.
-/

namespace Evolve

/-! ## Objective vectors (src/rust/evolve-native/src/nsga2.rs)

An objective vector is a `Vector3`: three `f32` objectives, modelled as `ℚ³`. -/

/-- Three objectives per individual, as in the `Vector3` objectives of nsga2.rs. -/
structure Objv where
  x : ℚ
  y : ℚ
  z : ℚ
  deriving DecidableEq, Repr

instance : Inhabited Objv := ⟨⟨0, 0, 0⟩⟩

/-- Faithful translation of the free function `dominates` in nsga2.rs:
a dominates b iff a ≥ b on all objectives AND a > b on at least one. -/
def dominates (a b : Objv) : Bool :=
  a.x ≥ b.x && a.y ≥ b.y && a.z ≥ b.z && (a.x > b.x || a.y > b.y || a.z > b.z)

theorem dominates_iff (a b : Objv) : dominates a b = true ↔
    (b.x ≤ a.x ∧ b.y ≤ a.y ∧ b.z ≤ a.z ∧ (b.x < a.x ∨ b.y < a.y ∨ b.z < a.z)) := by
  simp [dominates, and_assoc, or_assoc]

theorem dominates_irrefl (a : Objv) : dominates a a = false := by
  simp [dominates]

theorem dominates_asymm {a b : Objv} (h : dominates a b = true) :
    dominates b a = false := by
  rw [dominates_iff] at h
  rw [← Bool.not_eq_true, dominates_iff]
  rcases h with ⟨hx, hy, hz, hs⟩
  rintro ⟨hx2, hy2, hz2, hs2⟩
  rcases hs2 with h1 | h1 | h1
  · exact absurd hx (not_le.mpr h1)
  · exact absurd hy (not_le.mpr h1)
  · exact absurd hz (not_le.mpr h1)

theorem dominates_trans {a b c : Objv} (hab : dominates a b = true)
    (hbc : dominates b c = true) : dominates a c = true := by
  rw [dominates_iff] at hab hbc ⊢
  obtain ⟨hx1, hy1, hz1, hs1⟩ := hab
  obtain ⟨hx2, hy2, hz2, hs2⟩ := hbc
  refine ⟨le_trans hx2 hx1, le_trans hy2 hy1, le_trans hz2 hz1, ?_⟩
  rcases hs2 with h | h | h
  · exact Or.inl (lt_of_lt_of_le h hx1)
  · exact Or.inr (Or.inl (lt_of_lt_of_le h hy1))
  · exact Or.inr (Or.inr (lt_of_lt_of_le h hz1))

/-! ## Non-dominated sort (RustNsga2::non_dominated_sort)

The pairwise phase walks all index pairs `i < j` and fills a domination count
vector plus per-individual dominated sets.  We model the two arrays as
functions updated along a fold over the list of pairs, exactly mirroring the
nested loop. -/

/-- State of the pairwise comparison phase: `counts j` is `domination_count[j]`
(as `i32`, modelled by `ℤ`), `domSet i` is `dominated_set[i]`. -/
structure DomData where
  counts : ℕ → ℤ
  domSet : ℕ → List ℕ

/-- Objective of individual `i` (list lookup; all uses are in range). -/
def objAt (objs : List Objv) (i : ℕ) : Objv := objs.getD i default

/-- One iteration of the pairwise loop body for the pair `(i, j)`, `i < j`. -/
def pairStep (objs : List Objv) (st : DomData) (p : ℕ × ℕ) : DomData :=
  if dominates (objAt objs p.1) (objAt objs p.2) then
    { counts := Function.update st.counts p.2 (st.counts p.2 + 1),
      domSet := Function.update st.domSet p.1 (st.domSet p.1 ++ [p.2]) }
  else if dominates (objAt objs p.2) (objAt objs p.1) then
    { counts := Function.update st.counts p.1 (st.counts p.1 + 1),
      domSet := Function.update st.domSet p.2 (st.domSet p.2 ++ [p.1]) }
  else st

/-- The loop order of the nested pairwise loop: for each `i`, all `j` in
`(i+1)..n`. -/
def pairList (n : ℕ) : List (ℕ × ℕ) :=
  (List.range n).flatMap fun i => (List.range' (i + 1) (n - (i + 1))).map fun j => (i, j)

/-- The pairwise phase: fold the loop body over all pairs starting from zeroed
counts and empty dominated sets. -/
def pairPhase (objs : List Objv) : DomData :=
  (pairList objs.length).foldl (pairStep objs) ⟨fun _ => 0, fun _ => []⟩

/-- Dominance between population indices. -/
def Dom (objs : List Objv) (i j : ℕ) : Prop :=
  dominates (objAt objs i) (objAt objs j) = true

instance (objs : List Objv) (i j : ℕ) : Decidable (Dom objs i j) := by
  unfold Dom; infer_instance

theorem Dom_irrefl (objs : List Objv) (i : ℕ) : ¬ Dom objs i i := by
  simp [Dom, dominates_irrefl]

theorem Dom_asymm {objs : List Objv} {i j : ℕ} (h : Dom objs i j) : ¬ Dom objs j i := by
  unfold Dom at *
  simp [dominates_asymm h]

theorem Dom_trans {objs : List Objv} {i j k : ℕ} (h1 : Dom objs i j) (h2 : Dom objs j k) :
    Dom objs i k := dominates_trans h1 h2

theorem Dom_ne {objs : List Objv} {i j : ℕ} (h : Dom objs i j) : i ≠ j := by
  rintro rfl; exact Dom_irrefl objs i h

/-- What the pair `p` appends to `dominated_set[i]` during the pairwise loop. -/
def emit (objs : List Objv) (p : ℕ × ℕ) (i : ℕ) : List ℕ :=
  if dominates (objAt objs p.1) (objAt objs p.2) then
    (if p.1 = i then [p.2] else [])
  else if dominates (objAt objs p.2) (objAt objs p.1) then
    (if p.2 = i then [p.1] else [])
  else []

theorem pairStep_domSet (objs : List Objv) (st : DomData) (p : ℕ × ℕ) (i : ℕ) :
    (pairStep objs st p).domSet i = st.domSet i ++ emit objs p i := by
  unfold pairStep emit
  split
  · dsimp only
    rw [Function.update_apply]
    by_cases hi : i = p.1
    · subst hi; simp
    · rw [if_neg hi, if_neg (Ne.symm hi), List.append_nil]
  · split
    · dsimp only
      rw [Function.update_apply]
      by_cases hi : i = p.2
      · subst hi; simp
      · rw [if_neg hi, if_neg (Ne.symm hi), List.append_nil]
    · simp

theorem foldl_pairStep_domSet (objs : List Objv) :
    ∀ (L : List (ℕ × ℕ)) (st : DomData) (i : ℕ),
      (L.foldl (pairStep objs) st).domSet i =
        st.domSet i ++ L.flatMap (fun p => emit objs p i) := by
  intro L
  induction L with
  | nil => intro st i; simp
  | cons p L ih =>
      intro st i
      simp only [List.foldl_cons, List.flatMap_cons, ih, pairStep_domSet, List.append_assoc]

theorem mem_emit_iff {objs : List Objv} {p : ℕ × ℕ} {i j : ℕ} :
    j ∈ emit objs p i ↔
      (Dom objs p.1 p.2 ∧ p.1 = i ∧ p.2 = j) ∨
      (¬ Dom objs p.1 p.2 ∧ Dom objs p.2 p.1 ∧ p.2 = i ∧ p.1 = j) := by
  unfold emit Dom
  by_cases h1 : dominates (objAt objs p.1) (objAt objs p.2) = true
  · rw [if_pos h1]
    by_cases h2 : p.1 = i
    · subst h2; simp [h1]; exact eq_comm
    · rw [if_neg h2]; simp [h1, h2]
  · rw [if_neg h1]
    by_cases h2 : dominates (objAt objs p.2) (objAt objs p.1) = true
    · rw [if_pos h2]
      by_cases h3 : p.2 = i
      · subst h3; simp [h1, h2]; exact eq_comm
      · rw [if_neg h3]; simp [h1, h2, h3]
    · rw [if_neg h2]; simp [h1, h2]

theorem mem_pairList {n : ℕ} {p : ℕ × ℕ} :
    p ∈ pairList n ↔ p.1 < p.2 ∧ p.2 < n := by
  unfold pairList
  simp only [List.mem_flatMap, List.mem_map, List.mem_range, List.mem_range'_1]
  constructor
  · rintro ⟨i, hi, j, hj, rfl⟩
    refine ⟨hj.1, ?_⟩
    omega
  · rintro ⟨h1, h2⟩
    exact ⟨p.1, by omega, p.2, by omega, rfl⟩

theorem pairList_nodup (n : ℕ) : (pairList n).Nodup := by
  unfold pairList
  rw [List.nodup_flatMap]
  constructor
  · intro i _
    exact (List.nodup_range' _ _).map fun a b h => by simpa using h
  · refine (List.nodup_range n).pairwise_of_forall_ne ?_
    intro a b _ _ hab
    simp only [Function.onFun, List.disjoint_left]
    rintro p hp hq
    rcases List.mem_map.mp hp with ⟨j, _, rfl⟩
    rcases List.mem_map.mp hq with ⟨k, _, hk⟩
    exact hab (congrArg Prod.fst hk.symm)

/-- Membership in `dominated_set[i]` after the pairwise phase: exactly the
individuals dominated by `i` (for in-range indices). -/
theorem mem_pairPhase_domSet {objs : List Objv} {i j : ℕ} :
    j ∈ (pairPhase objs).domSet i ↔
      Dom objs i j ∧ i < objs.length ∧ j < objs.length := by
  unfold pairPhase
  rw [foldl_pairStep_domSet]
  simp only [List.nil_append, List.mem_flatMap]
  constructor
  · rintro ⟨p, hp, hm⟩
    rcases mem_pairList.mp hp with ⟨h1, h2⟩
    rcases mem_emit_iff.mp hm with ⟨hd, rfl, rfl⟩ | ⟨_, hd, rfl, rfl⟩
    · exact ⟨hd, by omega, by omega⟩
    · exact ⟨hd, by omega, by omega⟩
  · rintro ⟨hd, hi, hj⟩
    have hne : i ≠ j := Dom_ne hd
    rcases Nat.lt_or_ge i j with hij | hij
    · exact ⟨(i, j), mem_pairList.mpr ⟨hij, hj⟩, mem_emit_iff.mpr (Or.inl ⟨hd, rfl, rfl⟩)⟩
    · have hji : j < i := by omega
      exact ⟨(j, i), mem_pairList.mpr ⟨hji, hi⟩,
        mem_emit_iff.mpr (Or.inr ⟨Dom_asymm hd, hd, rfl, rfl⟩)⟩

theorem pairPhase_domSet_nodup (objs : List Objv) (i : ℕ) :
    ((pairPhase objs).domSet i).Nodup := by
  unfold pairPhase
  rw [foldl_pairStep_domSet]
  rw [List.nil_append, List.nodup_flatMap]
  constructor
  · intro p _
    unfold emit
    split
    · split <;> simp
    · split
      · split <;> simp
      · simp
  · refine (pairList_nodup objs.length).pairwise_of_forall_ne ?_
    intro p hp q hq hpq
    simp only [Function.onFun, List.disjoint_left]
    intro j hjp hjq
    apply hpq
    rcases mem_pairList.mp hp with ⟨hp1, _⟩
    rcases mem_pairList.mp hq with ⟨hq1, _⟩
    rcases mem_emit_iff.mp hjp with ⟨_, hpa, hpb⟩ | ⟨_, _, hpa, hpb⟩ <;>
      rcases mem_emit_iff.mp hjq with ⟨_, hqa, hqb⟩ | ⟨_, _, hqa, hqb⟩ <;>
      · apply Prod.ext <;> omega

/-- Helper: summing a function after bumping it at one point of the index set. -/
theorem sum_update_add (f : ℕ → ℤ) (s : Finset ℕ) (a : ℕ) (h : a ∈ s) (d : ℤ) :
    ∑ i ∈ s, Function.update f a (f a + d) i = (∑ i ∈ s, f i) + d := by
  rw [Finset.sum_update_of_mem h, Finset.sdiff_singleton_eq_erase,
    Finset.sum_erase_eq_sub h]
  ring

/-- Along the pairwise fold, `domination_count[j]` always equals the total
number of occurrences of `j` across all dominated sets. -/
theorem foldl_pairStep_counts (objs : List Objv) (n : ℕ) :
    ∀ (L : List (ℕ × ℕ)) (st : DomData),
      (∀ p ∈ L, p.1 < n ∧ p.2 < n) →
      (∀ j, st.counts j = ∑ i ∈ Finset.range n, ((st.domSet i).count j : ℤ)) →
      ∀ j, (L.foldl (pairStep objs) st).counts j =
        ∑ i ∈ Finset.range n, (((L.foldl (pairStep objs) st).domSet i).count j : ℤ) := by
  intro L
  induction L with
  | nil => intro st _ h j; exact h j
  | cons p L ih =>
      intro st hmem h j
      rw [List.foldl_cons]
      refine ih _ (fun q hq => hmem q (List.mem_cons_of_mem p hq)) ?_ j
      have hp := hmem p (List.mem_cons_self p L)
      intro j
      unfold pairStep
      split
      · dsimp only
        have hsum : (∑ k ∈ Finset.range n,
              ((Function.update st.domSet p.1 (st.domSet p.1 ++ [p.2]) k).count j : ℤ))
            = (∑ k ∈ Finset.range n, ((st.domSet k).count j : ℤ)) +
              (List.count j [p.2] : ℤ) := by
          have he : ∀ k ∈ Finset.range n,
              ((Function.update st.domSet p.1 (st.domSet p.1 ++ [p.2]) k).count j : ℤ)
              = ((st.domSet k).count j : ℤ) +
                (if k = p.1 then (List.count j [p.2] : ℤ) else 0) := by
            intro k _
            rw [Function.update_apply]
            by_cases hk : k = p.1
            · simp [hk, List.count_append]
            · simp [hk]
          rw [Finset.sum_congr rfl he, Finset.sum_add_distrib,
            Finset.sum_ite_eq' (Finset.range n) p.1 fun _ => (List.count j [p.2] : ℤ)]
          rw [if_pos (Finset.mem_range.mpr hp.1)]
        rw [hsum, ← h j, Function.update_apply]
        by_cases hj : j = p.2
        · subst hj; rw [if_pos rfl]; simp
        · rw [if_neg hj]; simp [List.count_singleton, hj]
      · split
        · dsimp only
          have hsum : (∑ k ∈ Finset.range n,
                ((Function.update st.domSet p.2 (st.domSet p.2 ++ [p.1]) k).count j : ℤ))
              = (∑ k ∈ Finset.range n, ((st.domSet k).count j : ℤ)) +
                (List.count j [p.1] : ℤ) := by
            have he : ∀ k ∈ Finset.range n,
                ((Function.update st.domSet p.2 (st.domSet p.2 ++ [p.1]) k).count j : ℤ)
                = ((st.domSet k).count j : ℤ) +
                  (if k = p.2 then (List.count j [p.1] : ℤ) else 0) := by
              intro k _
              rw [Function.update_apply]
              by_cases hk : k = p.2
              · simp [hk, List.count_append]
              · simp [hk]
            rw [Finset.sum_congr rfl he, Finset.sum_add_distrib,
              Finset.sum_ite_eq' (Finset.range n) p.2 fun _ => (List.count j [p.1] : ℤ)]
            rw [if_pos (Finset.mem_range.mpr hp.2)]
          rw [hsum, ← h j, Function.update_apply]
          by_cases hj : j = p.1
          · subst hj; rw [if_pos rfl]; simp
          · rw [if_neg hj]; simp [List.count_singleton, hj]
        · exact h j

/-- After the pairwise phase, `domination_count[j]` is the number of in-range
individuals that dominate `j`. -/
theorem pairPhase_counts (objs : List Objv) (j : ℕ) (hj : j < objs.length) :
    (pairPhase objs).counts j =
      (((Finset.range objs.length).filter (fun i => Dom objs i j)).card : ℤ) := by
  have h := foldl_pairStep_counts objs objs.length (pairList objs.length)
    ⟨fun _ => 0, fun _ => []⟩
    (fun p hp => by
      rcases mem_pairList.mp hp with ⟨h1, h2⟩
      exact ⟨by omega, h2⟩)
    (fun j => by simp) j
  rw [show (pairPhase objs) = (pairList objs.length).foldl (pairStep objs)
    ⟨fun _ => 0, fun _ => []⟩ from rfl, h]
  have hcount : ∀ i ∈ Finset.range objs.length,
      ((((pairList objs.length).foldl (pairStep objs)
        ⟨fun _ => 0, fun _ => []⟩).domSet i).count j : ℤ)
      = if Dom objs i j then 1 else 0 := by
    intro i hi
    have hmem := @mem_pairPhase_domSet objs i j
    have hnd := pairPhase_domSet_nodup objs i
    unfold pairPhase at hmem hnd
    by_cases hd : Dom objs i j
    · rw [List.count_eq_one_of_mem hnd (hmem.mpr ⟨hd, Finset.mem_range.mp hi, hj⟩)]
      simp [hd]
    · rw [List.count_eq_zero_of_not_mem (fun hc => hd (hmem.mp hc).1)]
      simp [hd]
  rw [Finset.sum_congr rfl hcount, Finset.sum_boole]

/-- Inner loop of front construction: for one member `i` of the current front,
decrement `domination_count[j]` for every `j` in `dominated_set[i]`, pushing
each `j` whose count reaches 0 onto the next front. -/
def decStep (st : (ℕ → ℤ) × List ℕ) (j : ℕ) : (ℕ → ℤ) × List ℕ :=
  let c := Function.update st.1 j (st.1 j - 1)
  (c, if c j = 0 then st.2 ++ [j] else st.2)

/-- Process all members of the current front in order, threading the counts and
the accumulating next front. -/
def processFront (domSet : ℕ → List ℕ) (counts : ℕ → ℤ) (front : List ℕ) :
    (ℕ → ℤ) × List ℕ :=
  front.foldl (fun st i => (domSet i).foldl decStep st) (counts, [])

/-- The `while !current_front.is_empty()` loop of `non_dominated_sort`,
with explicit fuel (the caller passes `n + 1`, which is shown sufficient). -/
def frontLoop (domSet : ℕ → List ℕ) : ℕ → (ℕ → ℤ) → List ℕ → List (List ℕ)
  | 0, _, _ => []
  | fuel + 1, counts, current =>
    if current.isEmpty then []
    else
      let st := processFront domSet counts current
      current :: frontLoop domSet fuel st.1 st.2

theorem frontLoop_succ (d : ℕ → List ℕ) (fuel : ℕ) (c : ℕ → ℤ) (cur : List ℕ) :
    frontLoop d (fuel + 1) c cur =
      if cur.isEmpty then []
      else cur :: frontLoop d fuel (processFront d c cur).1 (processFront d c cur).2 := rfl

/-- Faithful translation of `RustNsga2::non_dominated_sort`: the `n == 0`
early return, the pairwise domination-counting phase, the initial front of
zero-count individuals (in ascending index order), then the iterative front
peeling (the Rust locals `n`, `domination_count`/`dominated_set` and
`current_front` are inlined). -/
def non_dominated_sort (objs : List Objv) : List (List ℕ) :=
  if objs.length = 0 then []
  else
    frontLoop (pairPhase objs).domSet (objs.length + 1) (pairPhase objs).counts
      ((List.range objs.length).filter fun i => (pairPhase objs).counts i = 0)

/-- Membership in the layer of minimal elements above a processed set `P`:
in range, not yet processed, and every in-range dominator already processed. -/
def InLayer (objs : List Objv) (P : Finset ℕ) (j : ℕ) : Prop :=
  j < objs.length ∧ j ∉ P ∧ ∀ i < objs.length, Dom objs i j → i ∈ P

/-- Every nonempty set of individuals has a member dominated by none of the
set (the dominance relation is a strict partial order). -/
theorem exists_undominated (objs : List Objv) :
    ∀ (R : Finset ℕ), R.Nonempty → ∃ m ∈ R, ∀ i ∈ R, ¬ Dom objs i m := by
  intro R
  induction R using Finset.strongInductionOn with
  | _ R ih =>
      rintro ⟨j, hj⟩
      by_cases hdom : ∃ i ∈ R, Dom objs i j
      · obtain ⟨i0, hi0, hd0⟩ := hdom
        have hRne : (R.filter (fun x => Dom objs x j)).Nonempty :=
          ⟨i0, Finset.mem_filter.mpr ⟨hi0, hd0⟩⟩
        have hss : R.filter (fun x => Dom objs x j) ⊂ R := by
          refine Finset.ssubset_iff_of_subset (Finset.filter_subset _ _) |>.mpr ?_
          exact ⟨j, hj, fun hc => Dom_irrefl objs j (Finset.mem_filter.mp hc).2⟩
        obtain ⟨m, hm, hmin⟩ := ih _ hss hRne
        have hmR := (Finset.mem_filter.mp hm).1
        have hmj := (Finset.mem_filter.mp hm).2
        refine ⟨m, hmR, fun i hi hd => ?_⟩
        exact hmin i (Finset.mem_filter.mpr ⟨hi, Dom_trans hd hmj⟩) hd
      · exact ⟨j, hj, fun i hi hd => hdom ⟨i, hi, hd⟩⟩

/-- If some in-range individual is unprocessed, the next layer is nonempty
(dominance is acyclic, so peeling cannot get stuck). -/
theorem layer_nonempty (objs : List Objv) (P : Finset ℕ)
    (h : ∃ j < objs.length, j ∉ P) : ∃ j, InLayer objs P j := by
  classical
  obtain ⟨j0, hj0, hj0P⟩ := h
  set R : Finset ℕ := (Finset.range objs.length).filter (fun x => x ∉ P) with hR
  have hRne : R.Nonempty := ⟨j0, by simp [hR, Finset.mem_filter, hj0, hj0P]⟩
  obtain ⟨m, hm, hmin⟩ := exists_undominated objs R hRne
  rw [hR, Finset.mem_filter, Finset.mem_range] at hm
  refine ⟨m, hm.1, hm.2, fun i hi hd => ?_⟩
  by_contra hiP
  exact hmin i (by simp [hR, Finset.mem_filter, Finset.mem_range, hi, hiP]) hd

/-- Number of dominators of `j` outside a processed set `S`. -/
def outCount (objs : List Objv) (S : Finset ℕ) (j : ℕ) : ℕ :=
  ((Finset.range objs.length).filter fun i => i ∉ S ∧ Dom objs i j).card

/-- Folding `decStep` over a duplicate-free list decrements each listed count
once and pushes exactly the members whose count was 1. -/
theorem foldl_decStep (L : List ℕ) (hnd : L.Nodup) :
    ∀ (counts : ℕ → ℤ) (next : List ℕ),
      (∀ j, (L.foldl decStep (counts, next)).1 j =
        counts j - (if j ∈ L then 1 else 0)) ∧
      (L.foldl decStep (counts, next)).2 = next ++ L.filter (fun j => counts j = 1) := by
  induction L with
  | nil => intro counts next; simp
  | cons v L ih =>
      intro counts next
      have hvL : v ∉ L := (List.nodup_cons.mp hnd).1
      obtain ⟨ih1, ih2⟩ := ih (List.nodup_cons.mp hnd).2
        (Function.update counts v (counts v - 1))
        (if Function.update counts v (counts v - 1) v = 0 then next ++ [v] else next)
      constructor
      · intro j
        rw [List.foldl_cons, show decStep (counts, next) v =
          (Function.update counts v (counts v - 1),
           if Function.update counts v (counts v - 1) v = 0 then next ++ [v] else next)
          from rfl, ih1 j, Function.update_apply]
        by_cases hj : j = v
        · subst hj; simp [hvL]
        · simp [hj, List.mem_cons]
      · rw [List.foldl_cons, show decStep (counts, next) v =
          (Function.update counts v (counts v - 1),
           if Function.update counts v (counts v - 1) v = 0 then next ++ [v] else next)
          from rfl, ih2]
        have hfc : L.filter (fun j => decide (Function.update counts v (counts v - 1) j = 0 + 1))
            = L.filter (fun j => decide (counts j = 1)) := by
          refine List.filter_congr ?_
          intro j hj
          have : j ≠ v := fun h => hvL (h ▸ hj)
          simp [Function.update_apply, this]
        rw [Function.update_same, List.filter_cons]
        by_cases hv1 : counts v = 1
        · rw [if_pos (by omega : counts v - 1 = 0)]
          have : (decide (counts v = 1)) = true := by simp [hv1]
          rw [if_pos this]
          have : L.filter (fun j => decide (Function.update counts v (counts v - 1) j = 1))
              = L.filter (fun j => decide (counts j = 1)) := by
            refine List.filter_congr ?_
            intro j hj
            have hne : j ≠ v := fun h => hvL (h ▸ hj)
            simp [Function.update_apply, hne]
          rw [this, List.append_assoc, List.singleton_append]
        · rw [if_neg (by omega : ¬ counts v - 1 = 0)]
          have : (decide (counts v = 1)) = false := by simp [hv1]
          rw [if_neg (by simp [hv1])]
          have : L.filter (fun j => decide (Function.update counts v (counts v - 1) j = 1))
              = L.filter (fun j => decide (counts j = 1)) := by
            refine List.filter_congr ?_
            intro j hj
            have hne : j ≠ v := fun h => hvL (h ▸ hj)
            simp [Function.update_apply, hne]
          rw [this]

/-- Characterisation of one whole pass of the front-processing loop: after
processing all of `todo` (on top of the already-processed `done`), the counts
track dominators outside `P ∪ done ∪ todo`, and the accumulated next front
holds exactly the individuals all of whose dominators are processed and that
have at least one dominator within `done ∪ todo`. -/
theorem processFront_spec (objs : List Objv) (P : Finset ℕ) :
    ∀ (todo : List ℕ) (done : Finset ℕ) (counts : ℕ → ℤ) (next : List ℕ),
      todo.Nodup →
      (∀ v ∈ todo, v < objs.length ∧ v ∉ P ∧ v ∉ done ∧
        (∀ i, i < objs.length → Dom objs i v → i ∈ P)) →
      (∀ j, j < objs.length → counts j = (outCount objs (P ∪ done) j : ℤ)) →
      (∀ j, j ∈ next ↔ (j < objs.length ∧
        (∀ i, i < objs.length → Dom objs i j → i ∈ P ∪ done) ∧
        ∃ d ∈ done, Dom objs d j)) →
      next.Nodup →
      (∀ j, j < objs.length →
        (todo.foldl (fun st i => ((pairPhase objs).domSet i).foldl decStep st)
          (counts, next)).1 j = (outCount objs (P ∪ done ∪ todo.toFinset) j : ℤ)) ∧
      (∀ j, j ∈ (todo.foldl (fun st i => ((pairPhase objs).domSet i).foldl decStep st)
          (counts, next)).2 ↔ (j < objs.length ∧
        (∀ i, i < objs.length → Dom objs i j → i ∈ P ∪ done ∪ todo.toFinset) ∧
        ∃ d ∈ done ∪ todo.toFinset, Dom objs d j)) ∧
      ((todo.foldl (fun st i => ((pairPhase objs).domSet i).foldl decStep st)
          (counts, next)).2).Nodup := by
  intro todo
  induction todo with
  | nil =>
      intro done counts next _ _ hc hnext hnextN
      refine ⟨?_, ?_, hnextN⟩
      · intro j hj
        simpa using hc j hj
      · intro j
        simpa using hnext j
  | cons v todo ih =>
      intro done counts next hnd htodo hc hnext hnextN
      have hv := htodo v (List.mem_cons_self v todo)
      obtain ⟨hvn, hvP, hvdone, hvdom⟩ := hv
      have hvtodo : v ∉ todo := (List.nodup_cons.mp hnd).1
      -- effect of processing v
      obtain ⟨hd1, hd2⟩ := foldl_decStep ((pairPhase objs).domSet v)
        (pairPhase_domSet_nodup objs v) counts next
      set counts1 : ℕ → ℤ := fun j =>
        (((pairPhase objs).domSet v).foldl decStep (counts, next)).1 j with hcounts1
      set next1 : List ℕ :=
        (((pairPhase objs).domSet v).foldl decStep (counts, next)).2 with hnext1
      -- counts after processing v
      have hCerase : ∀ j, j < objs.length →
          (outCount objs (P ∪ (insert v done)) j : ℤ)
            = (outCount objs (P ∪ done) j : ℤ) - (if Dom objs v j then 1 else 0) := by
        intro j hj
        unfold outCount
        have hF : (Finset.range objs.length).filter
              (fun i => i ∉ P ∪ insert v done ∧ Dom objs i j)
            = ((Finset.range objs.length).filter
              (fun i => i ∉ P ∪ done ∧ Dom objs i j)).erase v := by
          ext i
          simp only [Finset.mem_filter, Finset.mem_erase, Finset.mem_union,
            Finset.mem_insert, Finset.mem_range]
          tauto
        rw [hF]
        by_cases hdv : Dom objs v j
        · have hvF : v ∈ (Finset.range objs.length).filter
              (fun i => i ∉ P ∪ done ∧ Dom objs i j) := by
            simp only [Finset.mem_filter, Finset.mem_union, Finset.mem_range]
            exact ⟨hvn, fun hc => (by tauto : False), hdv⟩
          rw [Finset.card_erase_of_mem hvF, if_pos hdv]
          have := Finset.card_pos.mpr ⟨v, hvF⟩
          omega
        · have hvF : v ∉ (Finset.range objs.length).filter
              (fun i => i ∉ P ∪ done ∧ Dom objs i j) := by
            simp only [Finset.mem_filter, Finset.mem_union, Finset.mem_range]
            tauto
          rw [Finset.erase_eq_of_not_mem hvF, if_neg hdv]
          ring
      have hc1 : ∀ j, j < objs.length →
          counts1 j = (outCount objs (P ∪ insert v done) j : ℤ) := by
        intro j hj
        have e1 : counts1 j = counts j -
            (if j ∈ (pairPhase objs).domSet v then 1 else 0) := hd1 j
        rw [e1, hCerase j hj, hc j hj]
        by_cases hm : j ∈ (pairPhase objs).domSet v
        · have hdv := (mem_pairPhase_domSet.mp hm).1
          rw [if_pos hm, if_pos hdv]
        · have hdv : ¬ Dom objs v j := fun hd =>
            hm (mem_pairPhase_domSet.mpr ⟨hd, hvn, hj⟩)
          rw [if_neg hm, if_neg hdv]
      -- membership in the next front after processing v
      have hn1 : ∀ j, j ∈ next1 ↔ (j < objs.length ∧
          (∀ i, i < objs.length → Dom objs i j → i ∈ P ∪ insert v done) ∧
          ∃ d ∈ insert v done, Dom objs d j) := by
        intro j
        rw [hd2, List.mem_append, List.mem_filter]
        constructor
        · rintro (hjn | ⟨hjd, hj1⟩)
          · obtain ⟨hjlen, hcl, d, hd, hdom⟩ := hnext j |>.mp hjn
            refine ⟨hjlen, fun i hi hdij => ?_, d, Finset.mem_insert_of_mem hd, hdom⟩
            have := hcl i hi hdij
            simp only [Finset.mem_union, Finset.mem_insert] at *
            tauto
          · obtain ⟨hdvj, _, hjlen⟩ := mem_pairPhase_domSet.mp hjd
            have hj1' : counts j = 1 := by simpa using hj1
            have hcard : outCount objs (P ∪ done) j = 1 := by
              have := hc j hjlen
              omega
            have hvF : v ∈ (Finset.range objs.length).filter
                (fun i => i ∉ P ∪ done ∧ Dom objs i j) := by
              simp only [Finset.mem_filter, Finset.mem_union, Finset.mem_range]
              exact ⟨hvn, fun hcon => (by tauto : False), hdvj⟩
            obtain ⟨a, ha⟩ := Finset.card_eq_one.mp hcard
            have hva : v = a := by
              have := ha ▸ hvF
              simpa using this
            refine ⟨hjlen, fun i hi hdij => ?_, v, Finset.mem_insert_self v done, hdvj⟩
            by_cases hiPd : i ∈ P ∪ done
            · simp only [Finset.mem_union, Finset.mem_insert] at hiPd ⊢
              tauto
            · have hiF : i ∈ (Finset.range objs.length).filter
                  (fun k => k ∉ P ∪ done ∧ Dom objs k j) := by
                simp only [Finset.mem_filter, Finset.mem_range]
                exact ⟨hi, hiPd, hdij⟩
              have : i = a := by
                have := ha ▸ hiF
                simpa using this
              simp [this, ← hva]
        · rintro ⟨hjlen, hcl, d, hd, hdom⟩
          by_cases hdvj : Dom objs v j
          · right
            refine ⟨mem_pairPhase_domSet.mpr ⟨hdvj, hvn, hjlen⟩, ?_⟩
            have hvF : v ∈ (Finset.range objs.length).filter
                (fun i => i ∉ P ∪ done ∧ Dom objs i j) := by
              simp only [Finset.mem_filter, Finset.mem_union, Finset.mem_range]
              exact ⟨hvn, fun hcon => (by tauto : False), hdvj⟩
            have hsub : (Finset.range objs.length).filter
                (fun i => i ∉ P ∪ done ∧ Dom objs i j) ⊆ {v} := by
              intro i hi
              simp only [Finset.mem_filter, Finset.mem_union, Finset.mem_range] at hi
              obtain ⟨hilen, hiPd, hdij⟩ := hi
              have := hcl i hilen hdij
              simp only [Finset.mem_union, Finset.mem_insert] at this
              have : i = v := by tauto
              simp [this]
            have hcard : outCount objs (P ∪ done) j = 1 := by
              unfold outCount
              have h1 : ({v} : Finset ℕ) ⊆ (Finset.range objs.length).filter
                  (fun i => i ∉ P ∪ done ∧ Dom objs i j) := by
                intro i hi
                simp only [Finset.mem_singleton] at hi
                subst hi
                exact hvF
              rw [Finset.Subset.antisymm hsub h1]
              simp
            simp only [decide_eq_true_eq]
            have := hc j hjlen
            omega
          · left
            rw [hnext j]
            have hd' : d ∈ done := by
              rcases Finset.mem_insert.mp hd with rfl | h
              · exact absurd hdom hdvj
              · exact h
            refine ⟨hjlen, fun i hi hdij => ?_, d, hd', hdom⟩
            have := hcl i hi hdij
            simp only [Finset.mem_union, Finset.mem_insert] at this ⊢
            rcases this with h | h
            · tauto
            · rcases h with rfl | h
              · exact absurd hdij hdvj
              · tauto
      -- the accumulated next front stays duplicate-free
      have hn1N : next1.Nodup := by
        rw [hd2]
        refine List.Nodup.append hnextN
          (List.Nodup.filter _ (pairPhase_domSet_nodup objs v)) ?_
        intro j hjn hjf
        rw [List.mem_filter] at hjf
        obtain ⟨hjd, hj1⟩ := hjf
        obtain ⟨hjlen, hcl, _⟩ := (hnext j).mp hjn
        have hj1' : counts j = 1 := by simpa using hj1
        have hout : outCount objs (P ∪ done) j = 0 := by
          unfold outCount
          rw [Finset.card_eq_zero, Finset.filter_eq_empty_iff]
          intro i hi
          rw [Finset.mem_range] at hi
          intro hcon
          exact hcon.1 (hcl i hi hcon.2)
        have := hc j hjlen
        omega
      -- apply the induction hypothesis with v moved into `done`
      have ihs := ih (insert v done)
        ((((pairPhase objs).domSet v).foldl decStep (counts, next)).1)
        ((((pairPhase objs).domSet v).foldl decStep (counts, next)).2)
        (List.nodup_cons.mp hnd).2
        (fun w hw => by
          obtain ⟨h1, h2, h3, h4⟩ := htodo w (List.mem_cons_of_mem v hw)
          refine ⟨h1, h2, ?_, h4⟩
          rw [Finset.mem_insert]
          rintro (rfl | hwdone)
          · exact hvtodo hw
          · exact h3 hwdone)
        (fun j hj => hc1 j hj)
        (fun j => hn1 j)
        hn1N
      have hU1 : P ∪ insert v done ∪ todo.toFinset
          = P ∪ done ∪ (v :: todo).toFinset := by
        ext i
        simp only [Finset.mem_union, Finset.mem_insert, List.toFinset_cons,
          List.mem_toFinset]
        tauto
      have hU2 : insert v done ∪ todo.toFinset = done ∪ (v :: todo).toFinset := by
        ext i
        simp only [Finset.mem_union, Finset.mem_insert, List.toFinset_cons,
          List.mem_toFinset]
        tauto
      obtain ⟨ih1', ih2', ih3'⟩ := ihs
      rw [hU1] at ih1' ih2'
      rw [hU2] at ih2'
      exact ⟨fun j hj => by rw [List.foldl_cons]; exact ih1' j hj,
        fun j => by rw [List.foldl_cons]; exact ih2' j,
        by rw [List.foldl_cons]; exact ih3'⟩

theorem frontLoop_shape (d : ℕ → List ℕ) (fuel : ℕ) (c : ℕ → ℤ) (cur : List ℕ) :
    frontLoop d fuel c cur = [] ∨ ∃ t, frontLoop d fuel c cur = cur :: t := by
  cases fuel with
  | zero => exact Or.inl rfl
  | succ f =>
      rw [frontLoop_succ]
      by_cases h : cur.isEmpty
      · rw [if_pos h]; exact Or.inl rfl
      · rw [if_neg h]; exact Or.inr ⟨_, rfl⟩

/-- Main invariant proof for the front-peeling loop: starting from any
processed, dominator-closed set `P` whose next layer is the current front,
the loop (with enough fuel) emits duplicate-free nonempty fronts that cover
exactly the unprocessed individuals, and each individual of a front `k+1` is
dominated by some member of front `k`. -/
theorem frontLoop_spec (objs : List Objv) :
    ∀ (fuel : ℕ) (P : Finset ℕ) (counts : ℕ → ℤ) (current : List ℕ),
      (∀ j ∈ P, j < objs.length) →
      (∀ j ∈ P, ∀ i, i < objs.length → Dom objs i j → i ∈ P) →
      current.Nodup →
      (∀ j, j ∈ current ↔ InLayer objs P j) →
      (∀ j, j < objs.length → counts j = (outCount objs P j : ℤ)) →
      objs.length + 1 ≤ fuel + P.card →
      (∀ j, j ∈ (frontLoop (pairPhase objs).domSet fuel counts current).flatten ↔
          (j < objs.length ∧ j ∉ P)) ∧
      ((frontLoop (pairPhase objs).domSet fuel counts current).flatten).Nodup ∧
      (∀ F ∈ frontLoop (pairPhase objs).domSet fuel counts current, F ≠ []) ∧
      (∀ k, k + 1 < (frontLoop (pairPhase objs).domSet fuel counts current).length →
        ∀ j ∈ (frontLoop (pairPhase objs).domSet fuel counts current).getD (k + 1) [],
          ∃ i ∈ (frontLoop (pairPhase objs).domSet fuel counts current).getD k [],
            Dom objs i j) := by
  intro fuel
  induction fuel with
  | zero =>
      intro P counts current hP _ _ _ _ hfuel
      exfalso
      have : P.card ≤ objs.length := by
        have : P ⊆ Finset.range objs.length := fun j hj =>
          Finset.mem_range.mpr (hP j hj)
        simpa using Finset.card_le_card this
      omega
  | succ f ih =>
      intro P counts current hP hPc hcurN hcur hc hfuel
      by_cases hemp : current.isEmpty
      · have hcure : current = [] := List.isEmpty_iff.mp hemp
        rw [show frontLoop (pairPhase objs).domSet (f + 1) counts current = []
          from by rw [frontLoop_succ, if_pos hemp]]
        refine ⟨?_, by simp, by simp, by simp⟩
        intro j
        simp only [List.flatten_nil, List.not_mem_nil, false_iff]
        rintro ⟨hjlen, hjP⟩
        obtain ⟨m, hm⟩ := layer_nonempty objs P ⟨j, hjlen, hjP⟩
        have : m ∈ current := (hcur m).mpr hm
        rw [hcure] at this
        exact List.not_mem_nil m this
      · have hrw : frontLoop (pairPhase objs).domSet (f + 1) counts current =
            current :: frontLoop (pairPhase objs).domSet f
              (processFront (pairPhase objs).domSet counts current).1
              (processFront (pairPhase objs).domSet counts current).2 := by
          rw [frontLoop_succ, if_neg hemp]
        -- unpack the processFront characterisation (`done = ∅`)
        have hPF := processFront_spec objs P current ∅ counts []
          hcurN
          (fun v hv => by
            obtain ⟨h1, h2, h3⟩ := (hcur v).mp hv
            exact ⟨h1, h2, Finset.not_mem_empty v, h3⟩)
          (fun j hj => by rw [hc j hj, Finset.union_empty])
          (fun j => by simp)
          List.nodup_nil
        rw [Finset.union_empty, Finset.empty_union] at hPF
        obtain ⟨hPF1, hPF2, hPF3⟩ := hPF
        set P' : Finset ℕ := P ∪ current.toFinset with hP'
        -- current is disjoint from P and lands inside range
        have hcurP : ∀ j ∈ current, j ∉ P ∧ j < objs.length := fun j hj =>
          ⟨((hcur j).mp hj).2.1, ((hcur j).mp hj).1⟩
        have hP'sub : ∀ j ∈ P', j < objs.length := by
          intro j hj
          rw [hP', Finset.mem_union, List.mem_toFinset] at hj
          rcases hj with h | h
          · exact hP j h
          · exact (hcurP j h).2
        have hP'c : ∀ j ∈ P', ∀ i, i < objs.length → Dom objs i j → i ∈ P' := by
          intro j hj i hi hd
          rw [hP', Finset.mem_union, List.mem_toFinset] at hj
          rw [hP', Finset.mem_union]
          rcases hj with h | h
          · exact Or.inl (hPc j h i hi hd)
          · exact Or.inl (((hcur j).mp h).2.2 i hi hd)
        have hcard : P'.card = P.card + current.length := by
          rw [hP', Finset.card_union_of_disjoint, List.toFinset_card_of_nodup hcurN]
          rw [Finset.disjoint_left]
          intro a ha hac
          exact (hcurP a (List.mem_toFinset.mp hac)).1 ha
        have hnext_layer : ∀ j,
            j ∈ (processFront (pairPhase objs).domSet counts current).2 ↔
              InLayer objs P' j := by
          intro j
          rw [show (processFront (pairPhase objs).domSet counts current)
              = current.foldl (fun st i => ((pairPhase objs).domSet i).foldl decStep st)
                (counts, []) from rfl]
          rw [hPF2 j]
          constructor
          · rintro ⟨hjlen, hcl, d, hd, hdom⟩
            have hdcur : d ∈ current := List.mem_toFinset.mp hd
            refine ⟨hjlen, ?_, fun i hi hdij => hcl i hi hdij⟩
            rw [hP', Finset.mem_union, List.mem_toFinset]
            rintro (hjP | hjcur)
            · exact (hcurP d hdcur).1 (hPc j hjP d (hcurP d hdcur).2 hdom)
            · exact (hcurP d hdcur).1 (((hcur j).mp hjcur).2.2 d (hcurP d hdcur).2 hdom)
          · rintro ⟨hjlen, hjP', hcl⟩
            by_cases hdc : ∃ d ∈ current, Dom objs d j
            · obtain ⟨d, hd, hdom⟩ := hdc
              exact ⟨hjlen, fun i hi hdij => hcl i hi hdij, d,
                List.mem_toFinset.mpr hd, hdom⟩
            · exfalso
              apply hjP'
              rw [hP', Finset.mem_union, List.mem_toFinset]
              by_cases hjP : j ∈ P
              · exact Or.inl hjP
              · refine Or.inr ((hcur j).mpr ⟨hjlen, hjP, fun i hi hd => ?_⟩)
                have := hcl i hi hd
                rw [hP', Finset.mem_union, List.mem_toFinset] at this
                rcases this with h | h
                · exact h
                · exact absurd ⟨i, h, hd⟩ hdc
        have hcur_ne : current ≠ [] := fun h => hemp (h ▸ rfl)
        have hcur_len : 1 ≤ current.length := by
          cases current with
          | nil => exact absurd rfl hcur_ne
          | cons a t => simp
        have hfuel' : objs.length + 1 ≤ f + P'.card := by
          rw [hcard]; omega
        have hcnt' : ∀ j, j < objs.length →
            (processFront (pairPhase objs).domSet counts current).1 j
              = (outCount objs P' j : ℤ) := by
          intro j hj
          exact hPF1 j hj
        obtain ⟨ihA, ihB, ihC, ihD⟩ := ih P'
          (processFront (pairPhase objs).domSet counts current).1
          (processFront (pairPhase objs).domSet counts current).2
          hP'sub hP'c hPF3 hnext_layer hcnt' hfuel'
        rw [hrw]
        refine ⟨?_, ?_, ?_, ?_⟩
        · intro j
          rw [List.flatten_cons, List.mem_append, ihA j]
          constructor
          · rintro (hjc | ⟨hjlen, hjP'⟩)
            · exact ⟨(hcurP j hjc).2, (hcurP j hjc).1⟩
            · refine ⟨hjlen, fun hjP => hjP' ?_⟩
              rw [hP']
              exact Finset.mem_union_left _ hjP
          · rintro ⟨hjlen, hjP⟩
            by_cases hjc : j ∈ current
            · exact Or.inl hjc
            · refine Or.inr ⟨hjlen, fun hjP' => ?_⟩
              rw [hP', Finset.mem_union, List.mem_toFinset] at hjP'
              tauto
        · rw [List.flatten_cons]
          refine List.Nodup.append hcurN ihB ?_
          intro a hac haf
          have := (ihA a).mp haf
          apply this.2
          rw [hP']
          exact Finset.mem_union_right _ (List.mem_toFinset.mpr hac)
        · intro F hF
          rcases List.mem_cons.mp hF with rfl | hF'
          · exact hcur_ne
          · exact ihC F hF'
        · intro k hk j hj
          cases k with
          | zero =>
              -- members of the second front are dominated inside the first
              have hrest_ne : frontLoop (pairPhase objs).domSet f
                  (processFront (pairPhase objs).domSet counts current).1
                  (processFront (pairPhase objs).domSet counts current).2 ≠ [] := by
                intro h
                rw [List.length_cons, h] at hk
                simp at hk
              rcases frontLoop_shape (pairPhase objs).domSet f
                  (processFront (pairPhase objs).domSet counts current).1
                  (processFront (pairPhase objs).domSet counts current).2 with h | ⟨t, ht⟩
              · exact absurd h hrest_ne
              · have hj' : j ∈ (processFront (pairPhase objs).domSet counts current).2 := by
                  rw [show ((current :: frontLoop (pairPhase objs).domSet f
                      (processFront (pairPhase objs).domSet counts current).1
                      (processFront (pairPhase objs).domSet counts current).2).getD 1 [])
                    = (frontLoop (pairPhase objs).domSet f
                      (processFront (pairPhase objs).domSet counts current).1
                      (processFront (pairPhase objs).domSet counts current).2).getD 0 []
                    from rfl, ht] at hj
                  simpa using hj
                -- read off a dominator within the current front
                have hmem := hPF2 j
                rw [show (processFront (pairPhase objs).domSet counts current)
                    = current.foldl
                      (fun st i => ((pairPhase objs).domSet i).foldl decStep st)
                      (counts, []) from rfl] at hj'
                obtain ⟨_, _, d, hd, hdom⟩ := hmem.mp hj'
                exact ⟨d, List.mem_toFinset.mp hd, hdom⟩
          | succ k' =>
              have hk' : k' + 1 < (frontLoop (pairPhase objs).domSet f
                  (processFront (pairPhase objs).domSet counts current).1
                  (processFront (pairPhase objs).domSet counts current).2).length := by
                rw [List.length_cons] at hk
                omega
              exact ihD k' hk' j hj

/-- Collected structural properties of `non_dominated_sort`: the fronts cover
exactly the indices `0..n`, without duplicates; front 0 members have no
dominator at all; and each member of front `k+1` is dominated inside front
`k`. -/
theorem non_dominated_sort_props (objs : List Objv) :
    (∀ j, j ∈ (non_dominated_sort objs).flatten ↔ j < objs.length) ∧
    (non_dominated_sort objs).flatten.Nodup ∧
    (∀ j ∈ (non_dominated_sort objs).getD 0 [],
      ∀ i, i < objs.length → ¬ Dom objs i j) ∧
    (∀ k, k + 1 < (non_dominated_sort objs).length →
      ∀ j ∈ (non_dominated_sort objs).getD (k + 1) [],
        ∃ i ∈ (non_dominated_sort objs).getD k [], Dom objs i j) := by
  by_cases hn : objs.length = 0
  · rw [show non_dominated_sort objs = [] from by
      unfold non_dominated_sort; rw [if_pos hn]]
    refine ⟨?_, by simp, by simp, by simp⟩
    intro j
    simp only [List.flatten_nil, List.not_mem_nil, false_iff]
    omega
  · have hred : non_dominated_sort objs = frontLoop (pairPhase objs).domSet
        (objs.length + 1) (pairPhase objs).counts
        ((List.range objs.length).filter fun i => (pairPhase objs).counts i = 0) := by
      unfold non_dominated_sort
      rw [if_neg hn]
    have hc : ∀ j, j < objs.length →
        (pairPhase objs).counts j = (outCount objs ∅ j : ℤ) := by
      intro j hj
      rw [pairPhase_counts objs j hj]
      unfold outCount
      have he : (Finset.range objs.length).filter (fun i => Dom objs i j)
          = (Finset.range objs.length).filter
            (fun i => i ∉ (∅ : Finset ℕ) ∧ Dom objs i j) := by
        apply Finset.filter_congr
        intro i _
        simp
      rw [he]
    have hcur : ∀ j, j ∈ (List.range objs.length).filter
        (fun i => (pairPhase objs).counts i = 0) ↔ InLayer objs ∅ j := by
      intro j
      rw [List.mem_filter, List.mem_range]
      unfold InLayer
      constructor
      · rintro ⟨hjlen, hj0⟩
        have hj0' : (pairPhase objs).counts j = 0 := by simpa using hj0
        rw [hc j hjlen] at hj0'
        refine ⟨hjlen, Finset.not_mem_empty j, fun i hi hd => ?_⟩
        exfalso
        have : i ∈ (Finset.range objs.length).filter (fun i => i ∉ (∅ : Finset ℕ) ∧
            Dom objs i j) := by
          simp only [Finset.mem_filter, Finset.mem_range]
          exact ⟨hi, Finset.not_mem_empty i, hd⟩
        have hpos := Finset.card_pos.mpr ⟨i, this⟩
        unfold outCount at hj0'
        omega
      · rintro ⟨hjlen, _, hcl⟩
        refine ⟨hjlen, ?_⟩
        have : outCount objs ∅ j = 0 := by
          unfold outCount
          rw [Finset.card_eq_zero, Finset.filter_eq_empty_iff]
          intro i hi
          rw [Finset.mem_range] at hi
          rintro ⟨_, hd⟩
          exact Finset.not_mem_empty i (hcl i hi hd)
        rw [decide_eq_true_eq, hc j hjlen, this]
        simp
    obtain ⟨hA, hB, hC, hD⟩ := frontLoop_spec objs (objs.length + 1) ∅
      (pairPhase objs).counts
      ((List.range objs.length).filter fun i => (pairPhase objs).counts i = 0)
      (by simp) (by simp)
      ((List.nodup_range objs.length).filter _)
      hcur hc (by simp)
    rw [hred]
    refine ⟨?_, hB, ?_, hD⟩
    · intro j
      rw [hA j]
      simp
    · intro j hj i hi hd
      rcases frontLoop_shape (pairPhase objs).domSet (objs.length + 1)
          (pairPhase objs).counts
          ((List.range objs.length).filter fun i => (pairPhase objs).counts i = 0)
        with h | ⟨t, ht⟩
      · rw [h] at hj
        simp at hj
      · rw [ht] at hj
        simp only [List.getD_cons_zero] at hj
        obtain ⟨_, _, hcl⟩ := (hcur j).mp hj
        exact Finset.not_mem_empty i (hcl i hi hd)

/-- C4: `non_dominated_sort` partitions every index into exactly one front;
front 0 contains no pair where one member dominates the other; every
individual in front `k+1` is dominated by at least one individual in front
`k`; and on the input `{(3,3,3),(1,1,1),(2,0.5,2),(0.5,0.5,0.5)}` front 0 is
exactly `{0}`. -/
theorem claim_C4 :
    (∀ objs : List Objv,
      ((non_dominated_sort objs).flatten).Perm (List.range objs.length) ∧
      (∀ j ∈ (non_dominated_sort objs).getD 0 [],
        ∀ i ∈ (non_dominated_sort objs).getD 0 [],
          dominates (objAt objs i) (objAt objs j) = false) ∧
      (∀ k, k + 1 < (non_dominated_sort objs).length →
        ∀ j ∈ (non_dominated_sort objs).getD (k + 1) [],
          ∃ i ∈ (non_dominated_sort objs).getD k [],
            dominates (objAt objs i) (objAt objs j) = true)) ∧
    (non_dominated_sort [⟨3, 3, 3⟩, ⟨1, 1, 1⟩, ⟨2, mkRat 1 2, 2⟩,
      ⟨mkRat 1 2, mkRat 1 2, mkRat 1 2⟩]).getD 0 [] = [0] := by
  constructor
  · intro objs
    obtain ⟨hA, hB, hC, hD⟩ := non_dominated_sort_props objs
    refine ⟨?_, ?_, hD⟩
    · refine List.perm_of_nodup_nodup_toFinset_eq hB (List.nodup_range _) ?_
      ext j
      rw [List.mem_toFinset, List.mem_toFinset, hA j, List.mem_range]
    · intro j hj i hi
      have hiflat : i ∈ (non_dominated_sort objs).flatten := by
        rcases frontLoop_shape (pairPhase objs).domSet (objs.length + 1)
            (pairPhase objs).counts
            ((List.range objs.length).filter fun k => (pairPhase objs).counts k = 0)
          with h | ⟨t, ht⟩
        · by_cases hn : objs.length = 0
          · exfalso
            rw [show non_dominated_sort objs = [] from by
              unfold non_dominated_sort; rw [if_pos hn]] at hi
            simp at hi
          · rw [show non_dominated_sort objs = frontLoop (pairPhase objs).domSet
                (objs.length + 1) (pairPhase objs).counts
                ((List.range objs.length).filter fun k => (pairPhase objs).counts k = 0)
              from by unfold non_dominated_sort; rw [if_neg hn]] at hi ⊢
            rw [h] at hi
            simp at hi
        · by_cases hn : objs.length = 0
          · exfalso
            rw [show non_dominated_sort objs = [] from by
              unfold non_dominated_sort; rw [if_pos hn]] at hi
            simp at hi
          · rw [show non_dominated_sort objs = frontLoop (pairPhase objs).domSet
                (objs.length + 1) (pairPhase objs).counts
                ((List.range objs.length).filter fun k => (pairPhase objs).counts k = 0)
              from by unfold non_dominated_sort; rw [if_neg hn]] at hi ⊢
            rw [ht] at hi ⊢
            rw [List.getD_cons_zero] at hi
            rw [List.flatten_cons]
            exact List.mem_append_left _ hi
      have hilen : i < objs.length := (hA i).mp hiflat
      have := hC j hj i hilen
      unfold Dom at this
      simpa using this
  · decide

theorem claim_C4_witness :
    (0 : ℕ) + 1 < (non_dominated_sort [⟨3, 3, 3⟩, ⟨1, 1, 1⟩, ⟨2, mkRat 1 2, 2⟩,
      ⟨mkRat 1 2, mkRat 1 2, mkRat 1 2⟩]).length ∧
    ∃ i ∈ (non_dominated_sort [⟨3, 3, 3⟩, ⟨1, 1, 1⟩, ⟨2, mkRat 1 2, 2⟩,
      ⟨mkRat 1 2, mkRat 1 2, mkRat 1 2⟩]).getD 0 [],
      dominates (objAt [⟨3, 3, 3⟩, ⟨1, 1, 1⟩, ⟨2, mkRat 1 2, 2⟩,
        ⟨mkRat 1 2, mkRat 1 2, mkRat 1 2⟩] i)
        (objAt [⟨3, 3, 3⟩, ⟨1, 1, 1⟩, ⟨2, mkRat 1 2, 2⟩,
        ⟨mkRat 1 2, mkRat 1 2, mkRat 1 2⟩] 1) = true :=
  ⟨by decide, (claim_C4.1 _).2.2 0 (by decide) 1 (by decide)⟩

/-! ## Crowding distance (RustNsga2::crowding_distance)

The `f64` distances (0.0, accumulated quotients, and `f64::INFINITY` for
boundary members) are modelled in `WithTop ℚ`, whose `⊤`-absorbing addition
matches IEEE `∞ + finite = ∞`.  Rust's stable `sort_by` over front positions
is modelled by `List.insertionSort` with the non-strict key order, which is
also stable: ties keep their original relative position order. -/

/-- Objective dimension selector: `objs[...].1[m]` for `m ∈ {0, 1, 2}`. -/
def objDim (m : ℕ) (o : Objv) : ℚ :=
  match m with
  | 0 => o.x
  | 1 => o.y
  | _ => o.z

/-- Sort key of front position `p` in dimension `m` over the extracted
`(index, objective)` pairs. -/
def frontKey (objsF : List (ℕ × Objv)) (m : ℕ) (p : ℕ) : ℚ :=
  objDim m (objsF.getD p (0, default)).2

/-- The stable sort of front positions `0..n` by objective dimension `m`
(the `sorted_indices` vector). -/
def sortedPos (objsF : List (ℕ × Objv)) (m : ℕ) : List ℕ :=
  List.insertionSort (fun a b => frontKey objsF m a ≤ frontKey objsF m b)
    (List.range objsF.length)


/-- Objective range of dimension `m` over the front: value at the last sorted
position minus value at the first. -/
def crowdRange (objsF : List (ℕ × Objv)) (m : ℕ) : ℚ :=
  frontKey objsF m ((sortedPos objsF m).getD (objsF.length - 1) 0) -
    frontKey objsF m ((sortedPos objsF m).getD 0 0)

/-- The two boundary assignments `distances[sorted[0]] = ∞` and
`distances[sorted[n-1]] = ∞` of one dimension pass (performed before the
range test in the source). -/
def crowdBoundary (objsF : List (ℕ × Objv)) (m : ℕ) (d : ℕ → WithTop ℚ) :
    ℕ → WithTop ℚ :=
  Function.update (Function.update d ((sortedPos objsF m).getD 0 0) ⊤)
    ((sortedPos objsF m).getD (objsF.length - 1) 0) ⊤

/-- One dimension `m` of the crowding-distance loop: assign the two boundary
positions infinite distance, then (only when the objective range is positive)
accumulate the normalised neighbour gap into each interior sorted position. -/
def crowdDimStep (objsF : List (ℕ × Objv)) (m : ℕ) (d : ℕ → WithTop ℚ) :
    ℕ → WithTop ℚ :=
  if 0 < crowdRange objsF m then
    (List.range' 1 (objsF.length - 2)).foldl (fun dd i =>
      Function.update dd ((sortedPos objsF m).getD i 0)
        (dd ((sortedPos objsF m).getD i 0) +
          (((frontKey objsF m ((sortedPos objsF m).getD (i + 1) 0) -
              frontKey objsF m ((sortedPos objsF m).getD (i - 1) 0)) /
              crowdRange objsF m : ℚ) : WithTop ℚ)))
      (crowdBoundary objsF m d)
  else crowdBoundary objsF m d

/-- Faithful translation of `RustNsga2::crowding_distance`: fronts of size at
most 2 get infinity for every member; otherwise the three objective dimensions
are processed in order over a zero-initialised distance vector, and the result
pairs each front member with the distance at its front position. -/
def crowding_distance (objectives : List Objv) (front : List ℕ) :
    List (ℕ × WithTop ℚ) :=
  if front.length ≤ 2 then front.map fun idx => (idx, (⊤ : WithTop ℚ))
  else
    (List.range front.length).map fun i =>
      (front.getD i 0,
        crowdDimStep (front.map fun idx => (idx, objectives.getD idx default)) 2
          (crowdDimStep (front.map fun idx => (idx, objectives.getD idx default)) 1
            (crowdDimStep (front.map fun idx => (idx, objectives.getD idx default)) 0
              fun _ => 0)) i)

/-- Modelled from the spec (amended): the contribution of objective dimension
`m` to the crowding distance of front position `p` — infinity for the two
boundary positions of the stable sort by that objective (also when the
objective range is zero), the normalised neighbour gap for interior positions
when the range is positive, and nothing otherwise. -/
def crowdContrib (objsF : List (ℕ × Objv)) (m : ℕ) (p : ℕ) : WithTop ℚ :=
  if (sortedPos objsF m).indexOf p = 0 ∨
      (sortedPos objsF m).indexOf p = objsF.length - 1 then ⊤
  else if 0 < crowdRange objsF m then
    (((frontKey objsF m ((sortedPos objsF m).getD ((sortedPos objsF m).indexOf p + 1) 0) -
        frontKey objsF m ((sortedPos objsF m).getD ((sortedPos objsF m).indexOf p - 1) 0)) /
        crowdRange objsF m : ℚ) : WithTop ℚ)
  else 0

/-- Modelled from the spec (amended): the total crowding distance of front
position `p` is the sum of its three per-dimension contributions. -/
def crowdSpec (objsF : List (ℕ × Objv)) (p : ℕ) : WithTop ℚ :=
  crowdContrib objsF 0 p + crowdContrib objsF 1 p + crowdContrib objsF 2 p

theorem sortedPos_perm (objsF : List (ℕ × Objv)) (m : ℕ) :
    (sortedPos objsF m).Perm (List.range objsF.length) :=
  List.perm_insertionSort _ _

theorem sortedPos_nodup (objsF : List (ℕ × Objv)) (m : ℕ) :
    (sortedPos objsF m).Nodup :=
  ((sortedPos_perm objsF m).nodup_iff).mpr (List.nodup_range _)

theorem sortedPos_length (objsF : List (ℕ × Objv)) (m : ℕ) :
    (sortedPos objsF m).length = objsF.length := by
  rw [(sortedPos_perm objsF m).length_eq, List.length_range]

/-- Distinct in-range positions hold distinct values in the sorted vector. -/
theorem sortedPos_getD_inj (objsF : List (ℕ × Objv)) (m : ℕ) {i j : ℕ}
    (hi : i < objsF.length) (hj : j < objsF.length)
    (h : (sortedPos objsF m).getD i 0 = (sortedPos objsF m).getD j 0) : i = j := by
  have hi' : i < (sortedPos objsF m).length := by rw [sortedPos_length]; exact hi
  have hj' : j < (sortedPos objsF m).length := by rw [sortedPos_length]; exact hj
  rw [List.getD_eq_getElem _ _ hi', List.getD_eq_getElem _ _ hj'] at h
  exact (sortedPos_nodup objsF m).getElem_inj_iff.mp h

/-- Filtering a duplicate-free list for one of its members yields exactly that
member. -/
theorem filter_eq_singleton_of_nodup (l : List ℕ) (a : ℕ) (h : l.Nodup)
    (hm : a ∈ l) : l.filter (fun i => decide (i = a)) = [a] := by
  rw [show (fun i => decide (i = a)) = (fun i => i == a) from rfl, List.filter_beq,
    List.count_eq_one_of_mem h hm]
  rfl

/-- Generic fold: updating pairwise-distinct targets adds each listed
contribution exactly once. -/
theorem foldl_update_add_point (g : ℕ → ℕ) (c : ℕ → WithTop ℚ) :
    ∀ (L : List ℕ) (d : ℕ → WithTop ℚ) (p : ℕ), (L.map g).Nodup →
      (L.foldl (fun dd i => Function.update dd (g i) (dd (g i) + c i)) d) p
        = d p + ((L.filter fun i => g i = p).map c).sum := by
  intro L
  induction L with
  | nil => intro d p _; simp
  | cons i0 L ih =>
      intro d p hnd
      rw [List.foldl_cons, List.filter_cons]
      have hnd' : (L.map g).Nodup := (List.nodup_cons.mp (by simpa using hnd)).2
      have hg0 : g i0 ∉ L.map g := (List.nodup_cons.mp (by simpa using hnd)).1
      rw [ih _ p hnd']
      by_cases hp : g i0 = p
      · subst hp
        rw [if_pos (by simp)]
        have hfe : L.filter (fun i => decide (g i = g i0)) = [] := by
          rw [List.filter_eq_nil_iff]
          intro a ha
          simp only [decide_eq_true_eq]
          intro hc
          exact hg0 (hc ▸ List.mem_map_of_mem g ha)
        rw [hfe]
        simp [Function.update_same, add_assoc]
      · rw [if_neg (by simpa using hp), Function.update_apply, if_neg (Ne.symm hp)]

/-- Per-dimension step lemma: processing dimension `m` adds exactly the
spec-side contribution of that dimension to every in-range position (the
boundary overwrite with infinity agrees with adding an infinite contribution,
since `⊤` is absorbing). -/
theorem crowdDimStep_eq (objsF : List (ℕ × Objv)) (m : ℕ) (d : ℕ → WithTop ℚ)
    (p : ℕ) (hp : p < objsF.length) (hn : 3 ≤ objsF.length) :
    crowdDimStep objsF m d p = d p + crowdContrib objsF m p := by
  have hmem : p ∈ sortedPos objsF m := by
    rw [(sortedPos_perm objsF m).mem_iff, List.mem_range]
    exact hp
  have hposlt : (sortedPos objsF m).indexOf p < objsF.length := by
    rw [← sortedPos_length objsF m]
    exact List.indexOf_lt_length.mpr hmem
  have hposval : (sortedPos objsF m).getD ((sortedPos objsF m).indexOf p) 0 = p := by
    rw [List.getD_eq_getElem _ _ (by rw [sortedPos_length]; exact hposlt)]
    exact List.getElem_indexOf _
  have hval_pos : ∀ i, i < objsF.length →
      ((sortedPos objsF m).getD i 0 = p ↔ i = (sortedPos objsF m).indexOf p) := by
    intro i hi
    constructor
    · intro h
      exact sortedPos_getD_inj objsF m hi hposlt (h.trans hposval.symm)
    · rintro rfl
      exact hposval
  have hgnodup : ((List.range' 1 (objsF.length - 2)).map
      (fun i => (sortedPos objsF m).getD i 0)).Nodup := by
    refine List.Nodup.map_on ?_ (List.nodup_range' 1 (objsF.length - 2))
    intro a ha b hb hab
    rw [List.mem_range'_1] at ha hb
    exact sortedPos_getD_inj objsF m (by omega) (by omega) hab
  unfold crowdDimStep crowdContrib
  by_cases hbound : (sortedPos objsF m).indexOf p = 0 ∨
      (sortedPos objsF m).indexOf p = objsF.length - 1
  · -- boundary position: the double update pins the distance at ⊤
    have hbp : crowdBoundary objsF m d p = ⊤ := by
      unfold crowdBoundary
      rcases hbound with h0 | h1
      · by_cases hsame : (sortedPos objsF m).getD (objsF.length - 1) 0 = p
        · rw [Function.update_apply, if_pos hsame.symm]
        · rw [Function.update_apply, if_neg (fun hc => hsame hc.symm),
            Function.update_apply, if_pos (h0 ▸ hposval).symm]
      · rw [Function.update_apply, if_pos (h1 ▸ hposval).symm]
    rw [if_pos hbound]
    by_cases hrng : 0 < crowdRange objsF m
    · rw [if_pos hrng]
      rw [foldl_update_add_point (fun i => (sortedPos objsF m).getD i 0) _
        (List.range' 1 (objsF.length - 2)) (crowdBoundary objsF m d) p hgnodup]
      have hfe : (List.range' 1 (objsF.length - 2)).filter
          (fun i => decide ((sortedPos objsF m).getD i 0 = p)) = [] := by
        rw [List.filter_eq_nil_iff]
        intro i hi
        rw [List.mem_range'_1] at hi
        simp only [decide_eq_true_eq]
        intro hc
        have := (hval_pos i (by omega)).mp hc
        omega
      rw [hfe, hbp]
      simp
    · rw [if_neg hrng, hbp]
      simp
  · -- interior position: untouched by the boundary updates
    push_neg at hbound
    obtain ⟨hb0, hb1⟩ := hbound
    have hbp : crowdBoundary objsF m d p = d p := by
      unfold crowdBoundary
      rw [Function.update_apply,
        if_neg (fun hc => hb1 ((hval_pos (objsF.length - 1) (by omega)).mp hc.symm).symm),
        Function.update_apply,
        if_neg (fun hc => hb0 ((hval_pos 0 (by omega)).mp hc.symm).symm)]
    rw [if_neg (by tauto : ¬ ((sortedPos objsF m).indexOf p = 0 ∨
      (sortedPos objsF m).indexOf p = objsF.length - 1))]
    by_cases hrng : 0 < crowdRange objsF m
    · rw [if_pos hrng, if_pos hrng]
      rw [foldl_update_add_point (fun i => (sortedPos objsF m).getD i 0) _
        (List.range' 1 (objsF.length - 2)) (crowdBoundary objsF m d) p hgnodup]
      have hfe : (List.range' 1 (objsF.length - 2)).filter
          (fun i => decide ((sortedPos objsF m).getD i 0 = p))
          = [(sortedPos objsF m).indexOf p] := by
        have hposmem : (sortedPos objsF m).indexOf p ∈ List.range' 1 (objsF.length - 2) := by
          rw [List.mem_range'_1]
          omega
        rw [List.filter_congr (fun i hi => ?_)]
        · exact filter_eq_singleton_of_nodup _ _
            (List.nodup_range' 1 (objsF.length - 2)) hposmem
        · rw [List.mem_range'_1] at hi
          show decide ((sortedPos objsF m).getD i 0 = p)
            = decide (i = (sortedPos objsF m).indexOf p)
          rw [decide_eq_decide]
          exact hval_pos i (by omega)
      rw [hfe, hbp]
      simp
    · rw [if_neg hrng, if_neg hrng, hbp]
      simp

/-- C3 (amended): crowding_distance gives every member of a front of size at
most 2 infinite distance; for a larger front the distance of each member is
the sum over the 3 objective dimensions of that dimension's contribution:
infinity for the two boundary members of the stable sort by that objective
(assigned even when the dimension's range is 0), and the accumulated
`(nextValue - prevValue) / (max - min)` for interior members when the range is
positive (nothing otherwise). -/
theorem claim_C3 (objectives : List Objv) (front : List ℕ) :
    (front.length ≤ 2 →
      crowding_distance objectives front = front.map fun idx => (idx, (⊤ : WithTop ℚ))) ∧
    (2 < front.length →
      crowding_distance objectives front = (List.range front.length).map fun i =>
        (front.getD i 0,
          crowdSpec (front.map fun idx => (idx, objectives.getD idx default)) i)) := by
  constructor
  · intro h
    unfold crowding_distance
    rw [if_pos h]
  · intro h
    unfold crowding_distance
    rw [if_neg (by omega)]
    apply List.map_congr_left
    intro i hi
    rw [List.mem_range] at hi
    have hlen : (front.map fun idx => (idx, objectives.getD idx default)).length
        = front.length := List.length_map _ _
    have hp : i < (front.map fun idx => (idx, objectives.getD idx default)).length := by
      omega
    have hn : 3 ≤ (front.map fun idx => (idx, objectives.getD idx default)).length := by
      omega
    rw [crowdDimStep_eq _ 2 _ i hp hn, crowdDimStep_eq _ 1 _ i hp hn,
      crowdDimStep_eq _ 0 _ i hp hn]
    unfold crowdSpec
    rw [zero_add]

/-- C3 counterexample for the claim as stated: on a front of size 3 whose
objectives are all equal, every dimension has range 0, so by the claim no
member would receive any contribution (distance 0 for all three).  The code
still assigns the boundary members of the (stable) sort infinite distance:
members at front positions 0 and 2 get `∞`. -/
theorem claim_C3_counterexample :
    crowding_distance [⟨1, 1, 1⟩, ⟨1, 1, 1⟩, ⟨1, 1, 1⟩] [0, 1, 2]
      = [(0, (⊤ : WithTop ℚ)), (1, (0 : WithTop ℚ)), (2, (⊤ : WithTop ℚ))] ∧
    crowding_distance [⟨1, 1, 1⟩, ⟨1, 1, 1⟩, ⟨1, 1, 1⟩] [0, 1, 2]
      ≠ [(0, (0 : WithTop ℚ)), (1, (0 : WithTop ℚ)), (2, (0 : WithTop ℚ))] := by
  constructor
  · with_unfolding_all decide
  · with_unfolding_all decide

theorem claim_C3_witness :
    crowding_distance [⟨1, 1, 1⟩, ⟨2, 2, 2⟩] [0, 1]
      = ([0, 1] : List ℕ).map (fun idx => (idx, (⊤ : WithTop ℚ))) ∧
    crowding_distance [⟨1, 1, 1⟩, ⟨2, 2, 2⟩, ⟨3, 3, 3⟩] [0, 1, 2]
      = (List.range ([0, 1, 2] : List ℕ).length).map (fun i =>
          (([0, 1, 2] : List ℕ).getD i 0,
            crowdSpec (([0, 1, 2] : List ℕ).map fun idx =>
              (idx, ([⟨1, 1, 1⟩, ⟨2, 2, 2⟩, ⟨3, 3, 3⟩] : List Objv).getD idx default)) i)) :=
  ⟨(claim_C3 [⟨1, 1, 1⟩, ⟨2, 2, 2⟩] [0, 1]).1 (by decide),
   (claim_C3 [⟨1, 1, 1⟩, ⟨2, 2, 2⟩, ⟨3, 3, 3⟩] [0, 1, 2]).2 (by decide)⟩

/-! ## NEAT genome data model (src/rust/evolve-native/src/neat_genome.rs)

Genomes travel through the Rust layer as Godot dictionaries with fields
`connections` (each `{innovation, weight, enabled, ...}`), `nodes`,
`input_count`, `output_count`, `fitness`.  We model them as records;
innovation numbers and node ids are `i32`, modelled by `ℤ`. -/

/-- A connection gene as read by the Rust code: innovation number, weight and
enabled flag. -/
structure ConnGene where
  innovation : ℤ
  weight : ℚ
  enabled : Bool
  deriving DecidableEq, Repr

instance : Inhabited ConnGene := ⟨⟨0, 0, true⟩⟩

/-- A node gene (passed through crossover opaquely). -/
structure NodeGene where
  id : ℤ
  node_type : ℤ
  deriving DecidableEq, Repr

/-- A NEAT genome dictionary. -/
structure Genome where
  connections : List ConnGene
  nodes : List NodeGene
  input_count : ℤ
  output_count : ℤ
  fitness : ℚ
  deriving DecidableEq, Repr

instance : Inhabited Genome := ⟨⟨[], [], 0, 0, 0⟩⟩

/-- The genetic-operator configuration dictionary (the fields read by the
Rust code). -/
structure NeatConfig where
  mutation_rate : ℚ
  weight_mutation_rate : ℚ
  weight_mutation_strength : ℚ
  weight_replace_rate : ℚ
  conn_add_rate : ℚ
  conn_delete_rate : ℚ
  conn_enable_rate : ℚ
  conn_disable_rate : ℚ
  node_add_rate : ℚ
  compatibility_threshold : ℚ
  compatibility_excess_coeff : ℚ
  compatibility_disjoint_coeff : ℚ
  compatibility_weight_coeff : ℚ
  deriving Repr

/-- One `HashMap::insert` of `neat_distance`'s map-building loop (later
inserts overwrite earlier ones). -/
def innovStep (m : ℤ → Option ℚ) (c : ConnGene) : ℤ → Option ℚ :=
  Function.update m c.innovation (some c.weight)

/-- The innovation → weight HashMap built by `neat_distance`. -/
def innovMap (conns : List ConnGene) : ℤ → Option ℚ :=
  conns.foldl innovStep fun _ => none

/-- The running maximum innovation number, accumulated from 0 as in the
source (`max_innov_a = 0`, then `max` over all genes). -/
def maxInnov (conns : List ConnGene) : ℤ :=
  conns.foldl (fun acc c => max acc c.innovation) 0

/-- The union of both genomes' innovation numbers (`all_innovations`). -/
def innovSet (conns_a conns_b : List ConnGene) : Finset ℤ :=
  (conns_a.map (·.innovation)).toFinset ∪ (conns_b.map (·.innovation)).toFinset

/-- The per-innovation excess accumulator of `neat_distance` (the `match` over
the two map lookups and the running-maximum test, summed over the union; the
`HashSet` iteration order is irrelevant because addition commutes). -/
def distExcess (genome_a genome_b : Genome) : ℕ :=
  (innovSet genome_a.connections genome_b.connections).sum fun k =>
    match innovMap genome_a.connections k, innovMap genome_b.connections k with
    | some _, none =>
      if min (maxInnov genome_a.connections) (maxInnov genome_b.connections) < k then 1 else 0
    | none, some _ =>
      if min (maxInnov genome_a.connections) (maxInnov genome_b.connections) < k then 1 else 0
    | _, _ => 0

/-- The per-innovation disjoint accumulator of `neat_distance`. -/
def distDisjoint (genome_a genome_b : Genome) : ℕ :=
  (innovSet genome_a.connections genome_b.connections).sum fun k =>
    match innovMap genome_a.connections k, innovMap genome_b.connections k with
    | some _, none =>
      if min (maxInnov genome_a.connections) (maxInnov genome_b.connections) < k then 0 else 1
    | none, some _ =>
      if min (maxInnov genome_a.connections) (maxInnov genome_b.connections) < k then 0 else 1
    | _, _ => 0

/-- The matching-gene counter of `neat_distance`. -/
def distMatching (genome_a genome_b : Genome) : ℕ :=
  (innovSet genome_a.connections genome_b.connections).sum fun k =>
    match innovMap genome_a.connections k, innovMap genome_b.connections k with
    | some _, some _ => 1
    | _, _ => 0

/-- The accumulated absolute weight difference over matching genes of
`neat_distance`. -/
def distWeightDiff (genome_a genome_b : Genome) : ℚ :=
  (innovSet genome_a.connections genome_b.connections).sum fun k =>
    match innovMap genome_a.connections k, innovMap genome_b.connections k with
    | some wa, some wb => |wa - wb|
    | _, _ => 0

/-- Faithful translation of the free function `neat_distance`: the both-empty
early return, the accumulators above, the average weight difference (0 when
nothing matches), and the coefficient combination, normalising the excess and
disjoint terms by the larger gene count exactly when it exceeds 20. -/
def neat_distance (genome_a genome_b : Genome) (config : NeatConfig) : ℚ :=
  if genome_a.connections.isEmpty ∧ genome_b.connections.isEmpty then 0
  else
    if 20 < ((max (max genome_a.connections.length genome_b.connections.length) 1 : ℕ) : ℚ) then
      config.compatibility_excess_coeff * (distExcess genome_a genome_b : ℚ) /
          ((max (max genome_a.connections.length genome_b.connections.length) 1 : ℕ) : ℚ) +
        config.compatibility_disjoint_coeff * (distDisjoint genome_a genome_b : ℚ) /
          ((max (max genome_a.connections.length genome_b.connections.length) 1 : ℕ) : ℚ) +
        config.compatibility_weight_coeff *
          (if 0 < distMatching genome_a genome_b then
            distWeightDiff genome_a genome_b / (distMatching genome_a genome_b : ℚ) else 0)
    else
      config.compatibility_excess_coeff * (distExcess genome_a genome_b : ℚ) +
        config.compatibility_disjoint_coeff * (distDisjoint genome_a genome_b : ℚ) +
        config.compatibility_weight_coeff *
          (if 0 < distMatching genome_a genome_b then
            distWeightDiff genome_a genome_b / (distMatching genome_a genome_b : ℚ) else 0)

/-- Modelled from the spec: the set of innovation numbers of a genome. -/
def specInnovs (g : Genome) : Finset ℤ := (g.connections.map (·.innovation)).toFinset

/-- Modelled from the spec: the highest innovation number present in the
genome (`maxInnovA`/`maxInnovB`).  The spec leaves the value for an empty
genome unspecified; 0 (the code's accumulator base) is adopted, which for the
data model's nonnegative innovation numbers agrees with "highest present". -/
def specMaxInnov (g : Genome) : ℤ :=
  ((g.connections.map (·.innovation)).toFinset.max).unbot' 0

/-- Modelled from the spec: the weight of the (unique) gene of `g` carrying
innovation number `k` (0 if absent). -/
def specWeight (g : Genome) (k : ℤ) : ℚ :=
  ((g.connections.find? fun c => c.innovation == k).map (·.weight)).getD 0

/-- Modelled from the spec: the compatibility distance formula of §4.1 /
claim C5 — classify each innovation number in the union as matching (present
in both), else excess when above `min(maxInnovA, maxInnovB)`, else disjoint;
the result is `c1·excess + c2·disjoint + c3·(weightDiffSum / matchingCount)`,
with the excess and disjoint terms divided by `max(|A|, |B|, 1)` exactly when
that maximum exceeds 20, and a zero weight term when nothing matches. -/
def specExcessSet (gA gB : Genome) : Finset ℤ :=
  (specInnovs gA ∪ specInnovs gB).filter fun k =>
    ¬ (k ∈ specInnovs gA ∧ k ∈ specInnovs gB) ∧
      min (specMaxInnov gA) (specMaxInnov gB) < k

def specDisjointSet (gA gB : Genome) : Finset ℤ :=
  (specInnovs gA ∪ specInnovs gB).filter fun k =>
    ¬ (k ∈ specInnovs gA ∧ k ∈ specInnovs gB) ∧
      ¬ min (specMaxInnov gA) (specMaxInnov gB) < k

def specMatchingSet (gA gB : Genome) : Finset ℤ :=
  (specInnovs gA ∪ specInnovs gB).filter fun k =>
    k ∈ specInnovs gA ∧ k ∈ specInnovs gB

def specWeightDiffSum (gA gB : Genome) : ℚ :=
  (specMatchingSet gA gB).sum fun k => |specWeight gA k - specWeight gB k|

def distance_spec (gA gB : Genome) (c1 c2 c3 : ℚ) : ℚ :=
  if 20 < ((max (max gA.connections.length gB.connections.length) 1 : ℕ) : ℚ) then
    c1 * ((specExcessSet gA gB).card : ℚ) /
        ((max (max gA.connections.length gB.connections.length) 1 : ℕ) : ℚ) +
      c2 * ((specDisjointSet gA gB).card : ℚ) /
        ((max (max gA.connections.length gB.connections.length) 1 : ℕ) : ℚ) +
      c3 * (if 0 < (specMatchingSet gA gB).card then
        specWeightDiffSum gA gB / ((specMatchingSet gA gB).card : ℚ) else 0)
  else
    c1 * ((specExcessSet gA gB).card : ℚ) +
      c2 * ((specDisjointSet gA gB).card : ℚ) +
      c3 * (if 0 < (specMatchingSet gA gB).card then
        specWeightDiffSum gA gB / ((specMatchingSet gA gB).card : ℚ) else 0)

theorem foldl_innov_not_mem (conns : List ConnGene) (k : ℤ) :
    ∀ (m : ℤ → Option ℚ), (∀ c ∈ conns, c.innovation ≠ k) →
      (conns.foldl innovStep m) k = m k := by
  induction conns with
  | nil => intro m _; rfl
  | cons d rest ih =>
      intro m h
      rw [List.foldl_cons, ih _ fun c hc => h c (List.mem_cons_of_mem d hc)]
      unfold innovStep
      rw [Function.update_apply, if_neg]
      exact fun hc => h d (List.mem_cons_self d rest) (hc ▸ rfl)

theorem innovMap_eq_none {conns : List ConnGene} {k : ℤ}
    (h : k ∉ conns.map (·.innovation)) : innovMap conns k = none := by
  unfold innovMap
  rw [foldl_innov_not_mem]
  intro c hc hck
  exact h (hck ▸ List.mem_map_of_mem _ hc)

theorem foldl_innov_of_mem {conns : List ConnGene}
    (hnd : (conns.map (·.innovation)).Nodup) {c : ConnGene} (hc : c ∈ conns) :
    ∀ m : ℤ → Option ℚ, (conns.foldl innovStep m) c.innovation = some c.weight := by
  induction conns with
  | nil => cases hc
  | cons d rest ih =>
      rw [List.map_cons, List.nodup_cons] at hnd
      intro m
      rw [List.foldl_cons]
      rcases List.mem_cons.mp hc with rfl | hcr
      · rw [foldl_innov_not_mem]
        · unfold innovStep
          rw [Function.update_same]
        · intro e he hek
          exact hnd.1 (hek ▸ List.mem_map_of_mem _ he)
      · exact ih hnd.2 hcr _

theorem innovMap_of_mem {conns : List ConnGene}
    (hnd : (conns.map (·.innovation)).Nodup) {c : ConnGene} (hc : c ∈ conns) :
    innovMap conns c.innovation = some c.weight :=
  foldl_innov_of_mem hnd hc _

theorem innovMap_isSome_iff (conns : List ConnGene) (k : ℤ) :
    (innovMap conns k).isSome = true ↔ k ∈ conns.map (·.innovation) := by
  constructor
  · intro h
    by_contra hmem
    rw [innovMap_eq_none hmem] at h
    cases h
  · intro h
    rcases List.mem_map.mp h with ⟨c, hc, rfl⟩
    unfold innovMap
    -- the fold writes `some` at this key at least once and never erases keys
    have hgen : ∀ (rest : List ConnGene) (m : ℤ → Option ℚ),
        ((m c.innovation).isSome = true ∨ c ∈ rest) →
        ((rest.foldl innovStep m) c.innovation).isSome = true := by
      intro rest
      induction rest with
      | nil =>
          intro m h
          rcases h with h | h
          · exact h
          · cases h
      | cons d rest2 ih =>
          intro m h
          rw [List.foldl_cons]
          rcases h with h | h
          · refine ih _ (Or.inl ?_)
            unfold innovStep
            rw [Function.update_apply]
            by_cases hd : c.innovation = d.innovation
            · rw [if_pos hd]; rfl
            · rw [if_neg hd]; exact h
          · rcases List.mem_cons.mp h with rfl | hr
            · refine ih _ (Or.inl ?_)
              unfold innovStep
              rw [Function.update_same]
              rfl
            · exact ih _ (Or.inr hr)
    exact hgen conns _ (Or.inr hc)

theorem find?_innov {conns : List ConnGene}
    (hnd : (conns.map (·.innovation)).Nodup) {c : ConnGene} (hc : c ∈ conns) :
    conns.find? (fun x => x.innovation == c.innovation) = some c := by
  induction conns with
  | nil => cases hc
  | cons d rest ih =>
      rw [List.map_cons, List.nodup_cons] at hnd
      rcases List.mem_cons.mp hc with rfl | hcr
      · rw [List.find?_cons_of_pos _ (by simp)]
      · have hne : (d.innovation == c.innovation) = false := by
          simp only [beq_eq_false_iff_ne, ne_eq]
          intro he
          exact hnd.1 (he ▸ List.mem_map_of_mem _ hcr)
        rw [List.find?_cons, hne]
        exact ih hnd.2 hcr

/-- Under duplicate-free innovation keys, the code's map lookup agrees with
the spec's per-innovation weight. -/
theorem innovMap_eq_specWeight {g : Genome}
    (hnd : (g.connections.map (·.innovation)).Nodup) {k : ℤ}
    (hk : k ∈ specInnovs g) : innovMap g.connections k = some (specWeight g k) := by
  rw [specInnovs, List.mem_toFinset] at hk
  rcases List.mem_map.mp hk with ⟨c, hc, rfl⟩
  rw [innovMap_of_mem hnd hc]
  unfold specWeight
  rw [find?_innov hnd hc]
  rfl

theorem foldl_max_le (conns : List ConnGene) :
    ∀ acc : ℤ, acc ≤ conns.foldl (fun acc c => max acc c.innovation) acc := by
  induction conns with
  | nil => intro acc; exact le_refl acc
  | cons d rest ih =>
      intro acc
      rw [List.foldl_cons]
      exact le_trans (le_max_left acc d.innovation) (ih _)

theorem foldl_max_mono (l : List ConnGene) :
    ∀ acc acc' : ℤ, acc ≤ acc' →
      l.foldl (fun a c => max a c.innovation) acc ≤
        l.foldl (fun a c => max a c.innovation) acc' := by
  induction l with
  | nil => intro acc acc' h; exact h
  | cons e rest ih =>
      intro acc acc' h
      rw [List.foldl_cons, List.foldl_cons]
      exact ih _ _ (max_le_max h (le_refl e.innovation))

theorem le_maxInnov {conns : List ConnGene} {c : ConnGene} (hc : c ∈ conns) :
    c.innovation ≤ maxInnov conns := by
  unfold maxInnov
  induction conns with
  | nil => cases hc
  | cons d rest ih =>
      rcases List.mem_cons.mp hc with rfl | hcr
      · rw [List.foldl_cons]
        exact le_trans (le_max_right 0 c.innovation) (foldl_max_le rest _)
      · rw [List.foldl_cons]
        calc c.innovation ≤ rest.foldl (fun a c => max a c.innovation) 0 := ih hcr
          _ ≤ _ := foldl_max_mono rest 0 _ (le_max_left 0 d.innovation)

theorem maxInnov_mem_or_zero (conns : List ConnGene) :
    maxInnov conns = 0 ∨ ∃ c ∈ conns, maxInnov conns = c.innovation := by
  unfold maxInnov
  have hgen : ∀ (l : List ConnGene) (acc : ℤ),
      l.foldl (fun a c => max a c.innovation) acc = acc ∨
        ∃ c ∈ l, l.foldl (fun a c => max a c.innovation) acc = c.innovation := by
    intro l
    induction l with
    | nil => intro acc; exact Or.inl rfl
    | cons d rest ih =>
        intro acc
        rw [List.foldl_cons]
        rcases ih (max acc d.innovation) with h | ⟨c, hc, h⟩
        · rcases max_choice acc d.innovation with hm | hm
          · exact Or.inl (h.trans hm)
          · exact Or.inr ⟨d, List.mem_cons_self d rest, h.trans hm⟩
        · exact Or.inr ⟨c, List.mem_cons_of_mem d hc, h⟩
  exact hgen conns 0

/-- For the data model's nonnegative innovation numbers, the code's running
maximum (accumulated from 0) equals the spec's highest innovation present. -/
theorem maxInnov_eq_spec {g : Genome}
    (h : ∀ c ∈ g.connections, 0 ≤ c.innovation) :
    maxInnov g.connections = specMaxInnov g := by
  unfold specMaxInnov
  by_cases hemp : g.connections = []
  · simp [maxInnov, hemp]
  · have hne : ((g.connections.map (·.innovation)).toFinset).Nonempty := by
      obtain ⟨d, hd⟩ := List.exists_mem_of_ne_nil g.connections hemp
      exact ⟨d.innovation, List.mem_toFinset.mpr (List.mem_map_of_mem _ hd)⟩
    obtain ⟨M, hM⟩ := Finset.max_of_nonempty hne
    rw [hM]
    have hMmem : M ∈ (g.connections.map (·.innovation)).toFinset :=
      Finset.mem_of_max hM
    rw [List.mem_toFinset] at hMmem
    rcases List.mem_map.mp hMmem with ⟨cM, hcM, hMv⟩
    have h1 : M ≤ maxInnov g.connections := hMv ▸ le_maxInnov hcM
    have h2 : maxInnov g.connections ≤ M := by
      rcases maxInnov_mem_or_zero g.connections with h0 | ⟨c, hcmem, hcv⟩
      · rw [h0]
        exact le_trans (h cM hcM) (le_of_eq hMv)
      · rw [hcv]
        have hle : (c.innovation : WithBot ℤ) ≤
            ((g.connections.map (·.innovation)).toFinset).max :=
          Finset.le_max (List.mem_toFinset.mpr (List.mem_map_of_mem _ hcmem))
        rw [hM] at hle
        exact_mod_cast hle
    exact le_antisymm h2 h1

/-- Membership in a genome's innovation set matches the code map's lookup
succeeding. -/
theorem mem_specInnovs_iff (g : Genome) (k : ℤ) :
    k ∈ specInnovs g ↔ (innovMap g.connections k).isSome = true := by
  rw [specInnovs, List.mem_toFinset, innovMap_isSome_iff]

theorem distExcess_eq (gA gB : Genome)
    (hA : ∀ c ∈ gA.connections, 0 ≤ c.innovation)
    (hB : ∀ c ∈ gB.connections, 0 ≤ c.innovation) :
    distExcess gA gB = (specExcessSet gA gB).card := by
  unfold distExcess specExcessSet
  rw [Finset.card_filter]
  refine Finset.sum_congr rfl ?_
  intro k hk
  unfold innovSet at hk
  have hmin : min (maxInnov gA.connections) (maxInnov gB.connections)
      = min (specMaxInnov gA) (specMaxInnov gB) := by
    rw [maxInnov_eq_spec hA, maxInnov_eq_spec hB]
  have hAmem := mem_specInnovs_iff gA k
  have hBmem := mem_specInnovs_iff gB k
  rcases hu : innovMap gA.connections k with _ | wa <;>
    rcases hv : innovMap gB.connections k with _ | wb
  · exfalso
    rcases Finset.mem_union.mp hk with h | h
    · have := (mem_specInnovs_iff gA k).mp h
      rw [hu] at this
      cases this
    · have := (mem_specInnovs_iff gB k).mp h
      rw [hv] at this
      cases this
  · have h1 : ¬ k ∈ specInnovs gA := fun h => by
      have := hAmem.mp h; rw [hu] at this; cases this
    have h2 : k ∈ specInnovs gB := hBmem.mpr (by rw [hv]; rfl)
    rw [hmin]
    simp only [h1, h2, false_and, not_false_iff, true_and]
  · have h1 : k ∈ specInnovs gA := hAmem.mpr (by rw [hu]; rfl)
    have h2 : ¬ k ∈ specInnovs gB := fun h => by
      have := hBmem.mp h; rw [hv] at this; cases this
    rw [hmin]
    simp only [h1, h2, and_false, not_false_iff, true_and]
  · have h1 : k ∈ specInnovs gA := hAmem.mpr (by rw [hu]; rfl)
    have h2 : k ∈ specInnovs gB := hBmem.mpr (by rw [hv]; rfl)
    simp [h1, h2]

theorem distDisjoint_eq (gA gB : Genome)
    (hA : ∀ c ∈ gA.connections, 0 ≤ c.innovation)
    (hB : ∀ c ∈ gB.connections, 0 ≤ c.innovation) :
    distDisjoint gA gB = (specDisjointSet gA gB).card := by
  unfold distDisjoint specDisjointSet
  rw [Finset.card_filter]
  refine Finset.sum_congr rfl ?_
  intro k hk
  unfold innovSet at hk
  have hmin : min (maxInnov gA.connections) (maxInnov gB.connections)
      = min (specMaxInnov gA) (specMaxInnov gB) := by
    rw [maxInnov_eq_spec hA, maxInnov_eq_spec hB]
  have hAmem := mem_specInnovs_iff gA k
  have hBmem := mem_specInnovs_iff gB k
  rcases hu : innovMap gA.connections k with _ | wa <;>
    rcases hv : innovMap gB.connections k with _ | wb
  · exfalso
    rcases Finset.mem_union.mp hk with h | h
    · have := (mem_specInnovs_iff gA k).mp h
      rw [hu] at this
      cases this
    · have := (mem_specInnovs_iff gB k).mp h
      rw [hv] at this
      cases this
  · have h1 : ¬ k ∈ specInnovs gA := fun h => by
      have := hAmem.mp h; rw [hu] at this; cases this
    have h2 : k ∈ specInnovs gB := hBmem.mpr (by rw [hv]; rfl)
    rw [hmin]
    simp only [h1, h2, false_and, not_false_iff, true_and]
    by_cases hlt : min (specMaxInnov gA) (specMaxInnov gB) < k
    · simp [hlt]
    · simp [hlt]
  · have h1 : k ∈ specInnovs gA := hAmem.mpr (by rw [hu]; rfl)
    have h2 : ¬ k ∈ specInnovs gB := fun h => by
      have := hBmem.mp h; rw [hv] at this; cases this
    rw [hmin]
    simp only [h1, h2, and_false, not_false_iff, true_and]
    by_cases hlt : min (specMaxInnov gA) (specMaxInnov gB) < k
    · simp [hlt]
    · simp [hlt]
  · have h1 : k ∈ specInnovs gA := hAmem.mpr (by rw [hu]; rfl)
    have h2 : k ∈ specInnovs gB := hBmem.mpr (by rw [hv]; rfl)
    simp [h1, h2]

theorem distMatching_eq (gA gB : Genome) :
    distMatching gA gB = (specMatchingSet gA gB).card := by
  unfold distMatching specMatchingSet
  rw [Finset.card_filter]
  refine Finset.sum_congr rfl ?_
  intro k hk
  have hAmem := mem_specInnovs_iff gA k
  have hBmem := mem_specInnovs_iff gB k
  rcases hu : innovMap gA.connections k with _ | wa <;>
    rcases hv : innovMap gB.connections k with _ | wb
  · have h1 : ¬ k ∈ specInnovs gA := fun h => by
      have := hAmem.mp h; rw [hu] at this; cases this
    simp [h1]
  · have h1 : ¬ k ∈ specInnovs gA := fun h => by
      have := hAmem.mp h; rw [hu] at this; cases this
    simp [h1]
  · have h2 : ¬ k ∈ specInnovs gB := fun h => by
      have := hBmem.mp h; rw [hv] at this; cases this
    simp [h2]
  · have h1 : k ∈ specInnovs gA := hAmem.mpr (by rw [hu]; rfl)
    have h2 : k ∈ specInnovs gB := hBmem.mpr (by rw [hv]; rfl)
    simp [h1, h2]

theorem distWeightDiff_eq (gA gB : Genome)
    (hndA : (gA.connections.map (·.innovation)).Nodup)
    (hndB : (gB.connections.map (·.innovation)).Nodup) :
    distWeightDiff gA gB = specWeightDiffSum gA gB := by
  unfold distWeightDiff specWeightDiffSum specMatchingSet
  rw [Finset.sum_filter]
  refine Finset.sum_congr rfl ?_
  intro k hk
  have hAmem := mem_specInnovs_iff gA k
  have hBmem := mem_specInnovs_iff gB k
  rcases hu : innovMap gA.connections k with _ | wa <;>
    rcases hv : innovMap gB.connections k with _ | wb
  · have h1 : ¬ k ∈ specInnovs gA := fun h => by
      have := hAmem.mp h; rw [hu] at this; cases this
    simp [h1]
  · have h1 : ¬ k ∈ specInnovs gA := fun h => by
      have := hAmem.mp h; rw [hu] at this; cases this
    simp [h1]
  · have h2 : ¬ k ∈ specInnovs gB := fun h => by
      have := hBmem.mp h; rw [hv] at this; cases this
    simp [h2]
  · have h1 : k ∈ specInnovs gA := hAmem.mpr (by rw [hu]; rfl)
    have h2 : k ∈ specInnovs gB := hBmem.mpr (by rw [hv]; rfl)
    have hwa : wa = specWeight gA k := by
      have := innovMap_eq_specWeight hndA h1
      rw [hu] at this
      exact Option.some.inj this
    have hwb : wb = specWeight gB k := by
      have := innovMap_eq_specWeight hndB h2
      rw [hv] at this
      exact Option.some.inj this
    simp [h1, h2, hwa, hwb]

/-- C5: `neat_distance` classifies each shared innovation number as matching
(accumulating the absolute weight difference), each one-sided innovation as
excess when it exceeds `min(maxInnovA, maxInnovB)` and as disjoint otherwise,
and returns `c1·excess + c2·disjoint + c3·(weightDiffSum / matchingCount)`
with the excess and disjoint terms divided by `max(|A|, |B|, 1)` exactly when
that maximum exceeds 20, a zero weight term when nothing matches, and
distance 0 when both genomes have no connections.  Hypotheses: each genome's
innovation numbers are duplicate-free and nonnegative (the data model's
globally-allocated identities). -/
theorem claim_C5 (gA gB : Genome) (cfg : NeatConfig)
    (hndA : (gA.connections.map (·.innovation)).Nodup)
    (hndB : (gB.connections.map (·.innovation)).Nodup)
    (hA : ∀ c ∈ gA.connections, 0 ≤ c.innovation)
    (hB : ∀ c ∈ gB.connections, 0 ≤ c.innovation) :
    neat_distance gA gB cfg = distance_spec gA gB cfg.compatibility_excess_coeff
      cfg.compatibility_disjoint_coeff cfg.compatibility_weight_coeff ∧
    (gA.connections = [] → gB.connections = [] → neat_distance gA gB cfg = 0) := by
  constructor
  · unfold neat_distance distance_spec
    by_cases hemp : gA.connections.isEmpty ∧ gB.connections.isEmpty
    · rw [if_pos hemp]
      obtain ⟨h1, h2⟩ := hemp
      rw [List.isEmpty_iff] at h1 h2
      have hset : specExcessSet gA gB = ∅ ∧ specDisjointSet gA gB = ∅ ∧
          specMatchingSet gA gB = ∅ := by
        unfold specExcessSet specDisjointSet specMatchingSet specInnovs
        rw [h1, h2]
        simp
      rw [if_neg (by rw [h1, h2]; norm_num)]
      rw [hset.1, hset.2.1, hset.2.2]
      simp
    · rw [if_neg hemp, distExcess_eq gA gB hA hB, distDisjoint_eq gA gB hA hB,
        distMatching_eq gA gB, distWeightDiff_eq gA gB hndA hndB]
  · intro h1 h2
    unfold neat_distance
    rw [if_pos ⟨by rw [h1]; rfl, by rw [h2]; rfl⟩]

theorem claim_C5_witness :
    (neat_distance
        ⟨[⟨1, 1, true⟩, ⟨3, 0, true⟩], [], 1, 1, 0⟩
        ⟨[⟨1, 0, true⟩, ⟨2, 1, true⟩], [], 1, 1, 0⟩
        ⟨0, 0, 0, 0, 0, 0, 0, 0, 0, 3, 1, 1, 1⟩
      = distance_spec
        ⟨[⟨1, 1, true⟩, ⟨3, 0, true⟩], [], 1, 1, 0⟩
        ⟨[⟨1, 0, true⟩, ⟨2, 1, true⟩], [], 1, 1, 0⟩ 1 1 1) ∧
    neat_distance ⟨[], [], 1, 1, 0⟩ ⟨[], [], 1, 1, 0⟩
      ⟨0, 0, 0, 0, 0, 0, 0, 0, 0, 3, 1, 1, 1⟩ = 0 :=
  ⟨(claim_C5 ⟨[⟨1, 1, true⟩, ⟨3, 0, true⟩], [], 1, 1, 0⟩
      ⟨[⟨1, 0, true⟩, ⟨2, 1, true⟩], [], 1, 1, 0⟩
      ⟨0, 0, 0, 0, 0, 0, 0, 0, 0, 3, 1, 1, 1⟩
      (by decide) (by decide) (by decide) (by decide)).1,
   (claim_C5 ⟨[], [], 1, 1, 0⟩ ⟨[], [], 1, 1, 0⟩
      ⟨0, 0, 0, 0, 0, 0, 0, 0, 0, 3, 1, 1, 1⟩
      (by decide) (by decide) (by decide) (by decide)).2 rfl rfl⟩

/-! ## Crossover (RustNeatGenome::crossover)

The `rng.gen_bool(0.5)` coin flips are modelled by an explicit stream of
booleans consumed in order, one per matching gene. -/

/-- One `HashMap::insert` of the less-fit parent's gene map. -/
def innovGeneStep (m : ℤ → Option ConnGene) (c : ConnGene) : ℤ → Option ConnGene :=
  Function.update m c.innovation (some c)

/-- The innovation → gene HashMap over the less-fit parent's connections
(later inserts overwrite earlier ones). -/
def innovGeneMap (conns : List ConnGene) : ℤ → Option ConnGene :=
  conns.foldl innovGeneStep fun _ => none

/-- One step of the child-building loop of `crossover`: a gene of the fitter
parent is kept unchanged when the less-fit parent lacks its innovation,
otherwise a coin flip picks one of the two aligned genes (`true` keeps the
fitter parent's copy). -/
def crossoverStep (innov_less : ℤ → Option ConnGene) (coin : ℕ → Bool)
    (st : List ConnGene × ℕ) (conn_fit : ConnGene) : List ConnGene × ℕ :=
  match innov_less conn_fit.innovation with
  | some conn_less => (st.1 ++ [if coin st.2 then conn_fit else conn_less], st.2 + 1)
  | none => (st.1 ++ [conn_fit], st.2)

/-- Faithful translation of `RustNeatGenome::crossover`: the parent with the
higher fitness is the fitter one (ties prefer parent A), the child walks the
fitter parent's connection genes in order, and the child's nodes and counts
come from the fitter parent with fitness reset to 0. -/
def crossover (parent_a parent_b : Genome) (coin : ℕ → Bool) : Genome :=
  let fitter := if parent_a.fitness ≥ parent_b.fitness then parent_a else parent_b
  let less_fit := if parent_a.fitness ≥ parent_b.fitness then parent_b else parent_a
  { connections := (fitter.connections.foldl
      (crossoverStep (innovGeneMap less_fit.connections) coin) ([], 0)).1,
    nodes := fitter.nodes,
    input_count := fitter.input_count,
    output_count := fitter.output_count,
    fitness := 0 }

/-- Values stored in the innovation → gene map carry their own key. -/
theorem innovGeneMap_key (conns : List ConnGene) (k : ℤ) (c : ConnGene) :
    innovGeneMap conns k = some c → c.innovation = k := by
  unfold innovGeneMap
  have hgen : ∀ (l : List ConnGene) (m : ℤ → Option ConnGene),
      (∀ k c, m k = some c → c.innovation = k) →
      ∀ k c, (l.foldl innovGeneStep m) k = some c → c.innovation = k := by
    intro l
    induction l with
    | nil => intro m hm; exact hm
    | cons d rest ih =>
        intro m hm
        rw [List.foldl_cons]
        refine ih _ ?_
        intro k c hkc
        unfold innovGeneStep at hkc
        rw [Function.update_apply] at hkc
        by_cases hk : k = d.innovation
        · rw [if_pos hk] at hkc
          rw [← Option.some.inj hkc, hk]
        · rw [if_neg hk] at hkc
          exact hm k c hkc
  exact hgen conns _ (fun k c h => by cases h) k c

/-- The child-building fold emits exactly one gene per fitter-parent gene,
carrying the same innovation number. -/
theorem crossover_fold_innovations (innov_less : ℤ → Option ConnGene)
    (hkey : ∀ k c, innov_less k = some c → c.innovation = k) (coin : ℕ → Bool) :
    ∀ (L : List ConnGene) (acc : List ConnGene) (cnt : ℕ),
      ((L.foldl (crossoverStep innov_less coin) (acc, cnt)).1).map (·.innovation)
        = acc.map (·.innovation) ++ L.map (·.innovation) := by
  intro L
  induction L with
  | nil => intro acc cnt; simp
  | cons d rest ih =>
      intro acc cnt
      rcases hm : innov_less d.innovation with _ | conn_less
      · rw [List.foldl_cons, show crossoverStep innov_less coin (acc, cnt) d
            = (acc ++ [d], cnt) from by unfold crossoverStep; rw [hm], ih]
        simp
      · rw [List.foldl_cons, show crossoverStep innov_less coin (acc, cnt) d
            = (acc ++ [if coin cnt then d else conn_less], cnt + 1) from by
              unfold crossoverStep; rw [hm], ih]
        have hsame : (if coin cnt then d else conn_less).innovation = d.innovation := by
          by_cases hc : coin cnt
          · rw [if_pos hc]
          · rw [if_neg hc]
            exact hkey _ _ hm
        simp [hsame]

/-- C6: crossover designates the parent with higher fitness as fitter (ties
preferring parent A); the child carries exactly the fitter parent's
connection-gene count, every child gene's innovation number is present in the
fitter parent (so genes exclusive to the less-fit parent are never
inherited), the child's nodes and input/output counts come from the fitter
parent, and the child's fitness is 0 — for every pair of parents and every
outcome of the coin flips. -/
theorem claim_C6 (parent_a parent_b : Genome) (coin : ℕ → Bool) :
    (crossover parent_a parent_b coin).connections.map (·.innovation)
        = (if parent_a.fitness ≥ parent_b.fitness then parent_a
            else parent_b).connections.map (·.innovation) ∧
    (crossover parent_a parent_b coin).connections.length
        = (if parent_a.fitness ≥ parent_b.fitness then parent_a
            else parent_b).connections.length ∧
    (∀ c ∈ (crossover parent_a parent_b coin).connections,
      c.innovation ∈ (if parent_a.fitness ≥ parent_b.fitness then parent_a
        else parent_b).connections.map (·.innovation)) ∧
    (crossover parent_a parent_b coin).nodes
        = (if parent_a.fitness ≥ parent_b.fitness then parent_a else parent_b).nodes ∧
    (crossover parent_a parent_b coin).input_count
        = (if parent_a.fitness ≥ parent_b.fitness then parent_a else parent_b).input_count ∧
    (crossover parent_a parent_b coin).output_count
        = (if parent_a.fitness ≥ parent_b.fitness then parent_a else parent_b).output_count ∧
    (crossover parent_a parent_b coin).fitness = 0 := by
  have hmap : (crossover parent_a parent_b coin).connections.map (·.innovation)
      = (if parent_a.fitness ≥ parent_b.fitness then parent_a
          else parent_b).connections.map (·.innovation) := by
    unfold crossover
    rw [crossover_fold_innovations _ (innovGeneMap_key _) coin]
    simp
  refine ⟨hmap, ?_, ?_, rfl, rfl, rfl, rfl⟩
  · have h1 := congrArg List.length hmap
    rwa [List.length_map, List.length_map] at h1
  · intro c hc
    rw [← hmap]
    exact List.mem_map_of_mem _ hc

theorem claim_C6_witness :
    (crossover ⟨[⟨1, 2, true⟩], [], 1, 1, 5⟩
        ⟨[⟨1, 3, true⟩, ⟨2, 1, false⟩], [], 1, 1, 1⟩ (fun _ => true)).fitness = 0 ∧
    ((⟨1, 2, true⟩ : ConnGene).innovation ∈
      (if (⟨[⟨1, 2, true⟩], [], 1, 1, 5⟩ : Genome).fitness ≥
          (⟨[⟨1, 3, true⟩, ⟨2, 1, false⟩], [], 1, 1, 1⟩ : Genome).fitness
        then (⟨[⟨1, 2, true⟩], [], 1, 1, 5⟩ : Genome)
        else ⟨[⟨1, 3, true⟩, ⟨2, 1, false⟩], [], 1, 1, 1⟩).connections.map (·.innovation)) :=
  ⟨(claim_C6 ⟨[⟨1, 2, true⟩], [], 1, 1, 5⟩
      ⟨[⟨1, 3, true⟩, ⟨2, 1, false⟩], [], 1, 1, 1⟩ (fun _ => true)).2.2.2.2.2.2,
   (claim_C6 ⟨[⟨1, 2, true⟩], [], 1, 1, 5⟩
      ⟨[⟨1, 3, true⟩, ⟨2, 1, false⟩], [], 1, 1, 1⟩ (fun _ => true)).2.2.1
      ⟨1, 2, true⟩ (by decide)⟩

/-! ## Mutation (RustNeatGenome::mutate)

Random draws are modelled by three explicit streams: `u` for the uniform
`[0, 1)` draws (`rng.gen::<f32>()` and `gen_range(-2.0..2.0)`, the latter as
`-2 + 4·u`), `g` for the standard Gaussian samples (scaled by the configured
strength), and `z` for the integer draws of `gen_range(0..len)` (taken modulo
the length).  Stream indices are normalised — each decision reads its own
dedicated position; this preserves the set of reachable behaviours because
the source's draws are independent. -/

/-- One connection of the weight-mutation loop: replace the weight with a
fresh uniform value in `[-2, 2]` with probability `weight_replace_rate`, else
perturb by Gaussian noise and clamp to `[-2, 2]`. -/
def weightStep (config : NeatConfig) (u : ℕ → ℚ) (g : ℕ → ℚ)
    (st : List ConnGene × ℕ × ℕ) (conn : ConnGene) : List ConnGene × ℕ × ℕ :=
  if u st.2.1 < config.weight_replace_rate then
    (st.1 ++ [{ conn with weight := -2 + 4 * u (st.2.1 + 1) }], st.2.1 + 2, st.2.2)
  else
    (st.1 ++
      [{ conn with
          weight := max (-2) (min 2 (conn.weight + config.weight_mutation_strength * g st.2.2)) }],
      st.2.1 + 1, st.2.2 + 1)

/-- Faithful translation of `RustNeatGenome::mutate`: a single uniform gate
draw skips everything when it is at least `mutation_rate`; otherwise the
weight-mutation pass (gated by `weight_mutation_rate`), the enable mutation
(one random disabled connection, when any), the disable mutation (one random
enabled connection, only when more than one connection exists), and the
deletion of one random connection (only when more than one remains), in
source order.  Structural growth is not performed here. -/
def mutate (genome : Genome) (config : NeatConfig) (u : ℕ → ℚ) (g : ℕ → ℚ)
    (z : ℕ → ℕ) : Genome :=
  if u 0 ≥ config.mutation_rate then genome
  else
    let conns1 :=
      if u 1 < config.weight_mutation_rate then
        (genome.connections.foldl (weightStep config u g) ([], 2, 0)).1
      else genome.connections
    let ku := (genome.connections.foldl (weightStep config u g) ([], 2, 0)).2.1
    let conns2 :=
      if ¬ conns1.isEmpty ∧ u ku < config.conn_enable_rate then
        if ((List.range conns1.length).filter
            (fun i => (conns1.getD i default).enabled = false)).isEmpty then conns1
        else
          conns1.set
            (((List.range conns1.length).filter
                (fun i => (conns1.getD i default).enabled = false)).getD
              (z 0 % ((List.range conns1.length).filter
                (fun i => (conns1.getD i default).enabled = false)).length) 0)
            { (conns1.getD
                (((List.range conns1.length).filter
                    (fun i => (conns1.getD i default).enabled = false)).getD
                  (z 0 % ((List.range conns1.length).filter
                    (fun i => (conns1.getD i default).enabled = false)).length) 0)
                default) with
              enabled := true }
      else conns1
    let conns3 :=
      if ¬ conns2.isEmpty ∧ u (ku + 1) < config.conn_disable_rate ∧ 1 < conns2.length then
        if ((List.range conns2.length).filter
            (fun i => (conns2.getD i default).enabled = true)).isEmpty then conns2
        else
          conns2.set
            (((List.range conns2.length).filter
                (fun i => (conns2.getD i default).enabled = true)).getD
              (z 1 % ((List.range conns2.length).filter
                (fun i => (conns2.getD i default).enabled = true)).length) 0)
            { (conns2.getD
                (((List.range conns2.length).filter
                    (fun i => (conns2.getD i default).enabled = true)).getD
                  (z 1 % ((List.range conns2.length).filter
                    (fun i => (conns2.getD i default).enabled = true)).length) 0)
                default) with
              enabled := false }
      else conns2
    let conns4 :=
      if u (ku + 2) < config.conn_delete_rate ∧ 1 < conns3.length then
        conns3.eraseIdx (z 2 % conns3.length)
      else conns3
    { genome with connections := conns4 }

/-- C8: for every genome, configuration with `mutation_rate = 0`, and every
outcome of the random draws (whose first uniform draw is nonnegative, as
`rng.gen::<f32>()` always is), `mutate` leaves the genome completely
unchanged: the gate draw `rng.gen::<f32>() >= mutation_rate` always fires and
skips all mutation. -/
theorem claim_C8 (genome : Genome) (config : NeatConfig) (u : ℕ → ℚ)
    (g : ℕ → ℚ) (z : ℕ → ℕ) (hrate : config.mutation_rate = 0)
    (hu : 0 ≤ u 0) :
    mutate genome config u g z = genome := by
  unfold mutate
  rw [if_pos]
  rw [hrate]
  exact hu

theorem claim_C8_witness :
    mutate ⟨[⟨1, 1, true⟩], [], 1, 1, 0⟩ ⟨0, 1, 1, 1, 1, 1, 1, 1, 1, 3, 1, 1, 1⟩
        (fun _ => 0) (fun _ => 0) (fun _ => 0)
      = ⟨[⟨1, 1, true⟩], [], 1, 1, 0⟩ :=
  claim_C8 ⟨[⟨1, 1, true⟩], [], 1, 1, 0⟩ ⟨0, 1, 1, 1, 1, 1, 1, 1, 1, 3, 1, 1, 1⟩
    (fun _ => 0) (fun _ => 0) (fun _ => 0) rfl (by norm_num)

/-! ## Fixed-topology network (src/rust/evolve-native/src/neural_network.rs)

The weight matrices are flat row-major `Vec<f32>`s.  `forward` reads the
input slice with `get_unchecked` guarded only by a `debug_assert`; every
indexed read is therefore modelled through `Option`, a `none` marking an
execution that reads out of bounds (undefined behaviour in release builds,
a panic in debug builds). -/

structure RustNeuralNetwork where
  input_size : ℕ
  hidden_size : ℕ
  output_size : ℕ
  use_memory : Bool
  weights_ih : List ℚ
  bias_h : List ℚ
  weights_ho : List ℚ
  bias_o : List ℚ
  weights_hh : List ℚ
  prev_hidden : List ℚ
  deriving DecidableEq, Repr

/-- Accumulate `k` optional terms onto an optional accumulator, failing as
soon as any term fails (the inner `sum += ...` loops). -/
def dotAcc (init : Option ℚ) (f : ℕ → Option ℚ) (k : ℕ) : Option ℚ :=
  (List.range k).foldl (fun acc i => do
    let a ← acc
    let t ← f i
    pure (a + t)) init

/-- Sequence the optional values of `f` over a list of indices (the
per-neuron loops; a `none` anywhere poisons the whole pass). -/
def mapMOpt (f : ℕ → Option ℚ) : List ℕ → Option (List ℚ)
  | [] => some []
  | x :: xs => do
      let y ← f x
      let ys ← mapMOpt f xs
      pure (y :: ys)

/-- One input→hidden product `weights_ih[h*input_size + i] * inputs[i]`. -/
def hTerm (net : RustNeuralNetwork) (inputs : List ℚ) (h i : ℕ) : Option ℚ := do
  let w ← net.weights_ih.get? (h * net.input_size + i)
  let x ← inputs.get? i
  pure (w * x)

/-- One recurrent product `weights_hh[h*hidden_size + p] * prev_hidden[p]`. -/
def hMemTerm (net : RustNeuralNetwork) (h p : ℕ) : Option ℚ := do
  let w ← net.weights_hh.get? (h * net.hidden_size + p)
  let x ← net.prev_hidden.get? p
  pure (w * x)

/-- The hidden activation of neuron `h` (bias, input products, optional
recurrent products, then the activation function). -/
def hiddenVal (act : ℚ → ℚ) (net : RustNeuralNetwork) (inputs : List ℚ)
    (h : ℕ) : Option ℚ := do
  let b ← net.bias_h.get? h
  let s1 ← dotAcc (some b) (hTerm net inputs h) net.input_size
  let s2 ← if net.use_memory then dotAcc (some s1) (hMemTerm net h) net.hidden_size
    else pure s1
  pure (act s2)

/-- The output activation of neuron `o` over the freshly computed hidden
vector. -/
def outputVal (act : ℚ → ℚ) (net : RustNeuralNetwork) (hidden : List ℚ)
    (o : ℕ) : Option ℚ := do
  let b ← net.bias_o.get? o
  let s ← dotAcc (some b) (fun h => do
    let w ← net.weights_ho.get? (o * net.hidden_size + h)
    let x ← hidden.get? h
    pure (w * x)) net.hidden_size
  pure (act s)

/-- Faithful translation of `RustNeuralNetwork::forward`: hidden layer, the
recurrent-state store (when memory is enabled the just-computed hidden vector
becomes `prev_hidden`), then the output layer.  Returns the outputs and the
post-call network. -/
def forward (act : ℚ → ℚ) (net : RustNeuralNetwork) (inputs : List ℚ) :
    Option (List ℚ × RustNeuralNetwork) := do
  let hidden ← mapMOpt (hiddenVal act net inputs) (List.range net.hidden_size)
  let outputs ← mapMOpt (outputVal act net hidden) (List.range net.output_size)
  pure (outputs,
    { net with prev_hidden := if net.use_memory then hidden else net.prev_hidden })

/-- Well-formed architecture: the flat vectors have the sizes the constructor
allocates. -/
def wfNet (net : RustNeuralNetwork) : Prop :=
  net.weights_ih.length = net.hidden_size * net.input_size ∧
  net.bias_h.length = net.hidden_size ∧
  net.weights_ho.length = net.output_size * net.hidden_size ∧
  net.bias_o.length = net.output_size ∧
  (net.use_memory = true → net.weights_hh.length = net.hidden_size * net.hidden_size ∧
    net.prev_hidden.length = net.hidden_size)

/-- Faithful translation of `RustNeuralNetwork::get_weights`: the canonical
flat order `weights_ih, bias_h, weights_ho, bias_o, [weights_hh]`. -/
def get_weights (net : RustNeuralNetwork) : List ℚ :=
  net.weights_ih ++ net.bias_h ++ net.weights_ho ++ net.bias_o ++
    (if net.use_memory then net.weights_hh else [])

/-- One field assignment of `set_weights`: read `len` consecutive entries
starting at `idx`; `none` models the `w[idx]` panic when the flat vector is
too short. -/
def takeField (w : List ℚ) (idx len : ℕ) : Option (List ℚ) :=
  if idx + len ≤ w.length then some ((w.drop idx).take len) else none

/-- Faithful translation of `RustNeuralNetwork::set_weights`: refill the four
mandatory fields in flat order, then the recurrent weights only when memory
is enabled and entries remain. -/
def set_weights (net : RustNeuralNetwork) (w : List ℚ) :
    Option RustNeuralNetwork := do
  let ih ← takeField w 0 net.weights_ih.length
  let bh ← takeField w net.weights_ih.length net.bias_h.length
  let ho ← takeField w (net.weights_ih.length + net.bias_h.length)
    net.weights_ho.length
  let bo ← takeField w
    (net.weights_ih.length + net.bias_h.length + net.weights_ho.length)
    net.bias_o.length
  if net.use_memory = true ∧
      net.weights_ih.length + net.bias_h.length + net.weights_ho.length +
        net.bias_o.length < w.length then do
    let hh ← takeField w
      (net.weights_ih.length + net.bias_h.length + net.weights_ho.length +
        net.bias_o.length)
      net.weights_hh.length
    pure { net with
            weights_ih := ih, bias_h := bh, weights_ho := ho,
            bias_o := bo, weights_hh := hh }
  else
    pure { net with weights_ih := ih, bias_h := bh, weights_ho := ho, bias_o := bo }

/-- Reading a middle segment of a flat concatenation returns that segment. -/
theorem takeField_mid (pre mid suf : List ℚ) :
    takeField (pre ++ mid ++ suf) pre.length mid.length = some mid := by
  unfold takeField
  rw [if_pos]
  · rw [List.append_assoc, List.drop_left, List.take_left]
  · rw [List.length_append, List.length_append]
    omega

/-- C7: for every fixed-topology network (with or without memory), feeding
`get_weights` back through `set_weights` succeeds and is a no-op on every
weight matrix and bias vector — indeed on the whole network. -/
theorem claim_C7 (net : RustNeuralNetwork) :
    set_weights net (get_weights net) = some net := by
  have h1 : takeField (get_weights net) 0 net.weights_ih.length
      = some net.weights_ih := by
    have h := takeField_mid [] net.weights_ih
      (net.bias_h ++ net.weights_ho ++ net.bias_o ++
        (if net.use_memory then net.weights_hh else []))
    simpa [get_weights, List.append_assoc] using h
  have h2 : takeField (get_weights net) net.weights_ih.length net.bias_h.length
      = some net.bias_h := by
    have h := takeField_mid net.weights_ih net.bias_h
      (net.weights_ho ++ net.bias_o ++ (if net.use_memory then net.weights_hh else []))
    simpa [get_weights, List.append_assoc] using h
  have h3 : takeField (get_weights net)
      (net.weights_ih.length + net.bias_h.length) net.weights_ho.length
      = some net.weights_ho := by
    have h := takeField_mid (net.weights_ih ++ net.bias_h) net.weights_ho
      (net.bias_o ++ (if net.use_memory then net.weights_hh else []))
    simpa [get_weights, List.append_assoc, List.length_append] using h
  have h4 : takeField (get_weights net)
      (net.weights_ih.length + net.bias_h.length + net.weights_ho.length)
      net.bias_o.length = some net.bias_o := by
    have h := takeField_mid (net.weights_ih ++ net.bias_h ++ net.weights_ho)
      net.bias_o (if net.use_memory then net.weights_hh else [])
    simp only [List.append_assoc, List.length_append] at h
    rw [Nat.add_assoc, get_weights]
    simp only [List.append_assoc]
    exact h
  unfold set_weights
  rw [h1, h2, h3, h4]
  simp only [Option.bind_eq_bind, Option.some_bind]
  by_cases hm : net.use_memory = true
  · by_cases hhh : net.weights_hh.length = 0
    · rw [if_neg]
      · rfl
      · rintro ⟨_, hlen⟩
        rw [get_weights, hm, if_pos rfl] at hlen
        simp only [List.length_append] at hlen
        omega
    · rw [if_pos]
      · have h5 : takeField (get_weights net)
            (net.weights_ih.length + net.bias_h.length + net.weights_ho.length +
              net.bias_o.length) net.weights_hh.length = some net.weights_hh := by
          have h := takeField_mid
            (net.weights_ih ++ net.bias_h ++ net.weights_ho ++ net.bias_o)
            net.weights_hh []
          simp only [List.append_assoc, List.length_append, List.append_nil] at h
          rw [Nat.add_assoc, Nat.add_assoc, get_weights, hm, if_pos rfl]
          simp only [List.append_assoc]
          exact h
        rw [h5]
        rfl
      · refine ⟨hm, ?_⟩
        rw [get_weights, hm, if_pos rfl]
        simp only [List.length_append]
        omega
  · rw [if_neg]
    · rfl
    · rintro ⟨hmm, _⟩
      exact hm hmm

/-! ### The variable-topology NEAT network (`neat_network.rs`)

`RustNeatNetwork::create` receives parallel arrays describing nodes and
connections, builds the enabled-connection graph, topologically sorts it
with Kahn's algorithm, and falls back to a type-grouped order when the
sort does not cover every node.  The id lookup in the source is a binary
search over the id-sorted `(id, index)` table; we model it as the first
index carrying the id, which agrees with the source whenever ids are
duplicate-free (the data model's case).  The Rust `while head < queue.len()`
loop is modelled with explicit fuel; `num_nodes + 1` units are proved
sufficient below.  Vector writes in the forward pass are modelled with
`List.set`; every index written by a network built by `create` is in
bounds, which is the only case the theorems exercise. -/

structure RustNeatNetwork where
  node_order : List ℕ
  node_biases : List ℚ
  input_indices : List ℕ
  output_indices : List ℕ
  connections : List (ℕ × ℕ × ℚ)
  incoming : List (List (ℕ × ℚ))
  activations : List ℚ
  is_input : List Bool
  deriving DecidableEq, Repr

/-- Model of the sorted-table binary search: the first population index
holding `id` (identical to the source whenever the ids are distinct). -/
def lookupIdx (ids : List ℤ) (id : ℤ) : Option ℕ :=
  (List.range ids.length).find? (fun i => ids.getD i 0 == id)

/-- The enabled connections `(from_idx, to_idx, weight)` in declaration
order, skipping disabled entries and entries whose endpoints fail to
resolve — the connection-building loop of `create`. -/
def buildConns (ids : List ℤ) (cin cout : List ℤ) (cw : List ℚ)
    (cen : List ℕ) : List (ℕ × ℕ × ℚ) :=
  (List.range cin.length).filterMap (fun c =>
    if cen.getD c 1 = 0 then none
    else
      match lookupIdx ids (cin.getD c 0), lookupIdx ids (cout.getD c 0) with
      | some f, some t => some (f, t, cw.getD c 0)
      | _, _ => none)

/-- The in-degree table built from the enabled connections. -/
def inDeg (conns : List (ℕ × ℕ × ℚ)) (v : ℕ) : ℤ :=
  ((conns.filter (fun c => c.2.1 == v)).length : ℤ)

/-- The adjacency list of `v`: targets of edges leaving `v`, in edge
order. -/
def adj (conns : List (ℕ × ℕ × ℚ)) (v : ℕ) : List ℕ :=
  (conns.filter (fun c => c.1 == v)).map (fun c => c.2.1)

/-- Processing one outgoing edge inside Kahn's loop: decrement the target's
in-degree and enqueue it when the degree reaches zero. -/
def pushStep (st : (ℕ → ℤ) × List ℕ) (t : ℕ) : (ℕ → ℤ) × List ℕ :=
  if st.1 t - 1 = 0 then (Function.update st.1 t (st.1 t - 1), st.2 ++ [t])
  else (Function.update st.1 t (st.1 t - 1), st.2)

/-- Kahn's worklist loop (`while head < queue.len()`), with fuel.  The
accumulator is the processed prefix (`node_order`), the second list the
still-unprocessed tail of the growing queue. -/
def kahnLoop (adjf : ℕ → List ℕ) : ℕ → (ℕ → ℤ) → List ℕ → List ℕ → List ℕ
  | 0, _, _, acc => acc
  | _ + 1, _, [], acc => acc
  | fuel + 1, deg, node :: rest, acc =>
      kahnLoop adjf fuel ((adjf node).foldl pushStep (deg, [])).1
        (rest ++ ((adjf node).foldl pushStep (deg, [])).2) (acc ++ [node])

theorem kahnLoop_zero (adjf : ℕ → List ℕ) (deg : ℕ → ℤ) (queue acc : List ℕ) :
    kahnLoop adjf 0 deg queue acc = acc := rfl

theorem kahnLoop_nil (adjf : ℕ → List ℕ) (fuel : ℕ) (deg : ℕ → ℤ)
    (acc : List ℕ) : kahnLoop adjf (fuel + 1) deg [] acc = acc := rfl

theorem kahnLoop_cons (adjf : ℕ → List ℕ) (fuel : ℕ) (deg : ℕ → ℤ)
    (node : ℕ) (rest acc : List ℕ) :
    kahnLoop adjf (fuel + 1) deg (node :: rest) acc =
      kahnLoop adjf fuel ((adjf node).foldl pushStep (deg, [])).1
        (rest ++ ((adjf node).foldl pushStep (deg, [])).2) (acc ++ [node]) := rfl

/-- The complete Kahn run of `create`: initial queue = the zero-in-degree
nodes in ascending index order, fuel `n + 1`. -/
def kahnOrder (n : ℕ) (conns : List (ℕ × ℕ × ℚ)) : List ℕ :=
  kahnLoop (adj conns) (n + 1) (inDeg conns)
    ((List.range n).filter (fun i => inDeg conns i == 0)) []

/-- The cycle fallback: all type-0 nodes, then type-1, then type-2, each in
listing order. -/
def typeFallback (types : List ℤ) : List ℕ :=
  ((List.range types.length).filter (fun i => types.getD i 0 == 0)) ++
    ((List.range types.length).filter (fun i => types.getD i 0 == 1)) ++
    ((List.range types.length).filter (fun i => types.getD i 0 == 2))

/-- The evaluation order chosen by `create`: the Kahn order unless it missed
a node, in which case the type-grouped fallback. -/
def nodeOrder (n : ℕ) (types : List ℤ) (conns : List (ℕ × ℕ × ℚ)) :
    List ℕ :=
  if (kahnOrder n conns).length < n then typeFallback types else kahnOrder n conns

/-- Faithful translation of `RustNeatNetwork::create`.  The length guard
models the slice-index panics on mismatched parallel arrays (`n_types[i]`,
`n_biases[i]`, `c_out[c]`, `c_w[c]`, `c_en[c]`). -/
def create (ids types : List ℤ) (biases : List ℚ) (cin cout : List ℤ)
    (cw : List ℚ) (cen : List ℕ) : Option RustNeatNetwork :=
  if types.length = ids.length ∧ ids.length ≤ biases.length ∧
      cin.length ≤ cout.length ∧ cin.length ≤ cw.length ∧
      cin.length ≤ cen.length then
    some
      { node_order := nodeOrder ids.length types (buildConns ids cin cout cw cen)
        node_biases := (List.range ids.length).map (fun i => biases.getD i 0)
        input_indices := (List.range ids.length).filter (fun i => types.getD i 0 == 0)
        output_indices := (List.range ids.length).filter (fun i => types.getD i 0 == 2)
        connections := buildConns ids cin cout cw cen
        incoming := (List.range ids.length).map (fun v =>
          ((buildConns ids cin cout cw cen).filter (fun c => c.2.1 == v)).map
            (fun c => (c.1, c.2.2)))
        activations := List.replicate ids.length 0
        is_input := (List.range ids.length).map (fun i => types.getD i 0 == 0) }
  else none

/-- The value assigned to the `i`-th input node: `inputs[i]` when present,
otherwise `0` (the `if i < inp.len()` guard of the forward pass). -/
def inVal (inputs : List ℚ) (i : ℕ) : ℚ :=
  if i < inputs.length then inputs.getD i 0 else 0

/-- The input-assignment loop of `RustNeatNetwork::forward`. -/
def setInputs (idxs : List ℕ) (inputs : List ℚ) (acts : List ℚ) : List ℚ :=
  (List.range idxs.length).foldl
    (fun a i => a.set (idxs.getD i 0) (inVal inputs i)) acts

/-- One node of the topological-order evaluation loop: inputs are skipped,
every other node gets `act (bias + Σ incoming activation·weight)`. -/
def nodeStep (act : ℚ → ℚ) (isInp : List Bool) (biasv : List ℚ)
    (inc : List (List (ℕ × ℚ))) (acts : List ℚ) (nodeIdx : ℕ) : List ℚ :=
  if isInp.getD nodeIdx false then acts
  else
    acts.set nodeIdx
      (act ((inc.getD nodeIdx []).foldl
        (fun s p => s + acts.getD p.1 0 * p.2) (biasv.getD nodeIdx 0)))

/-- Faithful translation of `RustNeatNetwork::forward`: assign inputs,
evaluate in `node_order`, read the outputs; returns the outputs and the
post-call network (mutated `activations`). -/
def forwardNeat (act : ℚ → ℚ) (net : RustNeatNetwork) (inputs : List ℚ) :
    List ℚ × RustNeatNetwork :=
  (net.output_indices.map
      (fun idx =>
        (net.node_order.foldl
          (nodeStep act net.is_input net.node_biases net.incoming)
          (setInputs net.input_indices inputs net.activations)).getD idx 0),
   { net with
      activations :=
        net.node_order.foldl
          (nodeStep act net.is_input net.node_biases net.incoming)
          (setInputs net.input_indices inputs net.activations) })

/-- A duplicate-free list of naturals below `n` has at most `n` elements. -/
theorem nodup_lt_length_le (l : List ℕ) (n : ℕ) (hnd : l.Nodup)
    (hb : ∀ x ∈ l, x < n) : l.length ≤ n := by
  have h1 : l.toFinset ⊆ Finset.range n := fun x hx =>
    Finset.mem_range.mpr (hb x (List.mem_toFinset.mp hx))
  have h2 := Finset.card_le_card h1
  rwa [List.toFinset_card_of_nodup hnd, Finset.card_range] at h2

/-- A duplicate-free list of naturals below `n` with at least `n` elements is
a permutation of `range n`. -/
theorem perm_range_of_nodup_of_length (l : List ℕ) (n : ℕ) (hnd : l.Nodup)
    (hb : ∀ x ∈ l, x < n) (hlen : n ≤ l.length) : l.Perm (List.range n) := by
  have hsub : l.toFinset ⊆ Finset.range n := fun x hx =>
    Finset.mem_range.mpr (hb x (List.mem_toFinset.mp hx))
  have hcard : (Finset.range n).card ≤ l.toFinset.card := by
    rw [Finset.card_range, List.toFinset_card_of_nodup hnd]
    exact hlen
  have hr : (List.range n).toFinset = Finset.range n := by
    ext x
    simp
  have heq : l.toFinset = (List.range n).toFinset := by
    rw [hr]
    exact Finset.eq_of_subset_of_card_le hsub hcard
  exact List.perm_of_nodup_nodup_toFinset_eq hnd (List.nodup_range n) heq

/-- The loop invariant of Kahn's algorithm: the processed prefix together
with the pending queue is duplicate-free, within bounds, and every node that
ever entered the queue has a non-positive residual in-degree. -/
def KahnInv (n : ℕ) (deg : ℕ → ℤ) (queue acc : List ℕ) : Prop :=
  (acc ++ queue).Nodup ∧ (∀ x ∈ acc ++ queue, x < n) ∧
    ∀ x ∈ acc ++ queue, deg x ≤ 0

/-- Folding `pushStep` over an adjacency list preserves the invariant: the
pushed nodes are fresh (their degree was still positive), stay in bounds, and
end with non-positive degree. -/
theorem foldl_pushStep_inv (n : ℕ) (L : List ℕ) (hL : ∀ t ∈ L, t < n) :
    ∀ (deg : ℕ → ℤ) (V P : List ℕ),
      (V ++ P).Nodup → (∀ x ∈ V ++ P, x < n) → (∀ x ∈ V ++ P, deg x ≤ 0) →
      (V ++ (L.foldl pushStep (deg, P)).2).Nodup ∧
        (∀ x ∈ V ++ (L.foldl pushStep (deg, P)).2, x < n) ∧
        ∀ x ∈ V ++ (L.foldl pushStep (deg, P)).2,
          (L.foldl pushStep (deg, P)).1 x ≤ 0 := by
  induction L with
  | nil => intro deg V P h1 h2 h3; exact ⟨h1, h2, h3⟩
  | cons t L ih =>
    intro deg V P h1 h2 h3
    have ht : t < n := hL t (List.mem_cons_self t L)
    have hL' : ∀ u ∈ L, u < n := fun u hu => hL u (List.mem_cons_of_mem t hu)
    by_cases hz : deg t - 1 = 0
    · have htfresh : t ∉ V ++ P := fun hmem => by have := h3 t hmem; omega
      have step : (t :: L).foldl pushStep (deg, P) =
          L.foldl pushStep (Function.update deg t (deg t - 1), P ++ [t]) := by
        simp [pushStep, hz]
      rw [step]
      apply ih hL' (Function.update deg t (deg t - 1)) V (P ++ [t])
      · rw [← List.append_assoc]
        exact (List.nodup_cons.mpr ⟨htfresh, h1⟩).perm
          (List.perm_append_singleton t (V ++ P)).symm
      · intro x hx
        rw [← List.append_assoc] at hx
        rcases List.mem_append.mp hx with hx | hx
        · exact h2 x hx
        · rw [List.mem_singleton] at hx; subst hx; exact ht
      · intro x hx
        rw [← List.append_assoc] at hx
        rcases List.mem_append.mp hx with hx | hx
        · have hxt : x ≠ t := fun he => htfresh (he ▸ hx)
          rw [Function.update_noteq hxt]
          exact h3 x hx
        · rw [List.mem_singleton] at hx; subst hx
          rw [Function.update_same]
          omega
    · have step : (t :: L).foldl pushStep (deg, P) =
          L.foldl pushStep (Function.update deg t (deg t - 1), P) := by
        simp [pushStep, hz]
      rw [step]
      apply ih hL' (Function.update deg t (deg t - 1)) V P h1 h2
      intro x hx
      by_cases hxt : x = t
      · subst hxt
        rw [Function.update_same]
        have := h3 x hx
        omega
      · rw [Function.update_noteq hxt]
        exact h3 x hx

/-- One iteration of Kahn's loop (process the queue head, enqueue the fresh
zero-degree targets) preserves the invariant. -/
theorem kahnStep_inv (n : ℕ) (adjf : ℕ → List ℕ)
    (hadj : ∀ v, ∀ t ∈ adjf v, t < n) (deg : ℕ → ℤ) (node : ℕ)
    (rest acc : List ℕ) (hinv : KahnInv n deg (node :: rest) acc) :
    KahnInv n ((adjf node).foldl pushStep (deg, [])).1
      (rest ++ ((adjf node).foldl pushStep (deg, [])).2) (acc ++ [node]) := by
  obtain ⟨h1, h2, h3⟩ := hinv
  have hfold := foldl_pushStep_inv n (adjf node) (hadj node) deg
    (acc ++ node :: rest) [] (by simpa using h1) (by simpa using h2)
    (by simpa using h3)
  have hre : ∀ X : List ℕ,
      (acc ++ [node]) ++ (rest ++ X) = (acc ++ node :: rest) ++ X := by
    intro X
    simp [List.append_assoc]
  refine ⟨?_, ?_, ?_⟩
  · rw [hre]
    exact hfold.1
  · intro x hx
    rw [hre] at hx
    exact hfold.2.1 x hx
  · intro x hx
    rw [hre] at hx
    exact hfold.2.2 x hx

/-- Under the invariant, every Kahn run is duplicate-free and in bounds. -/
theorem kahnLoop_inv (n : ℕ) (adjf : ℕ → List ℕ)
    (hadj : ∀ v, ∀ t ∈ adjf v, t < n) :
    ∀ (fuel : ℕ) (deg : ℕ → ℤ) (queue acc : List ℕ),
      KahnInv n deg queue acc →
      (kahnLoop adjf fuel deg queue acc).Nodup ∧
        ∀ x ∈ kahnLoop adjf fuel deg queue acc, x < n := by
  intro fuel
  induction fuel with
  | zero =>
    intro deg queue acc hinv
    rw [kahnLoop_zero]
    exact ⟨hinv.1.of_append_left,
      fun x hx => hinv.2.1 x (List.mem_append_left _ hx)⟩
  | succ f ih =>
    intro deg queue acc hinv
    cases queue with
    | nil =>
      rw [kahnLoop_nil]
      exact ⟨hinv.1.of_append_left,
        fun x hx => hinv.2.1 x (List.mem_append_left _ hx)⟩
    | cons node rest =>
      rw [kahnLoop_cons]
      exact ih _ _ _ (kahnStep_inv n adjf hadj deg node rest acc hinv)

/-- Fuel sufficiency: under the invariant, any two fuel budgets of at least
`n + 1 - acc.length` produce the same run — the loop reaches its empty-queue
exit before the fuel runs out, so the model's `n + 1` budget is faithful to
the unbounded `while` loop. -/
theorem kahnLoop_fuel_stable (n : ℕ) (adjf : ℕ → List ℕ)
    (hadj : ∀ v, ∀ t ∈ adjf v, t < n) :
    ∀ (fuel fuel' : ℕ) (deg : ℕ → ℤ) (queue acc : List ℕ),
      KahnInv n deg queue acc →
      n + 1 ≤ fuel + acc.length → n + 1 ≤ fuel' + acc.length →
      kahnLoop adjf fuel deg queue acc = kahnLoop adjf fuel' deg queue acc := by
  intro fuel
  induction fuel with
  | zero =>
    intro fuel' deg queue acc hinv hf hf'
    exfalso
    have hle : acc.length ≤ n := nodup_lt_length_le acc n hinv.1.of_append_left
      (fun x hx => hinv.2.1 x (List.mem_append_left _ hx))
    omega
  | succ f ih =>
    intro fuel' deg queue acc hinv hf hf'
    have hle : acc.length ≤ n := nodup_lt_length_le acc n hinv.1.of_append_left
      (fun x hx => hinv.2.1 x (List.mem_append_left _ hx))
    cases fuel' with
    | zero => omega
    | succ f' =>
      cases queue with
      | nil => rw [kahnLoop_nil, kahnLoop_nil]
      | cons node rest =>
        rw [kahnLoop_cons, kahnLoop_cons]
        apply ih f' _ _ _ (kahnStep_inv n adjf hadj deg node rest acc hinv) <;>
          simp <;> omega

/-- A successful id lookup yields an index inside the node table. -/
theorem lookupIdx_lt (ids : List ℤ) (id : ℤ) (i : ℕ)
    (h : lookupIdx ids id = some i) : i < ids.length := by
  have := List.mem_of_find?_eq_some h
  exact List.mem_range.mp this

/-- Both endpoints of every built connection are valid node indices. -/
theorem buildConns_bounds (ids : List ℤ) (cin cout : List ℤ) (cw : List ℚ)
    (cen : List ℕ) :
    ∀ c ∈ buildConns ids cin cout cw cen,
      c.1 < ids.length ∧ c.2.1 < ids.length := by
  intro c hc
  rw [buildConns, List.mem_filterMap] at hc
  obtain ⟨a, _, hfa⟩ := hc
  by_cases h0 : cen.getD a 1 = 0
  · rw [if_pos h0] at hfa
    exact absurd hfa (by simp)
  · rw [if_neg h0] at hfa
    cases h1 : lookupIdx ids (cin.getD a 0) with
    | none => rw [h1] at hfa; exact absurd hfa (by simp)
    | some f =>
      cases h2 : lookupIdx ids (cout.getD a 0) with
      | none => rw [h1, h2] at hfa; exact absurd hfa (by simp)
      | some t =>
        rw [h1, h2] at hfa
        have hc : c = (f, t, cw.getD a 0) := by
          exact (Option.some.injEq _ _).mp hfa.symm
        subst hc
        exact ⟨lookupIdx_lt ids _ f h1, lookupIdx_lt ids _ t h2⟩

/-- The full Kahn run over the built graph is duplicate-free and in
bounds. -/
theorem kahnOrder_props (n : ℕ) (conns : List (ℕ × ℕ × ℚ))
    (hc : ∀ c ∈ conns, c.2.1 < n) :
    (kahnOrder n conns).Nodup ∧ ∀ x ∈ kahnOrder n conns, x < n := by
  apply kahnLoop_inv n (adj conns)
  · intro v t hmem
    rw [adj, List.mem_map] at hmem
    obtain ⟨c, hcf, rfl⟩ := hmem
    exact hc c (List.mem_of_mem_filter hcf)
  · refine ⟨by simpa using (List.nodup_range n).filter _, ?_, ?_⟩
    · intro x hx
      simp only [List.nil_append, List.mem_filter, List.mem_range] at hx
      exact hx.1
    · intro x hx
      simp only [List.nil_append, List.mem_filter, List.mem_range, beq_iff_eq]
        at hx
      omega

/-- Any fuel budget of at least `n + 1` yields the same Kahn run: the chosen
budget is sufficient. -/
theorem kahnOrder_fuel (n : ℕ) (conns : List (ℕ × ℕ × ℚ))
    (hc : ∀ c ∈ conns, c.2.1 < n) :
    ∀ fuel, n + 1 ≤ fuel →
      kahnLoop (adj conns) fuel (inDeg conns)
          ((List.range n).filter (fun i => inDeg conns i == 0)) [] =
        kahnOrder n conns := by
  intro fuel hfuel
  rw [kahnOrder]
  apply kahnLoop_fuel_stable n (adj conns)
  · intro v t hmem
    rw [adj, List.mem_map] at hmem
    obtain ⟨c, hcf, rfl⟩ := hmem
    exact hc c (List.mem_of_mem_filter hcf)
  · refine ⟨by simpa using (List.nodup_range n).filter _, ?_, ?_⟩
    · intro x hx
      simp only [List.nil_append, List.mem_filter, List.mem_range] at hx
      exact hx.1
    · intro x hx
      simp only [List.nil_append, List.mem_filter, List.mem_range, beq_iff_eq]
        at hx
      omega
  · simpa using hfuel
  · simp

/-- When every node type is 0, 1 or 2, the type-grouped fallback order is a
permutation of all node indices. -/
theorem typeFallback_perm (types : List ℤ)
    (htypes : ∀ t ∈ types, t = 0 ∨ t = 1 ∨ t = 2) :
    (typeFallback types).Perm (List.range types.length) := by
  have h1 := List.filter_append_perm (fun i => types.getD i 0 == 0)
    (List.range types.length)
  have h2 := List.filter_append_perm (fun i => types.getD i 0 == 1)
    ((List.range types.length).filter (fun i => !(types.getD i 0 == 0)))
  have hA : ((List.range types.length).filter
        (fun i => !(types.getD i 0 == 0))).filter
          (fun i => types.getD i 0 == 1) =
      (List.range types.length).filter (fun i => types.getD i 0 == 1) := by
    rw [List.filter_filter]
    apply List.filter_congr
    intro x _
    by_cases h : types.getD x 0 = 1
    · rw [h]
      decide
    · have hb : (types.getD x 0 == 1) = false := beq_eq_false_iff_ne.mpr h
      rw [hb, Bool.false_and]
  have hB : ((List.range types.length).filter
        (fun i => !(types.getD i 0 == 0))).filter
          (fun i => !(types.getD i 0 == 1)) =
      (List.range types.length).filter (fun i => types.getD i 0 == 2) := by
    rw [List.filter_filter]
    apply List.filter_congr
    intro x hx
    have hmem : types.getD x 0 ∈ types := by
      rw [List.getD_eq_getElem types 0 (List.mem_range.mp hx)]
      exact List.getElem_mem _
    rcases htypes _ hmem with h | h | h <;> rw [h] <;> decide
  rw [hA, hB] at h2
  rw [typeFallback, List.append_assoc]
  exact (List.Perm.append_left _ h2).trans h1

/-- C9: for every input on which `create` succeeds and whose node types are
all 0 (input), 1 (hidden) or 2 (output), the evaluation order contains every
node exactly once (it is a permutation of the node indices); it is the Kahn
run when that run covered all nodes and the type-grouped fallback otherwise;
and the `n + 1` fuel budget of the modelled Kahn loop is sufficient (any
larger budget gives the same run, so the bounded model is faithful to the
source's unbounded `while`). -/
theorem claim_C9 (ids types : List ℤ) (biases : List ℚ) (cin cout : List ℤ)
    (cw : List ℚ) (cen : List ℕ) (net : RustNeatNetwork)
    (hcreate : create ids types biases cin cout cw cen = some net)
    (htypes : ∀ t ∈ types, t = 0 ∨ t = 1 ∨ t = 2) :
    net.node_order.Perm (List.range ids.length) ∧
    ((¬ (kahnOrder ids.length (buildConns ids cin cout cw cen)).length <
          ids.length ∧
        net.node_order =
          kahnOrder ids.length (buildConns ids cin cout cw cen)) ∨
      ((kahnOrder ids.length (buildConns ids cin cout cw cen)).length <
          ids.length ∧
        net.node_order = typeFallback types)) ∧
    ∀ fuel, ids.length + 1 ≤ fuel →
      kahnLoop (adj (buildConns ids cin cout cw cen)) fuel
          (inDeg (buildConns ids cin cout cw cen))
          ((List.range ids.length).filter
            (fun i => inDeg (buildConns ids cin cout cw cen) i == 0)) [] =
        kahnOrder ids.length (buildConns ids cin cout cw cen) := by
  rw [create] at hcreate
  by_cases hcond : types.length = ids.length ∧ ids.length ≤ biases.length ∧
      cin.length ≤ cout.length ∧ cin.length ≤ cw.length ∧
      cin.length ≤ cen.length
  · rw [if_pos hcond] at hcreate
    have hnet := (Option.some.injEq _ _).mp hcreate
    have hno : net.node_order =
        nodeOrder ids.length types (buildConns ids cin cout cw cen) := by
      rw [← hnet]
    have hcb : ∀ c ∈ buildConns ids cin cout cw cen, c.2.1 < ids.length :=
      fun c hc => (buildConns_bounds ids cin cout cw cen c hc).2
    have hk := kahnOrder_props ids.length (buildConns ids cin cout cw cen) hcb
    refine ⟨?_, ?_,
      kahnOrder_fuel ids.length (buildConns ids cin cout cw cen) hcb⟩
    · rw [hno, nodeOrder]
      by_cases hlen :
          (kahnOrder ids.length (buildConns ids cin cout cw cen)).length <
            ids.length
      · rw [if_pos hlen]
        have hp := typeFallback_perm types htypes
        rwa [hcond.1] at hp
      · rw [if_neg hlen]
        exact perm_range_of_nodup_of_length _ _ hk.1 hk.2 (le_of_not_lt hlen)
    · by_cases hlen :
          (kahnOrder ids.length (buildConns ids cin cout cw cen)).length <
            ids.length
      · exact Or.inr ⟨hlen, by rw [hno, nodeOrder, if_pos hlen]⟩
      · exact Or.inl ⟨hlen, by rw [hno, nodeOrder, if_neg hlen]⟩
  · rw [if_neg hcond] at hcreate
    exact absurd hcreate (by simp)

/-- The network `create` builds from a two-node, one-connection input. -/
def w9net : RustNeatNetwork :=
  { node_order := [0, 1], node_biases := [0, 0], input_indices := [0],
    output_indices := [1], connections := [(0, 1, 1)],
    incoming := [[], [(0, 1)]], activations := [0, 0],
    is_input := [true, false] }

/-- Witness for C9 at a concrete input: `create` succeeds on the two-node
network, the type hypothesis holds, and the built order is a permutation of
the node indices. -/
theorem claim_C9_witness :
    create [0, 1] [0, 2] [0, 0] [0] [1] [1] [1] = some w9net ∧
    (∀ t ∈ ([0, 2] : List ℤ), t = 0 ∨ t = 1 ∨ t = 2) ∧
    w9net.node_order.Perm (List.range ([0, 1] : List ℤ).length) :=
  ⟨by decide, by decide,
    (claim_C9 [0, 1] [0, 2] [0, 0] [0] [1] [1] [1] w9net (by decide)
      (by decide)).1⟩

/-! ### C1: input-length handling of the two forward passes -/

theorem dotAcc_succ (init : Option ℚ) (f : ℕ → Option ℚ) (k : ℕ) :
    dotAcc init f (k + 1) =
      (dotAcc init f k).bind (fun a => (f k).bind (fun t => some (a + t))) := by
  rw [dotAcc, dotAcc, List.range_succ, List.foldl_append]
  rfl

theorem dotAcc_congr (init : Option ℚ) {f g : ℕ → Option ℚ} (k : ℕ)
    (h : ∀ i < k, f i = g i) : dotAcc init f k = dotAcc init g k := by
  rw [dotAcc, dotAcc]
  apply List.foldl_ext
  intro a b hb
  rw [h b (List.mem_range.mp hb)]

theorem dotAcc_term_none (init : Option ℚ) (f : ℕ → Option ℚ) (k i : ℕ)
    (hi : i < k) (hf : f i = none) : dotAcc init f k = none := by
  induction k with
  | zero => omega
  | succ j ih =>
    rw [dotAcc_succ]
    by_cases hij : i < j
    · rw [ih hij]
      rfl
    · have hij' : i = j := by omega
      subst hij'
      cases hd : dotAcc init f i with
      | none => rfl
      | some a =>
        rw [hf]
        rfl

theorem mapMOpt_congr {f g : ℕ → Option ℚ} (xs : List ℕ)
    (h : ∀ x ∈ xs, f x = g x) : mapMOpt f xs = mapMOpt g xs := by
  induction xs with
  | nil => rfl
  | cons y ys ih =>
    rw [mapMOpt, mapMOpt, h y (List.mem_cons_self y ys),
      ih (fun x hx => h x (List.mem_cons_of_mem y hx))]

theorem mapMOpt_none {f : ℕ → Option ℚ} (xs : List ℕ) (x : ℕ) (hx : x ∈ xs)
    (hf : f x = none) : mapMOpt f xs = none := by
  induction xs with
  | nil => exact absurd hx (List.not_mem_nil x)
  | cons y ys ih =>
    rw [mapMOpt]
    rcases List.mem_cons.mp hx with rfl | hx'
    · rw [hf]
      rfl
    · cases hy : f y with
      | none => rfl
      | some b =>
        rw [ih hx']
        rfl

theorem hTerm_take (net : RustNeuralNetwork) (inputs : List ℚ) (h i : ℕ)
    (hi : i < net.input_size) :
    hTerm net (inputs.take net.input_size) h i = hTerm net inputs h i := by
  rw [hTerm, hTerm, List.get?_take hi]

theorem hiddenVal_take (act : ℚ → ℚ) (net : RustNeuralNetwork)
    (inputs : List ℚ) (h : ℕ) :
    hiddenVal act net (inputs.take net.input_size) h =
      hiddenVal act net inputs h := by
  rw [hiddenVal, hiddenVal]
  cases hb : net.bias_h.get? h with
  | none => rfl
  | some b =>
    simp only [Option.bind_eq_bind, Option.some_bind]
    rw [dotAcc_congr (some b) net.input_size
      (fun i hi => hTerm_take net inputs h i hi)]

/-- The fixed-topology forward pass only reads the first `input_size` inputs:
excess inputs are silently truncated. -/
theorem forward_take (act : ℚ → ℚ) (net : RustNeuralNetwork)
    (inputs : List ℚ) :
    forward act net (inputs.take net.input_size) = forward act net inputs := by
  rw [forward, forward]
  rw [mapMOpt_congr (List.range net.hidden_size)
    (fun h _ => hiddenVal_take act net inputs h)]

theorem replicate_get?_getD (m j : ℕ) :
    ((List.replicate m (0 : ℚ)).get? j).getD 0 = 0 := by
  cases h : (List.replicate m (0 : ℚ)).get? j with
  | none => rfl
  | some a =>
    have ha := List.get?_mem h
    rw [List.eq_of_mem_replicate ha]
    rfl

theorem inVal_pad (inputs : List ℚ) (k i : ℕ) (hi : i < k) :
    inVal (inputs.take k ++ List.replicate (k - inputs.length) 0) i =
      inVal inputs i := by
  have hlen :
      (inputs.take k ++ List.replicate (k - inputs.length) 0).length = k := by
    rw [List.length_append, List.length_take, List.length_replicate]
    omega
  rw [inVal, inVal, hlen, if_pos hi]
  by_cases hil : i < inputs.length
  · rw [if_pos hil, List.getD_eq_getD_get?, List.getD_eq_getD_get?,
      List.get?_append (by rw [List.length_take]; omega), List.get?_take hi]
  · rw [if_neg hil,
      List.getD_eq_getD_get?,
      List.get?_append_right (by rw [List.length_take]; omega),
      replicate_get?_getD]

theorem setInputs_pad (idxs : List ℕ) (inputs acts : List ℚ) :
    setInputs idxs
        (inputs.take idxs.length ++
          List.replicate (idxs.length - inputs.length) 0) acts =
      setInputs idxs inputs acts := by
  rw [setInputs, setInputs]
  apply List.foldl_ext
  intro a b hb
  rw [inVal_pad inputs idxs.length b (List.mem_range.mp hb)]

/-- The NEAT forward pass zero-pads missing inputs and truncates excess
ones. -/
theorem forwardNeat_pad (act : ℚ → ℚ) (net : RustNeatNetwork)
    (inputs : List ℚ) :
    forwardNeat act net
        (inputs.take net.input_indices.length ++
          List.replicate (net.input_indices.length - inputs.length) 0) =
      forwardNeat act net inputs := by
  rw [forwardNeat, forwardNeat, setInputs_pad]

/-- A too-short input vector poisons the fixed-topology forward pass (the
out-of-bounds `inp.get_unchecked(i)` read). -/
theorem forward_short (act : ℚ → ℚ) (net : RustNeuralNetwork)
    (inputs : List ℚ) (hwf : wfNet net) (hh : 0 < net.hidden_size)
    (hshort : inputs.length < net.input_size) :
    forward act net inputs = none := by
  have hterm : hTerm net inputs 0 inputs.length = none := by
    rw [hTerm]
    cases hw : net.weights_ih.get? (0 * net.input_size + inputs.length) with
    | none => rfl
    | some w =>
      simp only [Option.bind_eq_bind, Option.some_bind]
      rw [List.get?_len_le (le_refl inputs.length)]
      rfl
  have hhv : hiddenVal act net inputs 0 = none := by
    rw [hiddenVal]
    cases hb : net.bias_h.get? 0 with
    | none => rfl
    | some b =>
      simp only [Option.bind_eq_bind, Option.some_bind]
      rw [dotAcc_term_none (some b) (hTerm net inputs 0) net.input_size
        inputs.length hshort hterm]
      rfl
  rw [forward,
    mapMOpt_none (List.range net.hidden_size) 0 (List.mem_range.mpr hh) hhv]
  rfl

/-- A well-formed 1-input, 1-hidden, 1-output network without memory. -/
def shortNet : RustNeuralNetwork :=
  ⟨1, 1, 1, false, [1], [0], [1], [0], [], []⟩

/-- Counterexample to C1 as stated: the fixed-topology forward pass is NOT
total on mismatched input lengths — on an empty input vector with
`input_size = 1` it reads past the end of the inputs (debug builds trip
`debug_assert_eq!`, release builds hit `get_unchecked` out of bounds),
modelled by `none`, rather than zero-padding. -/
theorem claim_C1_counterexample :
    wfNet shortNet ∧ forward (fun q => q) shortNet [] = none :=
  ⟨by unfold wfNet; decide, by rfl⟩

/-- C1 (amended): the NEAT evaluator handles any input length by truncating
excess entries and zero-filling missing ones; the fixed-topology evaluator
truncates excess entries, but a too-short input vector makes its forward
pass fail (out-of-bounds read) instead of zero-padding, for every network
with at least one hidden neuron. -/
theorem claim_C1 (act : ℚ → ℚ) :
    (∀ (net : RustNeatNetwork) (inputs : List ℚ),
      forwardNeat act net inputs =
        forwardNeat act net
          (inputs.take net.input_indices.length ++
            List.replicate (net.input_indices.length - inputs.length) 0)) ∧
    (∀ (net : RustNeuralNetwork) (inputs : List ℚ),
      forward act net inputs = forward act net (inputs.take net.input_size)) ∧
    ∀ (net : RustNeuralNetwork) (inputs : List ℚ),
      wfNet net → 0 < net.hidden_size → inputs.length < net.input_size →
      forward act net inputs = none :=
  ⟨fun net inputs => (forwardNeat_pad act net inputs).symm,
    fun net inputs => (forward_take act net inputs).symm,
    fun net inputs => forward_short act net inputs⟩

/-- Witness for C1 at a concrete input: the hypotheses of the failing-read
conjunct are satisfiable and the conclusion holds there. -/
theorem claim_C1_witness :
    wfNet shortNet ∧ 0 < shortNet.hidden_size ∧
    ([] : List ℚ).length < shortNet.input_size ∧
    forward (fun q => q) shortNet [] = none :=
  ⟨by unfold wfNet; decide, by decide, by decide,
    (claim_C1 (fun q => q)).2.2 shortNet [] (by unfold wfNet; decide)
      (by decide) (by decide)⟩

/-! ### Speciation (`neat_species.rs`)

`RustNeatSpecies::speciate` uses the thread RNG twice: to pick a random old
member as each surviving species' candidate representative, and to shuffle
the genome visiting order.  We model the first as a draw stream
`repDraw : ℕ → ℕ` consumed once per non-empty existing species (the source's
`gen::<usize>() % members.len()`), and the second as an explicit
`visitOrder` parameter, universally quantified over permutations of the
population indices in the theorems.  Godot-array reads (`population.at`,
`members.at`) are modelled with `getD`; every index the theorems exercise is
in bounds. -/

structure SpeciesRec where
  id : ℤ
  representative : ℕ
  members : List ℕ
  best_fitness : ℚ
  stagnant_generations : ℤ
  deriving DecidableEq, Repr

instance : Inhabited SpeciesRec := ⟨⟨0, 0, [], 0, 0⟩⟩

/-- The representative-extraction loop: skip empty species, pick the drawn
old member as candidate representative, reset members. -/
def initStep (repDraw : ℕ → ℕ) (st : List SpeciesRec × ℕ)
    (sp : SpeciesRec) : List SpeciesRec × ℕ :=
  if sp.members.isEmpty then st
  else
    (st.1 ++ [⟨sp.id,
        sp.members.getD (repDraw st.2 % sp.members.length) 0, [], 0,
        sp.stagnant_generations⟩],
     st.2 + 1)

def initSpecies (repDraw : ℕ → ℕ) (existing : List SpeciesRec) :
    List SpeciesRec :=
  (existing.foldl (initStep repDraw) ([], 0)).1

/-- The compatibility test against one species' representative. -/
def distOk (config : NeatConfig) (pop : List Genome) (g : Genome)
    (sp : SpeciesRec) : Bool :=
  decide (neat_distance g (pop.getD sp.representative default) config <
    config.compatibility_threshold)

/-- The first compatible species (the `break` on first match). -/
def assignIdx (config : NeatConfig) (pop : List Genome) (g : Genome)
    (S : List SpeciesRec) : Option ℕ :=
  (List.range S.length).find? (fun k => distOk config pop g (S.getD k default))

/-- Assigning one genome: push it onto the first compatible species and
record the assignment, or leave it unassigned. -/
def assignStep (config : NeatConfig) (pop : List Genome)
    (st : List SpeciesRec × (ℕ → Option ℕ)) (gidx : ℕ) :
    List SpeciesRec × (ℕ → Option ℕ) :=
  match assignIdx config pop (pop.getD gidx default) st.1 with
  | some k =>
      (st.1.set k
        { st.1.getD k default with
            members := (st.1.getD k default).members ++ [gidx] },
       Function.update st.2 gidx (some k))
  | none => st

/-- The whole assignment loop over the shuffled order, starting from the
extracted representatives and the all-`None` `genome_species` table. -/
def assignPhase (config : NeatConfig) (pop : List Genome) (repDraw : ℕ → ℕ)
    (existing : List SpeciesRec) (visitOrder : List ℕ) :
    List SpeciesRec × (ℕ → Option ℕ) :=
  visitOrder.foldl (assignStep config pop) (initSpecies repDraw existing, fun _ => none)

/-- The records the new-species loop appends: one singleton species per
unassigned genome, ids consecutive from `next`. -/
def newRecsFrom (next : ℤ) : List ℕ → List SpeciesRec
  | [] => []
  | g :: gs => ⟨next, g, [g], 0, 0⟩ :: newRecsFrom (next + 1) gs

/-- One step of the new-species loop. -/
def newStep (m : ℕ → Option ℕ) (p : List SpeciesRec × ℤ) (gidx : ℕ) :
    List SpeciesRec × ℤ :=
  if (m gidx).isNone then (p.1 ++ [⟨p.2, gidx, [gidx], 0, 0⟩], p.2 + 1)
  else p

/-- The best-member scan (strict improvement, first winner kept). -/
def bestMember (pop : List Genome) (ms : List ℕ) : ℕ × ℚ :=
  (ms.drop 1).foldl
    (fun bp mi =>
      if bp.2 < (pop.getD mi default).fitness then
        (mi, (pop.getD mi default).fitness)
      else bp)
    (ms.getD 0 0, (pop.getD (ms.getD 0 0) default).fitness)

/-- The representative-update loop body: non-empty species get the
best-fitness member as representative. -/
def updateRep (pop : List Genome) (sp : SpeciesRec) : SpeciesRec :=
  if sp.members.isEmpty then sp
  else
    { sp with representative := (bestMember pop sp.members).1,
              best_fitness := (bestMember pop sp.members).2 }

/-- Faithful translation of `RustNeatSpecies::speciate`: early empty-pop
return, representative extraction, assignment in shuffled order, new species
for the unassigned, best-member representative update, empty-species
removal; returns the species list and the next fresh id. -/
def speciate (config : NeatConfig) (pop : List Genome)
    (existing : List SpeciesRec) (next0 : ℤ) (repDraw : ℕ → ℕ)
    (visitOrder : List ℕ) : List SpeciesRec × ℤ :=
  if pop.length = 0 then ([], next0)
  else
    ((((List.range pop.length).foldl
          (newStep (assignPhase config pop repDraw existing visitOrder).2)
          ((assignPhase config pop repDraw existing visitOrder).1,
            next0)).1.map (updateRep pop)).filter
        (fun sp => !sp.members.isEmpty),
     ((List.range pop.length).foldl
        (newStep (assignPhase config pop repDraw existing visitOrder).2)
        ((assignPhase config pop repDraw existing visitOrder).1, next0)).2)

theorem initSpecies_members_aux (repDraw : ℕ → ℕ) :
    ∀ (ex : List SpeciesRec) (acc : List SpeciesRec) (c : ℕ),
      (∀ sp ∈ acc, sp.members = []) →
      ∀ sp ∈ (ex.foldl (initStep repDraw) (acc, c)).1, sp.members = [] := by
  intro ex
  induction ex with
  | nil => intro acc c hacc; exact hacc
  | cons x ex ih =>
    intro acc c hacc
    rw [List.foldl_cons, initStep]
    by_cases hx : x.members.isEmpty
    · rw [if_pos hx]
      exact ih acc c hacc
    · rw [if_neg hx]
      apply ih
      intro sp hsp
      rcases List.mem_append.mp hsp with hsp | hsp
      · exact hacc sp hsp
      · rw [List.mem_singleton] at hsp
        subst hsp
        rfl

/-- Every extracted candidate species starts with an empty member list. -/
theorem initSpecies_members (repDraw : ℕ → ℕ) (ex : List SpeciesRec) :
    ∀ sp ∈ initSpecies repDraw ex, sp.members = [] :=
  initSpecies_members_aux repDraw ex [] 0 (fun _ h => absurd h (List.not_mem_nil _))

theorem initSpecies_length_aux (repDraw : ℕ → ℕ) :
    ∀ (ex : List SpeciesRec) (acc : List SpeciesRec) (c : ℕ),
      ((ex.foldl (initStep repDraw) (acc, c)).1).length =
        acc.length + (ex.filter (fun sp => !sp.members.isEmpty)).length := by
  intro ex
  induction ex with
  | nil => intro acc c; simp
  | cons x ex ih =>
    intro acc c
    rw [List.foldl_cons, initStep]
    by_cases hx : x.members.isEmpty = true
    · rw [if_pos hx, ih]
      simp [List.filter_cons, hx]
    · rw [if_neg hx, ih]
      have hx' : x.members.isEmpty = false := by
        cases h2 : x.members.isEmpty
        · rfl
        · exact absurd h2 hx
      simp [List.filter_cons, hx']
      omega
  
/-- The extraction keeps one candidate per non-empty existing species. -/
theorem initSpecies_length (repDraw : ℕ → ℕ) (ex : List SpeciesRec) :
    (initSpecies repDraw ex).length =
      (ex.filter (fun sp => !sp.members.isEmpty)).length := by
  rw [initSpecies, initSpecies_length_aux]
  simp

/-- Closed form of the new-species loop: it appends one singleton species
per unassigned genome, with consecutive ids, and advances the id counter by
their number. -/
theorem newFold_eq (m : ℕ → Option ℕ) :
    ∀ (L : List ℕ) (acc : List SpeciesRec) (next : ℤ),
      L.foldl (newStep m) (acc, next) =
        (acc ++ newRecsFrom next (L.filter (fun g => (m g).isNone)),
         next + ((L.filter (fun g => (m g).isNone)).length : ℤ)) := by
  intro L
  induction L with
  | nil => intro acc next; simp [newRecsFrom]
  | cons g L ih =>
    intro acc next
    cases hg : (m g).isNone with
    | false =>
      have hstep : newStep m (acc, next) g = (acc, next) := by
        rw [newStep, if_neg]
        rw [hg]
        exact Bool.false_ne_true
      rw [List.foldl_cons, hstep, ih]
      simp [List.filter_cons, hg]
    | true =>
      have hstep : newStep m (acc, next) g =
          (acc ++ [⟨next, g, [g], 0, 0⟩], next + 1) := by
        rw [newStep, if_pos hg]
      rw [List.foldl_cons, hstep, ih]
      simp only [List.filter_cons, hg, if_pos]
      rw [Prod.mk.injEq]
      constructor
      · simp [newRecsFrom, List.append_assoc]
      · rw [List.length_cons]
        push_cast
        omega

theorem newRecsFrom_ids :
    ∀ (gs : List ℕ) (next : ℤ),
      (newRecsFrom next gs).map (fun sp => sp.id) =
        (List.range gs.length).map (fun j : ℕ => next + (j : ℤ)) := by
  intro gs
  induction gs with
  | nil => intro next; rfl
  | cons g gs ih =>
    intro next
    rw [newRecsFrom, List.map_cons, ih, List.length_cons,
      List.range_succ_eq_map, List.map_cons, List.map_map]
    congr 1
    · simp
    · apply List.map_congr_left
      intro j hj
      simp only [Function.comp_apply]
      push_cast
      ring

theorem newRecsFrom_members (gs : List ℕ) :
    ∀ next, (newRecsFrom next gs).map (fun sp => sp.members) =
      gs.map (fun g => [g]) := by
  induction gs with
  | nil => intro next; rfl
  | cons g gs ih => intro next; rw [newRecsFrom, List.map_cons, ih, List.map_cons]

theorem newRecsFrom_length (gs : List ℕ) :
    ∀ next, (newRecsFrom next gs).length = gs.length := by
  induction gs with
  | nil => intro next; rfl
  | cons g gs ih =>
    intro next
    rw [newRecsFrom, List.length_cons, ih, List.length_cons]

/-- `updateRep` never touches the member list. -/
theorem updateRep_members (pop : List Genome) (sp : SpeciesRec) :
    (updateRep pop sp).members = sp.members := by
  rw [updateRep]
  by_cases h : sp.members.isEmpty = true
  · rw [if_pos h]
  · rw [if_neg h]

/-- `updateRep` never touches the id. -/
theorem updateRep_id (pop : List Genome) (sp : SpeciesRec) :
    (updateRep pop sp).id = sp.id := by
  rw [updateRep]
  by_cases h : sp.members.isEmpty = true
  · rw [if_pos h]
  · rw [if_neg h]

/-- Dropping the empty lists does not change the concatenation. -/
theorem flatten_filter_nonempty {α : Type} (L : List (List α)) :
    ((L.filter (fun l => !l.isEmpty)).flatten) = L.flatten := by
  induction L with
  | nil => rfl
  | cons l L ih =>
    rw [List.filter_cons]
    by_cases h : l.isEmpty = true
    · have h0 : l = [] := List.isEmpty_iff.mp h
      have hb : (!l.isEmpty) = false := by rw [h]; rfl
      rw [hb, if_neg Bool.false_ne_true, ih, List.flatten_cons, h0,
        List.nil_append]
    · have hb : (!l.isEmpty) = true := by
        cases h2 : l.isEmpty
        · rfl
        · exact absurd h2 h
      rw [hb, if_pos rfl, List.flatten_cons, List.flatten_cons, ih]

theorem flatten_singletons {α : Type} (gs : List α) :
    (gs.map (fun g => [g])).flatten = gs := by
  induction gs with
  | nil => rfl
  | cons g gs ih => rw [List.map_cons, List.flatten_cons, ih, List.singleton_append]

/-- `getD` after `set` at a valid index. -/
theorem getD_set_lt (S : List SpeciesRec) (k0 k : ℕ) (a : SpeciesRec)
    (hk : k < S.length) :
    (S.set k0 a).getD k default = if k0 = k then a else S.getD k default := by
  have hk' : k < (S.set k0 a).length := by rwa [List.length_set]
  rw [List.getD_eq_getElem _ _ hk', List.getElem_set, List.getD_eq_getElem _ _ hk]

/-- `find?` only depends on the predicate's values on the list. -/
theorem find?_congr {α : Type} (p q : α → Bool) :
    ∀ l : List α, (∀ x ∈ l, p x = q x) → l.find? p = l.find? q := by
  intro l
  induction l with
  | nil => intro _; rfl
  | cons x l ih =>
    intro h
    rw [List.find?_cons, List.find?_cons, h x (List.mem_cons_self x l)]
    cases q x
    · exact ih (fun y hy => h y (List.mem_cons_of_mem x hy))
    · rfl

/-- The compatibility test reads only the representative. -/
theorem distOk_rep (config : NeatConfig) (pop : List Genome) (g : Genome)
    (sp sp' : SpeciesRec) (h : sp.representative = sp'.representative) :
    distOk config pop g sp = distOk config pop g sp' := by
  rw [distOk, distOk, h]

/-- `assignIdx` only depends on the species count and representatives. -/
theorem assignIdx_congr (config : NeatConfig) (pop : List Genome) (g : Genome)
    (S S' : List SpeciesRec) (hlen : S.length = S'.length)
    (hrep : ∀ k, (S.getD k default).representative =
      (S'.getD k default).representative) :
    assignIdx config pop g S = assignIdx config pop g S' := by
  rw [assignIdx, assignIdx, hlen]
  apply find?_congr
  intro k _
  exact distOk_rep config pop g _ _ (hrep k)

/-- One assignment step preserves the species count and every
representative. -/
theorem assignStep_reps (config : NeatConfig) (pop : List Genome)
    (st : List SpeciesRec × (ℕ → Option ℕ)) (g : ℕ) :
    (assignStep config pop st g).1.length = st.1.length ∧
    ∀ k, ((assignStep config pop st g).1.getD k default).representative =
      (st.1.getD k default).representative := by
  rw [assignStep]
  cases ha : assignIdx config pop (pop.getD g default) st.1 with
  | none => exact ⟨rfl, fun k => rfl⟩
  | some k0 =>
    refine ⟨List.length_set _ _ _, ?_⟩
    intro k
    by_cases hk : k < st.1.length
    · rw [getD_set_lt _ _ _ _ hk]
      by_cases he : k0 = k
      · rw [if_pos he, he]
      · rw [if_neg he]
    · have hk2 : st.1.length ≤ k := le_of_not_lt hk
      rw [List.getD_eq_default _ _ (by rwa [List.length_set]),
        List.getD_eq_default _ _ hk2]

/-- Invariant of the assignment loop: the species count is preserved, each
species' member list is exactly the visited genomes assigned to it (in visit
order), and every assignment stays in range. -/
theorem assignFold_inv (config : NeatConfig) (pop : List Genome) :
    ∀ (L : List ℕ) (S : List SpeciesRec) (m : ℕ → Option ℕ) (V : List ℕ),
      (V ++ L).Nodup →
      (∀ k, k < S.length →
        (S.getD k default).members = V.filter (fun x => m x == some k)) →
      (∀ x k, m x = some k → k < S.length) →
      (∀ x ∈ L, m x = none) →
      (L.foldl (assignStep config pop) (S, m)).1.length = S.length ∧
      (∀ k, k < S.length →
        ((L.foldl (assignStep config pop) (S, m)).1.getD k default).members =
          (V ++ L).filter
            (fun x => (L.foldl (assignStep config pop) (S, m)).2 x == some k)) ∧
      ∀ x k, (L.foldl (assignStep config pop) (S, m)).2 x = some k →
        k < S.length := by
  intro L
  induction L with
  | nil =>
    intro S m V h1 h2 h3 h4
    refine ⟨rfl, ?_, h3⟩
    intro k hk
    rw [List.append_nil]
    exact h2 k hk
  | cons g L ih =>
    intro S m V h1 h2 h3 h4
    have hgV : g ∉ V := by
      rw [List.nodup_append] at h1
      exact fun hgv => h1.2.2 hgv (List.mem_cons_self g L)
    have hgL : g ∉ L := by
      rw [List.nodup_append] at h1
      exact (List.nodup_cons.mp h1.2.1).1
    have h1' : ((V ++ [g]) ++ L).Nodup := by
      rw [List.append_assoc, List.singleton_append]
      exact h1
    have hmg : m g = none := h4 g (List.mem_cons_self g L)
    rw [List.foldl_cons]
    cases ha : assignIdx config pop (pop.getD g default) S with
    | none =>
      have hstep : assignStep config pop (S, m) g = (S, m) := by
        simp only [assignStep, ha]
      rw [hstep]
      have h2' : ∀ k, k < S.length →
          (S.getD k default).members =
            (V ++ [g]).filter (fun x => m x == some k) := by
        intro k hk
        rw [List.filter_append, h2 k hk]
        have hb : (m g == some k) = false := by rw [hmg]; rfl
        simp [List.filter_cons, hb]
      obtain ⟨c1, c2, c3⟩ := ih S m (V ++ [g]) h1' h2' h3
        (fun x hx => h4 x (List.mem_cons_of_mem g hx))
      refine ⟨c1, ?_, c3⟩
      intro k hk
      have hre : V ++ g :: L = (V ++ [g]) ++ L := by simp
      rw [hre]
      exact c2 k hk
    | some k0 =>
      have hk0 : k0 < S.length :=
        List.mem_range.mp (List.mem_of_find?_eq_some ha)
      have hstep : assignStep config pop (S, m) g =
          (S.set k0 { S.getD k0 default with
              members := (S.getD k0 default).members ++ [g] },
           Function.update m g (some k0)) := by
        simp only [assignStep, ha]
      rw [hstep]
      have hfV : ∀ k, V.filter (fun x => Function.update m g (some k0) x == some k) =
          V.filter (fun x => m x == some k) := by
        intro k
        apply List.filter_congr
        intro x hxV
        have hne : x ≠ g := fun he => hgV (he ▸ hxV)
        rw [Function.update_noteq hne]
      have h2' : ∀ k, k < (S.set k0 { S.getD k0 default with
            members := (S.getD k0 default).members ++ [g] }).length →
          ((S.set k0 { S.getD k0 default with
              members := (S.getD k0 default).members ++ [g] }).getD k
            default).members =
            (V ++ [g]).filter
              (fun x => Function.update m g (some k0) x == some k) := by
        intro k hk
        rw [List.length_set] at hk
        rw [getD_set_lt _ _ _ _ hk, List.filter_append, hfV k]
        by_cases he : k0 = k
        · subst he
          rw [if_pos rfl]
          have hb : (Function.update m g (some k0) g == some k0) = true := by
            rw [Function.update_same]
            exact beq_self_eq_true _
          rw [h2 k0 hk0]
          simp [List.filter_cons, hb]
        · rw [if_neg he, h2 k hk]
          have hb : (Function.update m g (some k0) g == some k) = false := by
            rw [Function.update_same]
            exact beq_eq_false_iff_ne.mpr (fun hc => he (Option.some.injEq _ _ ▸ hc ▸ rfl))
          simp [List.filter_cons, hb, he]
      have h3' : ∀ x k, Function.update m g (some k0) x = some k →
          k < (S.set k0 { S.getD k0 default with
            members := (S.getD k0 default).members ++ [g] }).length := by
        intro x k hx
        rw [List.length_set]
        by_cases hxg : x = g
        · subst hxg
          rw [Function.update_same] at hx
          have hkk : k0 = k := (Option.some.injEq _ _).mp hx
          rw [← hkk]
          exact hk0
        · rw [Function.update_noteq hxg] at hx
          exact h3 x k hx
      have h4' : ∀ x ∈ L, Function.update m g (some k0) x = none := by
        intro x hx
        have hne : x ≠ g := fun he => hgL (he ▸ hx)
        rw [Function.update_noteq hne]
        exact h4 x (List.mem_cons_of_mem g hx)
      obtain ⟨c1, c2, c3⟩ := ih _ _ (V ++ [g]) h1' h2' h3' h4'
      rw [List.length_set] at c1
      refine ⟨c1, ?_, ?_⟩
      · intro k hk
        have hre : V ++ g :: L = (V ++ [g]) ++ L := by simp
        rw [hre]
        exact c2 k (by rw [List.length_set]; exact hk)
      · intro x k hx
        have hc := c3 x k hx
        rwa [List.length_set] at hc

/-- The assignment loop never changes any representative, and each visited
genome's recorded assignment equals its first compatible species against the
initial list (representatives never move, so the evolving list gives the
same answer). -/
theorem assignFold_m (config : NeatConfig) (pop : List Genome) :
    ∀ (L : List ℕ) (S : List SpeciesRec) (m : ℕ → Option ℕ),
      L.Nodup →
      (∀ x ∈ L, m x = none) →
      (∀ k, ((L.foldl (assignStep config pop) (S, m)).1.getD k
          default).representative = (S.getD k default).representative) ∧
      (∀ x ∈ L, (L.foldl (assignStep config pop) (S, m)).2 x =
        assignIdx config pop (pop.getD x default) S) ∧
      ∀ x, x ∉ L → (L.foldl (assignStep config pop) (S, m)).2 x = m x := by
  intro L
  induction L with
  | nil =>
    intro S m _ _
    exact ⟨fun k => rfl, fun x hx => absurd hx (List.not_mem_nil x),
      fun x _ => rfl⟩
  | cons g L ih =>
    intro S m hnd h4
    have hgL : g ∉ L := (List.nodup_cons.mp hnd).1
    have hndL : L.Nodup := (List.nodup_cons.mp hnd).2
    have hreps := assignStep_reps config pop (S, m) g
    rw [List.foldl_cons]
    cases ha : assignIdx config pop (pop.getD g default) S with
    | none =>
      have hstep : assignStep config pop (S, m) g = (S, m) := by
        simp only [assignStep, ha]
      rw [hstep]
      obtain ⟨c2, c3, c4⟩ := ih S m hndL
        (fun x hx => h4 x (List.mem_cons_of_mem g hx))
      refine ⟨c2, ?_, ?_⟩
      · intro x hx
        rcases List.mem_cons.mp hx with rfl | hx'
        · rw [c4 x hgL, h4 x (List.mem_cons_self x L), ha]
        · exact c3 x hx'
      · intro x hx
        exact c4 x (fun h => hx (List.mem_cons_of_mem g h))
    | some k0 =>
      have hstep : assignStep config pop (S, m) g =
          (S.set k0 { S.getD k0 default with
              members := (S.getD k0 default).members ++ [g] },
           Function.update m g (some k0)) := by
        simp only [assignStep, ha]
      rw [hstep] at hreps
      rw [hstep]
      have h4' : ∀ x ∈ L, Function.update m g (some k0) x = none := by
        intro x hx
        have hne : x ≠ g := fun he => hgL (by rwa [he] at hx)
        rw [Function.update_noteq hne]
        exact h4 x (List.mem_cons_of_mem g hx)
      obtain ⟨c2, c3, c4⟩ := ih
        (S.set k0 { S.getD k0 default with
          members := (S.getD k0 default).members ++ [g] })
        (Function.update m g (some k0)) hndL h4'
      refine ⟨fun k => by rw [c2 k, hreps.2 k], ?_, ?_⟩
      · intro x hx
        rcases List.mem_cons.mp hx with rfl | hx'
        · rw [c4 x hgL, Function.update_same, ha]
        · rw [c3 x hx']
          exact assignIdx_congr config pop _ _ _ (List.length_set _ _ _)
            hreps.2
      · intro x hx
        have hne : x ≠ g := fun he => hx (by rw [he]; exact List.mem_cons_self g L)
        rw [c4 x (fun h => hx (List.mem_cons_of_mem g h)),
          Function.update_noteq hne]

/-- Core partition fact: if every species' member list is the visited
genomes assigned to it and assignments are in range, then the assigned
members together with the unassigned indices are a permutation of all
population indices. -/
theorem partition_flatten_perm (n : ℕ) (S1 : List SpeciesRec)
    (m1 : ℕ → Option ℕ) (vo : List ℕ) (hvo : vo.Perm (List.range n))
    (hmem : ∀ k, k < S1.length →
      (S1.getD k default).members = vo.filter (fun x => m1 x == some k))
    (hrange : ∀ x k, m1 x = some k → k < S1.length) :
    ((S1.map (fun sp => sp.members)).flatten ++
        (List.range n).filter (fun g => (m1 g).isNone)).Perm
      (List.range n) := by
  have hvoN : vo.Nodup := (hvo.nodup_iff).mpr (List.nodup_range n)
  have hvomem : ∀ g, g ∈ vo ↔ g < n := fun g => by
    rw [hvo.mem_iff, List.mem_range]
  refine List.perm_of_nodup_nodup_toFinset_eq ?_ (List.nodup_range n) ?_
  · rw [List.nodup_append]
    refine ⟨?_, (List.nodup_range n).filter _, ?_⟩
    · rw [List.nodup_flatten]
      constructor
      · intro l hl
        rw [List.mem_map] at hl
        obtain ⟨sp, hsp, rfl⟩ := hl
        rw [List.mem_iff_getElem] at hsp
        obtain ⟨k, hk, rfl⟩ := hsp
        rw [← List.getD_eq_getElem _ default hk, hmem k hk]
        exact hvoN.filter _
      · rw [List.pairwise_iff_getElem]
        intro i j hi hj hij
        rw [List.length_map] at hi hj
        rw [List.getElem_map, List.getElem_map]
        intro a hai haj
        rw [← List.getD_eq_getElem _ default hi, hmem i hi,
          List.mem_filter] at hai
        rw [← List.getD_eq_getElem _ default hj, hmem j hj,
          List.mem_filter] at haj
        have h1 := eq_of_beq hai.2
        have h2 := eq_of_beq haj.2
        rw [h1] at h2
        exact absurd ((Option.some.injEq _ _).mp h2) (Nat.ne_of_lt hij)
    · intro a ha hau
      rw [List.mem_flatten] at ha
      obtain ⟨l, hl, hal⟩ := ha
      rw [List.mem_map] at hl
      obtain ⟨sp, hsp, rfl⟩ := hl
      rw [List.mem_iff_getElem] at hsp
      obtain ⟨k, hk, rfl⟩ := hsp
      rw [← List.getD_eq_getElem _ default hk, hmem k hk,
        List.mem_filter] at hal
      rw [List.mem_filter] at hau
      have hsome := eq_of_beq hal.2
      rw [hsome] at hau
      exact Bool.false_ne_true hau.2
  · ext g
    simp only [List.mem_toFinset, List.mem_append, List.mem_flatten,
      List.mem_filter, List.mem_range]
    constructor
    · rintro (⟨l, hl, hgl⟩ | ⟨hg, _⟩)
      · rw [List.mem_map] at hl
        obtain ⟨sp, hsp, rfl⟩ := hl
        rw [List.mem_iff_getElem] at hsp
        obtain ⟨k, hk, rfl⟩ := hsp
        rw [← List.getD_eq_getElem _ default hk, hmem k hk,
          List.mem_filter] at hgl
        exact (hvomem g).mp hgl.1
      · exact hg
    · intro hg
      cases hm : m1 g with
      | none => exact Or.inr ⟨hg, rfl⟩
      | some k =>
        have hk : k < S1.length := hrange g k hm
        refine Or.inl ⟨(S1.getD k default).members, ?_, ?_⟩
        · have hin : S1.getD k default ∈ S1 := by
            rw [List.getD_eq_getElem _ _ hk]
            exact List.getElem_mem _
          exact List.mem_map_of_mem _ hin
        · rw [hmem k hk, List.mem_filter]
          exact ⟨(hvomem g).mpr hg, by simp [hm]⟩

theorem final_map_members (pop : List Genome) (X : List SpeciesRec) :
    ((((X.map (updateRep pop)).filter (fun sp => !sp.members.isEmpty)).map
        (fun sp => sp.members)).flatten) =
      (X.map (fun sp => sp.members)).flatten := by
  rw [List.filter_map, List.map_map]
  have h2 : X.filter ((fun sp => !sp.members.isEmpty) ∘ updateRep pop) =
      X.filter (fun sp => !sp.members.isEmpty) := by
    apply List.filter_congr
    intro sp _
    simp only [Function.comp_apply, updateRep_members]
  have h1 : (X.filter (fun sp => !sp.members.isEmpty)).map
        ((fun sp => sp.members) ∘ updateRep pop) =
      (X.filter (fun sp => !sp.members.isEmpty)).map (fun sp => sp.members) := by
    apply List.map_congr_left
    intro sp _
    simp only [Function.comp_apply, updateRep_members]
  rw [h2, h1]
  have h3 : X.filter (fun sp => !sp.members.isEmpty) =
      X.filter ((fun l : List ℕ => !l.isEmpty) ∘ (fun sp => sp.members)) := by
    apply List.filter_congr
    intro sp _
    rfl
  rw [h3, ← List.filter_map, flatten_filter_nonempty]

/-- The full behaviour of `speciate` on a non-empty population, for every
draw stream and every shuffle: the returned member lists partition the
population indices, no returned species is empty, and the new species sit at
the tail with consecutive ids from `next0`, the returned next id advancing
by their number. -/
theorem speciate_props (config : NeatConfig) (pop : List Genome)
    (existing : List SpeciesRec) (next0 : ℤ) (repDraw : ℕ → ℕ)
    (visitOrder : List ℕ) (hpop : ¬ pop.length = 0)
    (hvo : visitOrder.Perm (List.range pop.length)) :
    ((speciate config pop existing next0 repDraw visitOrder).1.map
        (fun sp => sp.members)).flatten.Perm (List.range pop.length) ∧
    (∀ sp ∈ (speciate config pop existing next0 repDraw visitOrder).1,
      sp.members ≠ []) ∧
    ∃ old new,
      (speciate config pop existing next0 repDraw visitOrder).1 =
          old ++ new ∧
        new.map (fun sp => sp.id) =
          (List.range new.length).map (fun j : ℕ => next0 + (j : ℤ)) ∧
        (speciate config pop existing next0 repDraw visitOrder).2 =
          next0 + (new.length : ℤ) := by
  have hvoN : visitOrder.Nodup :=
    (hvo.nodup_iff).mpr (List.nodup_range pop.length)
  obtain ⟨a1, a2, a3⟩ := assignFold_inv config pop visitOrder
    (initSpecies repDraw existing) (fun _ => none) []
    (by simpa using hvoN)
    (by
      intro k hk
      have hin : (initSpecies repDraw existing).getD k default ∈
          initSpecies repDraw existing := by
        rw [List.getD_eq_getElem _ _ hk]
        exact List.getElem_mem _
      rw [initSpecies_members repDraw existing _ hin, List.filter_nil])
    (by intro x k h; exact absurd h (by simp))
    (fun _ _ => rfl)
  rw [speciate, if_neg hpop, assignPhase, newFold_eq]
  refine ⟨?_, ?_, ?_⟩
  · rw [final_map_members, List.map_append, List.flatten_append,
      newRecsFrom_members, flatten_singletons]
    refine partition_flatten_perm pop.length _ _ visitOrder hvo ?_ ?_
    · intro k hk
      rw [a1] at hk
      have h := a2 k hk
      simpa using h
    · intro x k h
      rw [a1]
      exact a3 x k h
  · intro sp hsp
    rw [List.mem_filter] at hsp
    intro hemp
    rw [hemp] at hsp
    exact absurd hsp.2 (by decide)
  · refine ⟨((visitOrder.foldl (assignStep config pop)
        (initSpecies repDraw existing, fun _ => none)).1.map
          (updateRep pop)).filter (fun sp => !sp.members.isEmpty),
      (newRecsFrom next0 ((List.range pop.length).filter
        (fun g => ((visitOrder.foldl (assignStep config pop)
          (initSpecies repDraw existing, fun _ => none)).2 g).isNone))).map
        (updateRep pop), ?_, ?_, ?_⟩
    · dsimp only
      rw [List.map_append, List.filter_append]
      congr 1
      apply List.filter_eq_self.mpr
      intro sp hsp
      rw [List.mem_map] at hsp
      obtain ⟨sp0, hsp0, rfl⟩ := hsp
      have hm0 : sp0.members ∈ (newRecsFrom next0 _).map
          (fun sp => sp.members) := List.mem_map_of_mem _ hsp0
      rw [newRecsFrom_members] at hm0
      rw [List.mem_map] at hm0
      obtain ⟨g, _, hg⟩ := hm0
      rw [updateRep_members, ← hg]
      rfl
    · rw [List.map_map]
      have hcomp : (newRecsFrom next0 ((List.range pop.length).filter
            (fun g => ((visitOrder.foldl (assignStep config pop)
              (initSpecies repDraw existing, fun _ => none)).2 g).isNone))).map
            ((fun sp => sp.id) ∘ updateRep pop) =
          (newRecsFrom next0 ((List.range pop.length).filter
            (fun g => ((visitOrder.foldl (assignStep config pop)
              (initSpecies repDraw existing, fun _ => none)).2 g).isNone))).map
            (fun sp => sp.id) := by
        apply List.map_congr_left
        intro sp _
        simp only [Function.comp_apply, updateRep_id]
      rw [hcomp, newRecsFrom_ids, List.length_map, newRecsFrom_length]
    · dsimp only
      rw [List.length_map, newRecsFrom_length]

/-- C10: for every non-empty population, every set of existing species, and
every outcome of the random draws (any representative-draw stream and any
visiting order), the returned member lists partition the population indices
(each index in exactly one species), no returned species is empty, and the
returned next id is the input `next_species_id` plus the number of newly
created species, whose ids are allocated consecutively from it. -/
theorem claim_C10 (config : NeatConfig) (pop : List Genome)
    (existing : List SpeciesRec) (next0 : ℤ) (repDraw : ℕ → ℕ)
    (visitOrder : List ℕ) (hpop : pop ≠ [])
    (hvo : visitOrder.Perm (List.range pop.length)) :
    ((speciate config pop existing next0 repDraw visitOrder).1.map
        (fun sp => sp.members)).flatten.Perm (List.range pop.length) ∧
    (∀ sp ∈ (speciate config pop existing next0 repDraw visitOrder).1,
      sp.members ≠ []) ∧
    ∃ old new,
      (speciate config pop existing next0 repDraw visitOrder).1 =
          old ++ new ∧
        new.map (fun sp => sp.id) =
          (List.range new.length).map (fun j : ℕ => next0 + (j : ℤ)) ∧
        (speciate config pop existing next0 repDraw visitOrder).2 =
          next0 + (new.length : ℤ) := by
  have hlen : ¬ pop.length = 0 := by
    simpa [List.length_eq_zero] using hpop
  exact speciate_props config pop existing next0 repDraw visitOrder hlen hvo

/-- A one-genome population for the C10 witness. -/
def popC10 : List Genome := [⟨[], [], 0, 0, 0⟩]

/-- A configuration with zero compatibility threshold (nothing matches). -/
def cfgC10 : NeatConfig := ⟨0, 0, 0, 0, 0, 0, 0, 0, 0, 0, 1, 1, 1⟩

/-- Witness for C10 at a concrete input: the hypotheses hold for the
singleton population with visiting order `[0]`, and the partition conclusion
holds there. -/
theorem claim_C10_witness :
    popC10 ≠ [] ∧ [0].Perm (List.range popC10.length) ∧
    ((speciate cfgC10 popC10 [] 5 (fun _ => 0) [0]).1.map
      (fun sp => sp.members)).flatten.Perm (List.range popC10.length) :=
  ⟨by decide, by decide,
    (claim_C10 cfgC10 popC10 [] 5 (fun _ => 0) [0] (by decide)
      (by decide)).1⟩

/-- Config used by the C2 counterexample and witness: only the average
weight difference counts, with compatibility threshold 1. -/
def cfgC2 : NeatConfig := ⟨0, 0, 0, 0, 0, 0, 0, 0, 0, 1, 0, 0, 1⟩

/-- Two genomes sharing innovation 1 whose weights differ by 1/2 — closer
than the threshold, but each also matches itself. -/
def popC2 : List Genome :=
  [⟨[⟨1, 0, true⟩], [], 0, 0, 0⟩, ⟨[⟨1, mkRat 1 2, true⟩], [], 0, 0, 0⟩]

/-- Counterexample to C2 as stated: running `speciate` a second time on the
unchanged two-genome population (same threshold, same draws, same visiting
order) merges the two first-run singleton species into one — the first run
yields two species, the second run only one, so speciation is not idempotent
in species count. -/
theorem claim_C2_counterexample :
    (speciate cfgC2 popC2 [] 0 (fun _ => 0) [0, 1]).1.length = 2 ∧
    (speciate cfgC2 popC2
        (speciate cfgC2 popC2 [] 0 (fun _ => 0) [0, 1]).1
        (speciate cfgC2 popC2 [] 0 (fun _ => 0) [0, 1]).2
        (fun _ => 0) [0, 1]).1.length = 1 := by
  with_unfolding_all decide

/-- C2 (amended): speciation is not idempotent unconditionally (see the
counterexample), but it is stable whenever the second run's first-match
against the re-drawn representatives sends every genome back to the species
that contained it: then the second run returns the same number of species,
each with the same member set (as a permutation), and the same next id. -/
theorem claim_C2 (config : NeatConfig) (pop : List Genome)
    (existing : List SpeciesRec) (next0 : ℤ) (d1 d2 : ℕ → ℕ)
    (vo1 vo2 : List ℕ) (hpop : pop ≠ [])
    (hvo1 : vo1.Perm (List.range pop.length))
    (hvo2 : vo2.Perm (List.range pop.length))
    (hmatch : ∀ k, k < (speciate config pop existing next0 d1 vo1).1.length →
      ∀ i ∈ ((speciate config pop existing next0 d1 vo1).1.getD k
        default).members,
        assignIdx config pop (pop.getD i default)
            (initSpecies d2 (speciate config pop existing next0 d1 vo1).1) =
          some k) :
    (speciate config pop (speciate config pop existing next0 d1 vo1).1
        (speciate config pop existing next0 d1 vo1).2 d2 vo2).1.length =
      (speciate config pop existing next0 d1 vo1).1.length ∧
    (∀ k, k < (speciate config pop existing next0 d1 vo1).1.length →
      ((speciate config pop (speciate config pop existing next0 d1 vo1).1
          (speciate config pop existing next0 d1 vo1).2 d2 vo2).1.getD k
        default).members.Perm
        (((speciate config pop existing next0 d1 vo1).1.getD k
          default).members)) ∧
    (speciate config pop (speciate config pop existing next0 d1 vo1).1
        (speciate config pop existing next0 d1 vo1).2 d2 vo2).2 =
      (speciate config pop existing next0 d1 vo1).2 := by
  have hlen : ¬ pop.length = 0 := by
    simpa [List.length_eq_zero] using hpop
  obtain ⟨hA1, hB1, -⟩ :=
    speciate_props config pop existing next0 d1 vo1 hlen hvo1
  have hvo2N : vo2.Nodup :=
    (hvo2.nodup_iff).mpr (List.nodup_range pop.length)
  -- run-1 shorthand facts
  have hflat_nodup :
      (((speciate config pop existing next0 d1 vo1).1.map
        (fun sp => sp.members)).flatten).Nodup :=
    (hA1.nodup_iff).mpr (List.nodup_range pop.length)
  have hnodup1 : ∀ k,
      (hk : k < (speciate config pop existing next0 d1 vo1).1.length) →
      (((speciate config pop existing next0 d1 vo1).1.getD k
        default).members).Nodup := by
    intro k hk
    have hin : ((speciate config pop existing next0 d1 vo1).1.getD k
        default).members ∈
        (speciate config pop existing next0 d1 vo1).1.map
          (fun sp => sp.members) := by
      apply List.mem_map_of_mem
      rw [List.getD_eq_getElem _ _ hk]
      exact List.getElem_mem _
    exact ((List.nodup_flatten.mp hflat_nodup).1) _ hin
  have hmemflat : ∀ k,
      (hk : k < (speciate config pop existing next0 d1 vo1).1.length) →
      ∀ g ∈ ((speciate config pop existing next0 d1 vo1).1.getD k
        default).members, g < pop.length := by
    intro k hk g hg
    have hin : ((speciate config pop existing next0 d1 vo1).1.getD k
        default).members ∈
        (speciate config pop existing next0 d1 vo1).1.map
          (fun sp => sp.members) := by
      apply List.mem_map_of_mem
      rw [List.getD_eq_getElem _ _ hk]
      exact List.getElem_mem _
    have : g ∈ (((speciate config pop existing next0 d1 vo1).1.map
        (fun sp => sp.members)).flatten) :=
      List.mem_flatten.mpr ⟨_, hin, hg⟩
    exact List.mem_range.mp (hA1.mem_iff.mp this)
  have hcover : ∀ g, g < pop.length →
      ∃ k, k < (speciate config pop existing next0 d1 vo1).1.length ∧
        g ∈ ((speciate config pop existing next0 d1 vo1).1.getD k
          default).members := by
    intro g hg
    have : g ∈ (((speciate config pop existing next0 d1 vo1).1.map
        (fun sp => sp.members)).flatten) :=
      hA1.mem_iff.mpr (List.mem_range.mpr hg)
    rw [List.mem_flatten] at this
    obtain ⟨l, hl, hgl⟩ := this
    rw [List.mem_map] at hl
    obtain ⟨sp, hsp, rfl⟩ := hl
    rw [List.mem_iff_getElem] at hsp
    obtain ⟨k, hk, rfl⟩ := hsp
    rw [← List.getD_eq_getElem _ default hk] at hgl
    exact ⟨k, hk, hgl⟩
  -- the second run's extracted candidates
  have hfe : (speciate config pop existing next0 d1 vo1).1.filter
      (fun sp => !sp.members.isEmpty) =
      (speciate config pop existing next0 d1 vo1).1 := by
    apply List.filter_eq_self.mpr
    intro sp hsp
    have hne := hB1 sp hsp
    have hemp : sp.members.isEmpty = false := by
      rw [← Bool.not_eq_true, List.isEmpty_iff]
      exact hne
    rw [hemp]
    rfl
  have hS0len :
      (initSpecies d2 (speciate config pop existing next0 d1 vo1).1).length =
      (speciate config pop existing next0 d1 vo1).1.length := by
    rw [initSpecies_length, hfe]
  -- run-2 assignment phase
  obtain ⟨b1, b2, b3⟩ := assignFold_inv config pop vo2
    (initSpecies d2 (speciate config pop existing next0 d1 vo1).1)
    (fun _ => none) []
    (by simpa using hvo2N)
    (by
      intro k hk
      have hin : (initSpecies d2
            (speciate config pop existing next0 d1 vo1).1).getD k default ∈
          initSpecies d2 (speciate config pop existing next0 d1 vo1).1 := by
        rw [List.getD_eq_getElem _ _ hk]
        exact List.getElem_mem _
      rw [initSpecies_members d2 _ _ hin, List.filter_nil])
    (by intro x k h; exact absurd h (by simp))
    (fun _ _ => rfl)
  obtain ⟨-, r3, -⟩ := assignFold_m config pop vo2
    (initSpecies d2 (speciate config pop existing next0 d1 vo1).1)
    (fun _ => none) hvo2N (fun _ _ => rfl)
  -- every genome is re-assigned to its first-run species
  have hm2 : ∀ g, g < pop.length →
      ∃ k, k < (speciate config pop existing next0 d1 vo1).1.length ∧
        g ∈ ((speciate config pop existing next0 d1 vo1).1.getD k
          default).members ∧
        (vo2.foldl (assignStep config pop)
          (initSpecies d2 (speciate config pop existing next0 d1 vo1).1,
            fun _ => none)).2 g = some k := by
    intro g hg
    obtain ⟨k, hk, hgk⟩ := hcover g hg
    refine ⟨k, hk, hgk, ?_⟩
    rw [r3 g (hvo2.mem_iff.mpr (List.mem_range.mpr hg))]
    exact hmatch k hk g hgk
  have hU2 : (List.range pop.length).filter
      (fun g => ((vo2.foldl (assignStep config pop)
        (initSpecies d2 (speciate config pop existing next0 d1 vo1).1,
          fun _ => none)).2 g).isNone) = [] := by
    rw [List.filter_eq_nil_iff]
    intro g hg
    obtain ⟨k, -, -, hgk⟩ := hm2 g (List.mem_range.mp hg)
    rw [hgk]
    simp
  -- member-set equality per index
  have hiff : ∀ k, k < (speciate config pop existing next0 d1 vo1).1.length →
      ∀ g, (g ∈ ((vo2.foldl (assignStep config pop)
          (initSpecies d2 (speciate config pop existing next0 d1 vo1).1,
            fun _ => none)).1.getD k default).members ↔
        g ∈ ((speciate config pop existing next0 d1 vo1).1.getD k
          default).members) := by
    intro k hk g
    have hb2 := b2 k (by rw [hS0len]; exact hk)
    rw [hb2]
    simp only [List.nil_append, List.mem_filter]
    constructor
    · rintro ⟨hgvo, hgm⟩
      have hg : g < pop.length :=
        List.mem_range.mp (hvo2.mem_iff.mp hgvo)
      obtain ⟨k2, hk2, hgk2, hm⟩ := hm2 g hg
      have := eq_of_beq hgm
      rw [hm] at this
      have hkk : k2 = k := (Option.some.injEq _ _).mp this
      rw [← hkk]
      exact hgk2
    · intro hgm
      have hg : g < pop.length := hmemflat k hk g hgm
      refine ⟨hvo2.mem_iff.mpr (List.mem_range.mpr hg), ?_⟩
      rw [r3 g (hvo2.mem_iff.mpr (List.mem_range.mpr hg)),
        hmatch k hk g hgm]
      exact beq_self_eq_true _
  -- unfold the second run
  rw [speciate, if_neg hlen, assignPhase, newFold_eq, hU2]
  have hrecnil : newRecsFrom (speciate config pop existing next0 d1 vo1).2
      ([] : List ℕ) = [] := rfl
  rw [hrecnil, List.append_nil]
  have hkeep : (((vo2.foldl (assignStep config pop)
        (initSpecies d2 (speciate config pop existing next0 d1 vo1).1,
          fun _ => none)).1.map (updateRep pop)).filter
        (fun sp => !sp.members.isEmpty)) =
      ((vo2.foldl (assignStep config pop)
        (initSpecies d2 (speciate config pop existing next0 d1 vo1).1,
          fun _ => none)).1.map (updateRep pop)) := by
    apply List.filter_eq_self.mpr
    intro sp hsp
    rw [List.mem_map] at hsp
    obtain ⟨sp0, hsp0, rfl⟩ := hsp
    rw [List.mem_iff_getElem] at hsp0
    obtain ⟨k, hkl, rfl⟩ := hsp0
    have hk : k < (speciate config pop existing next0 d1 vo1).1.length := by
      rw [← hS0len, ← b1]
      exact hkl
    have hne : (((speciate config pop existing next0 d1 vo1).1.getD k
        default).members) ≠ [] := by
      apply hB1
      rw [List.getD_eq_getElem _ _ hk]
      exact List.getElem_mem _
    obtain ⟨g, hg⟩ := List.exists_mem_of_ne_nil _ hne
    have hgin := (hiff k hk g).mpr hg
    rw [updateRep_members, ← List.getD_eq_getElem _ default hkl]
    have : (((vo2.foldl (assignStep config pop)
        (initSpecies d2 (speciate config pop existing next0 d1 vo1).1,
          fun _ => none)).1.getD k default).members) ≠ [] := by
      intro hnil
      rw [hnil] at hgin
      exact List.not_mem_nil g hgin
    have hemp : (((vo2.foldl (assignStep config pop)
        (initSpecies d2 (speciate config pop existing next0 d1 vo1).1,
          fun _ => none)).1.getD k default).members).isEmpty = false := by
      rw [← Bool.not_eq_true, List.isEmpty_iff]
      exact this
    rw [hemp]
    rfl
  refine ⟨?_, ?_, ?_⟩
  · dsimp only
    rw [hkeep, List.length_map, b1, hS0len]
  · intro k hk
    dsimp only
    rw [hkeep]
    have hkl : k < ((vo2.foldl (assignStep config pop)
        (initSpecies d2 (speciate config pop existing next0 d1 vo1).1,
          fun _ => none)).1.map (updateRep pop)).length := by
      rw [List.length_map, b1, hS0len]
      exact hk
    rw [List.getD_eq_getElem _ _ hkl, List.getElem_map, updateRep_members,
      ← List.getD_eq_getElem _ default (by rw [b1, hS0len]; exact hk)]
    apply List.perm_of_nodup_nodup_toFinset_eq
    · have hb2 := b2 k (by rw [hS0len]; exact hk)
      rw [hb2]
      simp only [List.nil_append]
      exact hvo2N.filter _
    · exact hnodup1 k hk
    · ext g
      rw [List.mem_toFinset, List.mem_toFinset]
      exact hiff k hk g
  · dsimp only
    simp

/-- Population for the C2 witness: one shared innovation, weights 0 and 3 —
farther apart than the threshold, so each genome only matches itself. -/
def popC2w : List Genome :=
  [⟨[⟨1, 0, true⟩], [], 0, 0, 0⟩, ⟨[⟨1, 3, true⟩], [], 0, 0, 0⟩]

/-- Witness for C2 at a concrete input: the first-match proviso holds for
the two-singleton run, and the second run indeed returns the same number of
species. -/
theorem claim_C2_witness :
    popC2w ≠ [] ∧
    ([0, 1] : List ℕ).Perm (List.range popC2w.length) ∧
    (∀ k, k < (speciate cfgC2 popC2w [] 0 (fun _ => 0) [0, 1]).1.length →
      ∀ i ∈ ((speciate cfgC2 popC2w [] 0 (fun _ => 0) [0, 1]).1.getD k
        default).members,
        assignIdx cfgC2 popC2w (popC2w.getD i default)
            (initSpecies (fun _ => 0)
              (speciate cfgC2 popC2w [] 0 (fun _ => 0) [0, 1]).1) =
          some k) ∧
    (speciate cfgC2 popC2w
        (speciate cfgC2 popC2w [] 0 (fun _ => 0) [0, 1]).1
        (speciate cfgC2 popC2w [] 0 (fun _ => 0) [0, 1]).2
        (fun _ => 0) [0, 1]).1.length =
      (speciate cfgC2 popC2w [] 0 (fun _ => 0) [0, 1]).1.length :=
  ⟨by decide, by decide, by with_unfolding_all decide,
    (claim_C2 cfgC2 popC2w [] 0 (fun _ => 0) (fun _ => 0) [0, 1] [0, 1]
      (by decide) (by decide) (by decide)
      (by with_unfolding_all decide)).1⟩

end Evolve
